import Mathlib

/-!
# LPIclassify: the classification core of `LPIclassify.cc`

A shallow embedding of the two memoizing caches (`taxonomy_cache`, `peptide_cache`) and of the
scorer `blast_record::get_best_LPI`, followed by the properties proved about them.

Modelling conventions.

* `double` is an arbitrary linearly ordered field `K` (exact arithmetic); the theorems that speak
  about the logistic transform instantiate `K` with `ℝ` and `exp` with `Real.exp`.  Division is the
  field's division, with `x / 0 = 0` where IEEE arithmetic gives a NaN or an infinity.  The
  quotient `bit_score / bh_max_bitscore` with `bh_max_bitscore = 0` decides a comparison for hits
  of score zero and is made explicit in `hit_weight`.  The other quotients by zero need a level
  whose votes sum to zero; the properties below are stated for positive votes, or do not depend
  on the value of such a quotient.
* The prepared SQLite statements are functions from the bound key to the outcome of
  `sqlite3_bind_*` followed by `sqlite3_step`: `TaxStore` and `PepStore`.
* The caches `t`, `t_str`, `t_weight`, `p` are `std::map`s used only through `count`, `find`,
  `at` and `operator[]`; they are partial functions.  `lev_count` and `term_count` are used only
  through `operator[]`, whose default is `0.0`; they are total functions.  `taxid_count` is
  iterated, so it is the list of its entries in ascending key order.
* `get_lineage` walks the parent chain with a `do ... while` loop that need not terminate; the
  model takes a bound `fuel` on the number of iterations of one walk and returns `none` when the
  bound is hit.
* The two passes of `get_best_LPI` run through a lineage backwards from `term_list.end()-1`.  On
  an empty lineage that iterator lies before the vector and the C++ behaviour is undefined; the
  model returns `none` there as well.
* `print_lineage` reads the names with `t_str.at`, which throws `std::out_of_range` for a key
  without entry; the model returns no string there.
* Sequences of calls on a cache are lists (`cache_call`, `run_calls`, `pep_calls`); each call
  carries the store as it is at the time of the call.
-/

namespace LPIclassify

/-- The C++ `typedef int taxid_t`. -/
abbrev taxid_t := Int

/-! ## Stores -/

/-- Columns of `tax_node` read by `get_lineage`: `name` (0), `parent_tax_id` (2), `weight` (3). -/
structure TaxRow (K : Type) where
  name : String
  parent_tax_id : taxid_t
  weight : K

/-- Outcome of `sqlite3_bind_int` then `sqlite3_step` on the taxonomy statement: the bind fails,
or the step yields a row, or it yields anything else (`get_lineage` tests `== SQLITE_ROW` only). -/
inductive TaxStep (K : Type) where
  | bind_error : TaxStep K
  | no_row : TaxStep K
  | row : TaxRow K → TaxStep K

/-- The taxonomy statement `SELECT name, rank, parent_tax_id, weight FROM tax_node WHERE tax_id = ?`. -/
abbrev TaxStore (K : Type) := taxid_t → TaxStep K

/-- Outcome of `sqlite3_bind_text` then the `sqlite3_step` loop on the peptide statement. -/
inductive PepStep where
  | bind_error : PepStep
  | rows : List taxid_t → PepStep

/-- The peptide statement `SELECT c.tax_node_id FROM ... WHERE a.seq_id = ?`. -/
abbrev PepStore := String → PepStep

/-! ## Maps -/

/-- Assignment `m[k] = v` on a `std::map` seen as a partial function. -/
def map_set {α β : Type} [DecidableEq α] (m : α → Option β) (k : α) (v : β) : α → Option β :=
  fun j => if j = k then some v else m j

/-- Update `m[k] += x` on a `std::map<int,double>` seen as a total function with default `0.0`. -/
def map_acc {α K : Type} [DecidableEq α] [Add K] (m : α → K) (k : α) (x : K) : α → K :=
  fun j => if j = k then m j + x else m j

/-- Update `m[k] += x` on a `std::map<taxid_t,double>` kept as its entries in ascending key order;
a missing key is inserted with `0.0` first. -/
def map_add {K : Type} [Zero K] [Add K] : List (taxid_t × K) → taxid_t → K → List (taxid_t × K)
  | [], k, x => [(k, 0 + x)]
  | (k0, v) :: rest, k, x =>
    if k < k0 then (k, 0 + x) :: (k0, v) :: rest
    else if k = k0 then (k0, v + x) :: rest
    else (k0, v) :: map_add rest k x

/-! ## Data -/

/-- The C++ `struct LPI`. -/
structure LPI (K : Type) where
  score : K
  tax_id : taxid_t

/-- The C++ `struct blast_hit`. -/
structure blast_hit (K : Type) where
  subject_id : String
  bit_score : K

/-- The C++ `struct blast_record`. -/
structure blast_record (K : Type) where
  query_id : String
  blast_hits : List (blast_hit K)

/-- The C++ `class taxonomy_cache`: the memo maps `t`, `t_str`, `t_weight`. -/
structure taxonomy_cache (K : Type) where
  t : taxid_t → Option (List taxid_t)
  t_str : taxid_t → Option String
  t_weight : taxid_t → Option K

/-- The C++ `class peptide_cache`: the memo map `p`. -/
structure peptide_cache where
  p : String → Option (List taxid_t)

/-- A freshly constructed `taxonomy_cache`. -/
def taxonomy_cache.empty (K : Type) : taxonomy_cache K :=
  ⟨fun _ => none, fun _ => none, fun _ => none⟩

/-- A freshly constructed `peptide_cache`. -/
def peptide_cache.empty : peptide_cache := ⟨fun _ => none⟩

section Core

variable {K : Type} [LinearOrderedField K]

/-- The C++ `score_weight`: `1.0 - 1.0 / (1.0 + exp(-15 * ((1.0 - x) - 0.3)))`, with the library
function `exp` as a parameter. -/
def score_weight (exp : K → K) (x : K) : K :=
  1 - 1 / (1 + exp (-15 * ((1 - x) - 3 / 10)))

/-! ## taxonomy_cache -/

/-- Body of the `do ... while(curr_taxid > 0)` loop of `get_lineage`, iterated at most `fuel`
times.  `some (none, c)` is the early `return empty` on a bind error, `some (some term_list, c)`
the normal exit of the loop. -/
def lineage_loop (store : TaxStore K) :
    Nat → taxid_t → List taxid_t → taxonomy_cache K →
      Option (Option (List taxid_t) × taxonomy_cache K)
  | 0, _, _, _ => none
  | fuel + 1, curr_taxid, term_list, c =>
    match store curr_taxid with
    | TaxStep.bind_error => some (none, c)
    | TaxStep.no_row => some (some term_list, c)
    | TaxStep.row r =>
      let term_list1 := if r.parent_tax_id > 0 then term_list ++ [r.parent_tax_id] else term_list
      let c1 : taxonomy_cache K :=
        if c.t_str curr_taxid = none then { c with t_str := map_set c.t_str curr_taxid r.name }
        else c
      let c2 : taxonomy_cache K :=
        if c1.t_weight curr_taxid = none then
          { c1 with t_weight := map_set c1.t_weight curr_taxid (if r.weight > 1 then 1 else r.weight) }
        else c1
      if r.parent_tax_id > 0 then lineage_loop store fuel r.parent_tax_id term_list1 c2
      else some (some term_list1, c2)

/-- The C++ `taxonomy_cache::get_lineage`. -/
def taxonomy_cache.get_lineage (store : TaxStore K) (fuel : Nat) (c : taxonomy_cache K)
    (taxid : taxid_t) : Option (List taxid_t × taxonomy_cache K) :=
  if taxid > 0 then
    match c.t taxid with
    | some term_list => some (term_list, c)
    | none =>
      match lineage_loop store fuel taxid [taxid] c with
      | none => none
      | some (none, c1) => some ([], c1)
      | some (some term_list, c1) => some (term_list, { c1 with t := map_set c1.t taxid term_list })
  else some ([], c)

/-- The C++ `taxonomy_cache::get_weight`. -/
def taxonomy_cache.get_weight (c : taxonomy_cache K) (taxid : taxid_t) : K :=
  match c.t_weight taxid with
  | some w => w
  | none => 1

/-- Loop of `print_lineage` over the lineage from its last element to its first:
`if(!first) ss << ';'; ss << t_str.at(*it); first = false`.  `none` is the `std::out_of_range`
that `t_str.at` throws for a node without a memoized name. -/
def print_names (t_str : taxid_t → Option String) : List taxid_t → Bool → String → Option String
  | [], _, ss => some ss
  | x :: rest, first, ss =>
    match t_str x with
    | none => none
    | some s => print_names t_str rest false ((if first then ss else ss.push ';') ++ s)

/-- The C++ `taxonomy_cache::print_lineage`: `none` when the lineage walk does not end within
`fuel` iterations, `some (none, c)` when `t_str.at` throws, `some (some s, c)` when the call
returns the string `s`; `c` is the cache as left by the call. -/
def taxonomy_cache.print_lineage (store : TaxStore K) (fuel : Nat) (c : taxonomy_cache K)
    (taxid : taxid_t) : Option (Option String × taxonomy_cache K) :=
  match c.get_lineage store fuel taxid with
  | none => none
  | some (term_list, c1) =>
    if term_list.length > 0 then some (print_names c1.t_str term_list.reverse true "", c1)
    else some (some "", c1)

/-! ## peptide_cache -/

/-- The C++ `peptide_cache::get_peptide_taxids`. -/
def peptide_cache.get_peptide_taxids (store : PepStore) (c : peptide_cache) (pep_id : String) :
    List taxid_t × peptide_cache :=
  if pep_id.length > 0 then
    match c.p pep_id with
    | some l => (l, c)
    | none =>
      match store pep_id with
      | PepStep.bind_error => ([], c)
      | PepStep.rows l => (l, ⟨map_set c.p pep_id l⟩)
  else ([], c)

/-! ## blast_record::get_best_LPI -/

/-- First loop of `get_best_LPI`: the largest bit score, starting from `0.0`. -/
def bh_max_bitscore (hits : List (blast_hit K)) : K :=
  hits.foldl (fun m h => if h.bit_score > m then h.bit_score else m) 0

/-- The value `sw = score_weight(it->bit_score / bh_max_bitscore)`.  When `bh_max_bitscore` is
zero the IEEE quotient is not a number for a zero score (`none`: `sw >= min_score_weight` is then
false) and minus infinity for a negative score, where the logistic evaluates to `0.0`. -/
def hit_weight (exp : K → K) (bit_score bh_max : K) : Option K :=
  if bh_max = 0 then (if bit_score < 0 then some 0 else none)
  else some (score_weight exp (bit_score / bh_max))

/-- Inner loop of the vote accumulation: `taxid_count[*it2] += sw * tax_c->get_weight(*it2)`. -/
def count_taxids (tax_c : taxonomy_cache K) (sw : K) (taxid_list : List taxid_t)
    (taxid_count : List (taxid_t × K)) : List (taxid_t × K) :=
  taxid_list.foldl (fun m x => map_add m x (sw * tax_c.get_weight x)) taxid_count

/-- One iteration of the vote accumulation loop over `blast_hits`. -/
def count_hit (exp : K → K) (pstore : PepStore) (tax_c : taxonomy_cache K)
    (min_score_weight bh_max : K) (st : peptide_cache × List (taxid_t × K)) (h : blast_hit K) :
    peptide_cache × List (taxid_t × K) :=
  match hit_weight exp h.bit_score bh_max with
  | none => st
  | some sw =>
    if sw ≥ min_score_weight then
      let r := st.1.get_peptide_taxids pstore h.subject_id
      (r.2, count_taxids tax_c sw r.1 st.2)
    else st

/-- The vote accumulation loop: the peptide cache and `taxid_count` after all hits. -/
def count_hits (exp : K → K) (pstore : PepStore) (tax_c : taxonomy_cache K)
    (min_score_weight : K) (hits : List (blast_hit K)) (pep_c : peptide_cache) :
    peptide_cache × List (taxid_t × K) :=
  hits.foldl (count_hit exp pstore tax_c min_score_weight (bh_max_bitscore hits)) (pep_c, [])

/-- Inner loop of the first pass, over the lineage from its last element to its first:
`lev_count[lev] += v; term_count[*it2] += v; lev++`. -/
def tally (v : K) : List taxid_t → Nat → (Nat → K) × (taxid_t → K) → (Nat → K) × (taxid_t → K)
  | [], _, s => s
  | x :: rest, lev, s => tally v rest (lev + 1) (map_acc s.1 lev v, map_acc s.2 x v)

/-- First pass over `taxid_count`: fills `lev_count` and `term_count`.  The inner loop
`for (it2 = term_list.end()-1; it2 >= term_list.begin(); --it2)` starts before the vector when
`term_list` is empty, which is undefined in C++ (`print_lineage` guards the same loop with
`term_list.size() > 0`, this function does not): the pass then yields no result. -/
def tally_all (store : TaxStore K) (fuel : Nat) :
    List (taxid_t × K) → taxonomy_cache K → (Nat → K) × (taxid_t → K) →
      Option (taxonomy_cache K × ((Nat → K) × (taxid_t → K)))
  | [], c, s => some (c, s)
  | e :: rest, c, s =>
    match c.get_lineage store fuel e.1 with
    | none => none
    | some (term_list, c1) =>
      if term_list = [] then none
      else tally_all store fuel rest c1 (tally e.2 term_list.reverse 0 s)

/-- Inner loop of the second pass: accumulates `prob_sum` and `denom_sum`. -/
def lpi_sums (lev_count : Nat → K) (term_count : taxid_t → K) :
    List taxid_t → Nat → K × K → K × K
  | [], _, s => s
  | x :: rest, lev, s =>
    lpi_sums lev_count term_count rest (lev + 1)
      (s.1 + 1 * term_count x / (lev_count lev * ((lev : K) + 1)), s.2 + 1 / ((lev : K) + 1))

/-- The value `lpi = prob_sum / denom_sum` of a candidate with lineage `term_list`. -/
def lpi_of (lev_count : Nat → K) (term_count : taxid_t → K) (term_list : List taxid_t) : K :=
  let s := lpi_sums lev_count term_count term_list.reverse 0 (0, 0)
  s.1 / s.2

/-- Second pass over `taxid_count`: keeps the first candidate of strictly greater `lpi`.  As in
the first pass, an empty `term_list` yields no result. -/
def select_all (store : TaxStore K) (fuel : Nat) (lev_count : Nat → K) (term_count : taxid_t → K) :
    List (taxid_t × K) → taxonomy_cache K → LPI K → Option (taxonomy_cache K × LPI K)
  | [], c, retval => some (c, retval)
  | e :: rest, c, retval =>
    match c.get_lineage store fuel e.1 with
    | none => none
    | some (term_list, c1) =>
      if term_list = [] then none
      else
        let lpi := lpi_of lev_count term_count term_list
        select_all store fuel lev_count term_count rest c1
          (if lpi > retval.score then ⟨lpi, e.1⟩ else retval)

/-- The C++ `blast_record::get_best_LPI`, returning the result and the two caches as left by the
call; `none` when the call yields no result (a lineage walk that does not end within `fuel`
iterations, or a candidate with an empty lineage in the branch `taxid_count.size() > 1`). -/
def blast_record.get_best_LPI (exp : K → K) (pstore : PepStore) (tstore : TaxStore K) (fuel : Nat)
    (br : blast_record K) (pep_c : peptide_cache) (tax_c : taxonomy_cache K)
    (min_score_weight : K) : Option (LPI K × peptide_cache × taxonomy_cache K) :=
  let st := count_hits exp pstore tax_c min_score_weight br.blast_hits pep_c
  match st.2 with
  | [] => some (⟨0, -1⟩, st.1, tax_c)
  | [e] => some (⟨1, e.1⟩, st.1, tax_c)
  | e0 :: e1 :: rest =>
    match tally_all tstore fuel (e0 :: e1 :: rest) tax_c (fun _ => 0, fun _ => 0) with
    | none => none
    | some (c1, counts) =>
      match select_all tstore fuel counts.1 counts.2 (e0 :: e1 :: rest) c1 ⟨0, -1⟩ with
      | none => none
      | some (c2, retval) => some (retval, st.1, c2)

/-! ## Auxiliary definitions: what the loops of `get_best_LPI` compute -/

/-- The result `(score, tax_id)` of a call, without the caches. -/
def result_of (r : Option (LPI K × peptide_cache × taxonomy_cache K)) : Option (K × taxid_t) :=
  r.map (fun x => (x.1.score, x.1.tax_id))

/-- The taxon ids that `get_peptide_taxids` returns for `pep_id` in cache state `c`. -/
def taxids_of (pstore : PepStore) (c : peptide_cache) (pep_id : String) : List taxid_t :=
  (c.get_peptide_taxids pstore pep_id).1

/-- A hit survives the threshold: its score weight is a number and is at least
`min_score_weight`. -/
def survives (exp : K → K) (min_score_weight : K) (hits : List (blast_hit K)) (h : blast_hit K) :
    Prop :=
  ∃ sw, hit_weight exp h.bit_score (bh_max_bitscore hits) = some sw ∧ sw ≥ min_score_weight

/-- The votes `(taxon id, sw * weight)` that one hit adds to `taxid_count`, in order. -/
def hit_votes (exp : K → K) (pstore : PepStore) (tax_c : taxonomy_cache K)
    (min_score_weight bh_max : K) (pep_c : peptide_cache) (h : blast_hit K) : List (taxid_t × K) :=
  match hit_weight exp h.bit_score bh_max with
  | none => []
  | some sw =>
    if sw ≥ min_score_weight then
      (taxids_of pstore pep_c h.subject_id).map (fun x => (x, sw * tax_c.get_weight x))
    else []

/-- The votes that the accumulation loop of `get_best_LPI` casts, in order. -/
def votes_of (exp : K → K) (pstore : PepStore) (tax_c : taxonomy_cache K) (min_score_weight : K)
    (hits : List (blast_hit K)) (pep_c : peptide_cache) : List (taxid_t × K) :=
  hits.flatMap (hit_votes exp pstore tax_c min_score_weight (bh_max_bitscore hits) pep_c)

/-- The entries of `m` after the updates `m[e.1] += e.2` for `e` in `l`, in order. -/
def add_votes (m : List (taxid_t × K)) (l : List (taxid_t × K)) : List (taxid_t × K) :=
  l.foldl (fun m e => map_add m e.1 e.2) m

/-- The ancestors that the loop of `get_lineage`, entered at `curr_taxid`, appends to
`term_list`: `none` when `fuel` iterations do not finish the walk, `some none` on a bind error. -/
def parents (store : TaxStore K) : Nat → taxid_t → Option (Option (List taxid_t))
  | 0, _ => none
  | fuel + 1, curr_taxid =>
    match store curr_taxid with
    | TaxStep.bind_error => some none
    | TaxStep.no_row => some (some [])
    | TaxStep.row r =>
      if r.parent_tax_id > 0 then
        (parents store fuel r.parent_tax_id).map (Option.map (fun l => r.parent_tax_id :: l))
      else some (some [])

/-- The sequence that `get_lineage` returns for `taxid` in cache state `c`, if the walk ends
within `fuel` iterations. -/
def lineage_of (store : TaxStore K) (fuel : Nat) (c : taxonomy_cache K) (taxid : taxid_t) :
    Option (List taxid_t) :=
  (c.get_lineage store fuel taxid).map Prod.fst

/-- The lineage of `taxid` as a list, empty when the walk does not end within `fuel`. -/
def lin (store : TaxStore K) (fuel : Nat) (c : taxonomy_cache K) (taxid : taxid_t) :
    List taxid_t :=
  (lineage_of store fuel c taxid).getD []

/-- The lineage walk of `taxid` ends within `fuel` iterations and `get_lineage` returns a
non-empty lineage. -/
def has_lineage (store : TaxStore K) (fuel : Nat) (c : taxonomy_cache K) (taxid : taxid_t) :
    Prop :=
  ∃ l, lineage_of store fuel c taxid = some l ∧ l ≠ []

/-- The counts `(lev_count, term_count)` left by the first pass when candidate `x` has lineage
`lineage x`. -/
def counts_of (lineage : taxid_t → List taxid_t) (taxid_count : List (taxid_t × K)) :
    (Nat → K) × (taxid_t → K) :=
  taxid_count.foldl (fun s e => tally e.2 (lineage e.1).reverse 0 s) (fun _ => 0, fun _ => 0)

/-- One step of the selection loop for a candidate `x` of value `f x`. -/
def select_step (f : taxid_t → K) (r : LPI K) (e : taxid_t × K) : LPI K :=
  if f e.1 > r.score then ⟨f e.1, e.1⟩ else r

/-- The second pass when candidate `x` has lineage `lineage x`. -/
def select_of (lineage : taxid_t → List taxid_t) (lev_count : Nat → K) (term_count : taxid_t → K)
    (taxid_count : List (taxid_t × K)) (retval : LPI K) : LPI K :=
  taxid_count.foldl (fun r e =>
    if lpi_of lev_count term_count (lineage e.1) > r.score then
      ⟨lpi_of lev_count term_count (lineage e.1), e.1⟩
    else r) retval

/-- The result of the branch `taxid_count.size() > 1` when candidate `x` has lineage
`lineage x`. -/
def best_of (lineage : taxid_t → List taxid_t) (taxid_count : List (taxid_t × K)) : LPI K :=
  select_of lineage (counts_of lineage taxid_count).1 (counts_of lineage taxid_count).2
    taxid_count ⟨0, -1⟩

/-- The value `lpi = prob_sum / denom_sum` that the second pass computes for candidate `t`. -/
def candidate_lpi (lineage : taxid_t → List taxid_t) (votes : List (taxid_t × K)) (t : taxid_t) : K :=
  lpi_of (counts_of lineage votes).1 (counts_of lineage votes).2 (lineage t)

/-- The hits that pass the test `sw >= min_score_weight` of the vote accumulation loop. -/
def kept_hits (exp : K → K) (min_score_weight : K) (hits : List (blast_hit K)) :
    List (blast_hit K) :=
  hits.filter (fun h =>
    match hit_weight exp h.bit_score (bh_max_bitscore hits) with
    | none => false
    | some sw => decide (sw ≥ min_score_weight))

/-- The name of node `n` in the store, empty when the node has no row. -/
def name_of (store : TaxStore K) (n : taxid_t) : String :=
  match store n with
  | TaxStep.row r => r.name
  | _ => ""

/-! ## Sequences of calls on the caches -/

/-- A call of a public member function of `taxonomy_cache`, with the state of the store and the
bound on the lineage walk at the time of the call. -/
inductive cache_call (K : Type) where
  | get_lineage : TaxStore K → Nat → taxid_t → cache_call K
  | print_lineage : TaxStore K → Nat → taxid_t → cache_call K
  | get_weight : taxid_t → cache_call K

/-- The cache state after one call (`get_weight` only reads); `none` when the call does not
return. -/
def run_call (c : taxonomy_cache K) : cache_call K → Option (taxonomy_cache K)
  | cache_call.get_lineage store fuel taxid => (c.get_lineage store fuel taxid).map Prod.snd
  | cache_call.print_lineage store fuel taxid => (c.print_lineage store fuel taxid).map Prod.snd
  | cache_call.get_weight _ => some c

/-- The cache state after a sequence of calls, each of which returns. -/
def run_calls : List (cache_call K) → taxonomy_cache K → Option (taxonomy_cache K)
  | [], c => some c
  | a :: rest, c =>
    match run_call c a with
    | none => none
    | some c1 => run_calls rest c1

/-- The values of `curr_taxid` in the loop of `get_lineage` entered at `curr_taxid`, for at most
`fuel` iterations: the nodes that the walk visits. -/
def walk_nodes (store : TaxStore K) : Nat → taxid_t → List taxid_t
  | 0, _ => []
  | fuel + 1, curr_taxid =>
    curr_taxid ::
      match store curr_taxid with
      | TaxStep.row r => if r.parent_tax_id > 0 then walk_nodes store fuel r.parent_tax_id else []
      | _ => []

/-- The nodes visited by the lineage walk of one call: a walk takes place for a positive taxon id
without memoized lineage. -/
def call_visits (c : taxonomy_cache K) : cache_call K → List taxid_t
  | cache_call.get_lineage store fuel taxid =>
    if taxid > 0 ∧ c.t taxid = none then walk_nodes store fuel taxid else []
  | cache_call.print_lineage store fuel taxid =>
    if taxid > 0 ∧ c.t taxid = none then walk_nodes store fuel taxid else []
  | cache_call.get_weight _ => []

/-- The nodes visited by the lineage walks of a sequence of calls started in cache state `c`. -/
def visited : List (cache_call K) → taxonomy_cache K → List taxid_t
  | [], _ => []
  | a :: rest, c =>
    call_visits c a ++
      match run_call c a with
      | none => []
      | some c1 => visited rest c1

/-- The call `get_lineage(taxid)` in cache state `c` walks the store and leaves through the
`return empty` that follows a failed `sqlite3_bind_int`. -/
def lookup_fails (store : TaxStore K) (fuel : Nat) (c : taxonomy_cache K) (taxid : taxid_t) :
    Prop :=
  taxid > 0 ∧ c.t taxid = none ∧
    (lineage_loop store fuel taxid [taxid] c).map Prod.fst = some none

/-- The peptide cache after a sequence of calls `get_peptide_taxids(pep_id)`, each with the state
of the store at the time of the call. -/
def pep_calls : List (PepStore × String) → peptide_cache → peptide_cache
  | [], c => c
  | a :: rest, c => pep_calls rest (c.get_peptide_taxids a.1 a.2).2

/-! ## The LPI of the specification (section 4.3, step 3) -/

/-- Spec: `levelTotal[d]`, the sum of the votes of all voted taxa whose lineage reaches depth
`d`. -/
def levelTotal (lineage : taxid_t → List taxid_t) (votes : List (taxid_t × K)) (d : Nat) : K :=
  ((votes.filter (fun e => d < (lineage e.1).length)).map Prod.snd).sum

/-- Spec: `nodeTotal[n]`, the sum of the votes of all voted taxa whose lineage contains `n`. -/
def nodeTotal (lineage : taxid_t → List taxid_t) (votes : List (taxid_t × K)) (n : taxid_t) : K :=
  ((votes.filter (fun e => n ∈ lineage e.1)).map Prod.snd).sum

/-- Spec: `LPI(t) = probSum / weightSum` with
`probSum = Σ_d nodeTotal[node at depth d] / (levelTotal[d] * (d+1))` and
`weightSum = Σ_d 1 / (d+1)`, `d` running over the root-to-leaf lineage of `t`. -/
def LPI_spec (lineage : taxid_t → List taxid_t) (votes : List (taxid_t × K)) (t : taxid_t) : K :=
  (((lineage t).reverse.enum).map (fun p =>
      nodeTotal lineage votes p.2 / (levelTotal lineage votes p.1 * ((p.1 : K) + 1)))).sum /
    (((lineage t).reverse.enum).map (fun p => 1 / ((p.1 : K) + 1))).sum

/-! ## Well-formed stores and cache states -/

/-- The parent relation of the store: `p` is the positive `parent_tax_id` of the row of `k`. -/
def parent_rel (store : TaxStore K) (p k : taxid_t) : Prop :=
  ∃ r, store k = TaxStep.row r ∧ r.parent_tax_id = p ∧ 0 < p

/-- The store is acyclic: its parent relation is well-founded. -/
def store_acyclic (store : TaxStore K) : Prop := WellFounded (parent_rel store)

/-- The sequence `l` is empty or is a completed walk of the store from its first element. -/
def is_walk (store : TaxStore K) (l : List taxid_t) : Prop :=
  l = [] ∨ ∃ fuel k ps, l = k :: ps ∧ parents store fuel k = some (some ps)

/-- The memoized lineages of `c` are completed walks of `store`. -/
def lineages_from (store : TaxStore K) (c : taxonomy_cache K) : Prop :=
  ∀ k l, c.t k = some l → ∃ fuel ps, parents store fuel k = some (some ps) ∧ l = k :: ps

/-- The memoized weights of `c` are the clamped weights of the rows of `store`. -/
def weights_from (store : TaxStore K) (c : taxonomy_cache K) : Prop :=
  ∀ k w, c.t_weight k = some w →
    ∃ r, store k = TaxStep.row r ∧ w = if r.weight > 1 then 1 else r.weight

/-- The memoized names of `c` are names of rows of `store`, and every node of a memoized lineage
that has a row in `store` has its name memoized. -/
def names_from (store : TaxStore K) (c : taxonomy_cache K) : Prop :=
  (∀ k s, c.t_str k = some s → ∃ r, store k = TaxStep.row r ∧ s = r.name) ∧
    ∀ k l, c.t k = some l → ∀ n ∈ l, ∀ r, store n = TaxStep.row r → c.t_str n = some r.name

/-! ## Example data: the scenarios of the specification -/

/-- A taxonomy store without rows. -/
def empty_tstore : TaxStore ℝ := fun _ => TaxStep.no_row

/-- A peptide store in which no subject id maps to a taxon. -/
def empty_pstore : PepStore := fun _ => PepStep.rows []

/-- Scenario A: both subject ids map to taxon 42. -/
def scenarioA_pstore : PepStore :=
  fun s => if s = "s1" ∨ s = "s2" then PepStep.rows [42] else PepStep.rows []

/-- Scenario A: two hits of equal score. -/
def scenarioA_record : blast_record ℝ := ⟨"q1", [⟨"s1", 100⟩, ⟨"s2", 100⟩]⟩

/-- Scenario C: a hit of score 100 on subject `s1` and a hit of score 30 on subject `s2`. -/
def scenarioC_record : blast_record ℝ := ⟨"q1", [⟨"s1", 100⟩, ⟨"s2", 30⟩]⟩

/-- Scenario D: taxa 5 and 6 are children of the root taxon 1; all weights are 1.0. -/
def scenarioD_tstore : TaxStore ℝ := fun k =>
  if k = 5 then TaxStep.row ⟨"child5", 1, 1⟩
  else if k = 6 then TaxStep.row ⟨"child6", 1, 1⟩
  else if k = 1 then TaxStep.row ⟨"root", 0, 1⟩
  else TaxStep.no_row

/-- Scenario D: subject `s1` maps to taxon 5 and subject `s2` to taxon 6. -/
def scenarioD_pstore : PepStore := fun s =>
  if s = "s1" then PepStep.rows [5] else if s = "s2" then PepStep.rows [6] else PepStep.rows []

/-- Scenario D: two hits of equal score, the hit on taxon 6 first. -/
def scenarioD_record : blast_record ℝ := ⟨"q1", [⟨"s2", 100⟩, ⟨"s1", 100⟩]⟩

/-- A store in which taxon 5 (weight 1.0) is a child of the root taxon 1, whose weight is 0. -/
def zero_root_tstore : TaxStore ℝ := fun k =>
  if k = 5 then TaxStep.row ⟨"child5", 1, 1⟩
  else if k = 1 then TaxStep.row ⟨"root", 0, 0⟩
  else TaxStep.no_row

/-- Subject `s1` maps to taxon 5 and subject `s3` to the root taxon 1. -/
def zero_root_pstore : PepStore := fun s =>
  if s = "s1" then PepStep.rows [5]
  else if s = "s3" then PepStep.rows [1]
  else PepStep.rows []

/-- The taxonomy cache left by `get_lineage(5)` on `zero_root_tstore` from the empty cache. -/
def zero_root_cache : taxonomy_cache ℝ where
  t := map_set (fun _ => none) 5 [5, 1]
  t_str := map_set (map_set (fun _ => none) 5 "child5") 1 "root"
  t_weight := map_set (map_set (fun _ => none) 5 1) 1 0

/-- A hit on taxon 5 and a hit of the same score on its root. -/
def zero_root_record : blast_record ℝ := ⟨"q1", [⟨"s1", 100⟩, ⟨"s3", 100⟩]⟩

/-- Three nodes in a line: taxon 7 named `A`, its parent 3 named `B`, the root 2 named `C`. -/
def line_tstore : TaxStore ℝ := fun k =>
  if k = 7 then TaxStep.row ⟨"A", 3, 1⟩
  else if k = 3 then TaxStep.row ⟨"B", 2, 1⟩
  else if k = 2 then TaxStep.row ⟨"C", 0, 1⟩
  else TaxStep.no_row

/-- Scenario D with a reliability weight of 0.5 on taxon 6. -/
def half_tstore : TaxStore K := fun k =>
  if k = 5 then TaxStep.row ⟨"child5", 1, 1⟩
  else if k = 6 then TaxStep.row ⟨"child6", 1, 1 / 2⟩
  else if k = 1 then TaxStep.row ⟨"root", 0, 1⟩
  else TaxStep.no_row

/-- A store that holds a weight above 1.0: taxon 5 has weight 2, its parent 1 is the root. -/
def heavy_tstore : TaxStore ℝ := fun k =>
  if k = 5 then TaxStep.row ⟨"child5", 1, 2⟩
  else if k = 1 then TaxStep.row ⟨"root", 0, 1⟩
  else TaxStep.no_row

/-- A store in which taxon 5 names the parent 1, and taxon 1 has no row. -/
def orphan_tstore : TaxStore ℝ := fun k =>
  if k = 5 then TaxStep.row ⟨"child5", 1, 1⟩ else TaxStep.no_row

/-- The line `7 -> 3 -> 2` at a time when the lookup of taxon 3 fails. -/
def failing_tstore : TaxStore ℝ := fun k =>
  if k = 7 then TaxStep.row ⟨"A", 3, 1⟩
  else if k = 3 then TaxStep.bind_error
  else TaxStep.no_row

/-- The taxonomy cache after the calls `get_lineage(5)` and `get_lineage(6)` on `half_tstore`
from the empty cache. -/
def half_cache : taxonomy_cache K where
  t := map_set (map_set (fun _ => none) 5 [5, 1]) 6 [6, 1]
  t_str := map_set (map_set (map_set (fun _ => none) 5 "child5") 1 "root") 6 "child6"
  t_weight := map_set (map_set (map_set (fun _ => none) 5 1) 1 1) 6 (1 / 2)

end Core

/-! # Properties -/

section Properties

variable {K : Type} [LinearOrderedField K]

set_option linter.unusedSectionVars false

/-! ## Lemmas

### The logistic transform over the reals -/

theorem score_weight_real_eq (x : ℝ) :
    score_weight Real.exp x = 1 - 1 / (1 + Real.exp (15 * x - 21 / 2)) := by
  unfold score_weight
  congr 4
  ring

theorem score_weight_real_pos (x : ℝ) : 0 < score_weight Real.exp x := by
  rw [score_weight_real_eq]
  have he : 0 < Real.exp (15 * x - 21 / 2) := Real.exp_pos _
  have : 1 / (1 + Real.exp (15 * x - 21 / 2)) < 1 := by
    rw [div_lt_one (by linarith)]
    linarith
  linarith

theorem score_weight_real_lt_one (x : ℝ) : score_weight Real.exp x < 1 := by
  rw [score_weight_real_eq]
  have he : 0 < Real.exp (15 * x - 21 / 2) := Real.exp_pos _
  have : 0 < 1 / (1 + Real.exp (15 * x - 21 / 2)) := by positivity
  linarith

theorem score_weight_real_strictMono : StrictMono (score_weight Real.exp) := by
  intro x y hxy
  rw [score_weight_real_eq, score_weight_real_eq]
  have hx : 0 < Real.exp (15 * x - 21 / 2) := Real.exp_pos _
  have he : Real.exp (15 * x - 21 / 2) < Real.exp (15 * y - 21 / 2) :=
    Real.exp_lt_exp.mpr (by linarith)
  have : 1 / (1 + Real.exp (15 * y - 21 / 2)) < 1 / (1 + Real.exp (15 * x - 21 / 2)) :=
    one_div_lt_one_div_of_lt (by linarith) (by linarith)
  linarith

theorem score_weight_real_centre : score_weight Real.exp (7 / 10) = 1 / 2 := by
  rw [score_weight_real_eq]
  norm_num

theorem score_weight_real_one_ge : (1 : ℝ) / 2 ≤ score_weight Real.exp 1 := by
  rw [← score_weight_real_centre]
  exact score_weight_real_strictMono.monotone (by norm_num)

theorem score_weight_real_low : score_weight Real.exp (3 / 10) < 1 / 100 := by
  rw [score_weight_real_eq]
  have h6 : (100 : ℝ) < Real.exp 6 := by
    have h1 : (2.7 : ℝ) < Real.exp 1 := by
      have := Real.exp_one_gt_d9
      linarith
    have h2 : Real.exp 6 = Real.exp 1 ^ 6 := by
      rw [← Real.exp_nat_mul]; norm_num
    rw [h2]
    calc (100 : ℝ) < 2.7 ^ 6 := by norm_num
      _ < Real.exp 1 ^ 6 := pow_lt_pow_left₀ h1 (by norm_num) (by norm_num)
  have hn : (15 : ℝ) * (3 / 10) - 21 / 2 = -6 := by norm_num
  rw [hn, Real.exp_neg]
  have hp : 0 < Real.exp 6 := Real.exp_pos _
  have : (1 : ℝ) / (1 + (Real.exp 6)⁻¹) = Real.exp 6 / (Real.exp 6 + 1) := by
    field_simp
  rw [this]
  rw [sub_lt_iff_lt_add, ← sub_lt_iff_lt_add', lt_div_iff₀ (by linarith)]
  linarith

theorem hit_weight_real_nonneg (bs bmax sw : ℝ) (h : hit_weight Real.exp bs bmax = some sw) :
    0 ≤ sw := by
  unfold hit_weight at h
  split_ifs at h
  · simp only [Option.some.injEq] at h; rw [← h]
  · simp only [Option.some.injEq] at h; rw [← h]; exact le_of_lt (score_weight_real_pos _)

/-! ### The vote accumulator `taxid_count` -/

theorem map_add_comm (m : List (Int × K)) (k1 k2 : Int) (x1 x2 : K) :
    map_add (map_add m k1 x1) k2 x2 = map_add (map_add m k2 x2) k1 x1 := by
  induction m with
  | nil =>
    simp only [map_add]
    rcases lt_trichotomy k1 k2 with h | h | h
    · have h1 : ¬ k2 < k1 := not_lt.mpr h.le
      have h2 : ¬ k2 = k1 := fun e => by omega
      simp [h, h1, h2]
    · subst h; simp [add_comm]
    · have h1 : ¬ k1 < k2 := not_lt.mpr h.le
      have h2 : ¬ k1 = k2 := fun e => by omega
      simp [h, h1, h2]
  | cons e rest ih =>
    obtain ⟨k0, v⟩ := e
    simp only [map_add]
    split_ifs <;> simp only [map_add] <;> split_ifs <;> first | (exfalso; simp only [taxid_t] at *; omega) | (subst_vars; simp [ih, add_right_comm]; done) | (subst_vars; simp [ih, add_comm])

theorem add_votes_perm {l1 l2 : List (taxid_t × K)} (h : l1.Perm l2) (m : List (taxid_t × K)) :
    add_votes m l1 = add_votes m l2 := by
  unfold add_votes
  exact h.foldl_eq' (fun x _ y _ z => map_add_comm z x.1 y.1 x.2 y.2) m

theorem map_add_keys (m : List (Int × K)) (k : Int) (x : K) (j : Int) :
    j ∈ (map_add m k x).map Prod.fst ↔ j = k ∨ j ∈ m.map Prod.fst := by
  induction m with
  | nil => simp [map_add]
  | cons e rest ih =>
    obtain ⟨k0, v⟩ := e
    simp only [map_add]
    split_ifs with h1 h2
    · simp
    · subst h2; simp
    · simp only [List.map_cons, List.mem_cons, ih]; tauto

theorem map_add_sorted (m : List (Int × K)) (k : Int) (x : K)
    (h : (m.map Prod.fst).Sorted (· < ·)) : ((map_add m k x).map Prod.fst).Sorted (· < ·) := by
  induction m with
  | nil => simp [map_add]
  | cons e rest ih =>
    obtain ⟨k0, v⟩ := e
    simp only [map_add]
    simp only [List.map_cons, List.sorted_cons] at h
    split_ifs with h1 h2
    · simp only [List.map_cons, List.sorted_cons, List.mem_cons, forall_eq_or_imp]
      exact ⟨⟨h1, fun a ha => lt_trans h1 (h.1 a ha)⟩, h.1, h.2⟩
    · simpa using h
    · simp only [List.map_cons, List.sorted_cons]
      refine ⟨fun a ha => ?_, ih h.2⟩
      rcases (map_add_keys rest k x a).1 ha with rfl | ha
      · simp only [taxid_t] at *; omega
      · exact h.1 a ha

theorem add_votes_sorted (l m : List (Int × K)) (h : (m.map Prod.fst).Sorted (· < ·)) :
    ((add_votes m l).map Prod.fst).Sorted (· < ·) := by
  induction l generalizing m with
  | nil => exact h
  | cons e rest ih => exact ih _ (map_add_sorted m e.1 e.2 h)

theorem add_votes_keys (l m : List (Int × K)) (j : Int) :
    j ∈ (add_votes m l).map Prod.fst ↔ j ∈ m.map Prod.fst ∨ j ∈ l.map Prod.fst := by
  induction l generalizing m with
  | nil => simp [add_votes]
  | cons e rest ih =>
    have h1 : add_votes m (e :: rest) = add_votes (map_add m e.1 e.2) rest := rfl
    rw [h1, ih, map_add_keys]
    simp only [List.map_cons, List.mem_cons]
    tauto

theorem add_votes_append (m a b : List (taxid_t × K)) :
    add_votes m (a ++ b) = add_votes (add_votes m a) b := by
  simp [add_votes, List.foldl_append]

theorem add_votes_single (t : Int) (l : List (Int × K)) (hl : ∀ e ∈ l, e.1 = t) (v : K) :
    ∃ v1, add_votes [(t, v)] l = [(t, v1)] := by
  induction l generalizing v with
  | nil => exact ⟨v, rfl⟩
  | cons e rest ih =>
    have he : e.1 = t := hl e (List.mem_cons_self _ _)
    obtain ⟨v1, hv1⟩ := ih (fun e1 h1 => hl e1 (List.mem_cons_of_mem _ h1)) (v + e.2)
    refine ⟨v1, ?_⟩
    simp only [add_votes, List.foldl_cons] at hv1 ⊢
    rw [← hv1, he]
    simp [map_add]

theorem add_votes_two (a b : Int) (va vb : K) (hab : a ≠ b) :
    (add_votes [] [(a, va), (b, vb)]).Perm [(a, va), (b, vb)] := by
  simp only [add_votes, List.foldl_cons, List.foldl_nil, map_add, zero_add]
  split_ifs with h1 h2
  · exact List.Perm.swap _ _ _
  · exact absurd h2.symm hab
  · exact List.Perm.refl _

theorem map_add_nonneg (m : List (Int × K)) (k : Int) (x : K) (hm : ∀ e ∈ m, 0 ≤ e.2)
    (hx : 0 ≤ x) : ∀ e ∈ map_add m k x, 0 ≤ e.2 := by
  induction m with
  | nil => simp [map_add, hx]
  | cons e0 rest ih =>
    obtain ⟨k0, v⟩ := e0
    have hv : 0 ≤ v := hm (k0, v) (List.mem_cons_self _ _)
    have hr : ∀ e ∈ rest, 0 ≤ e.2 := fun e he => hm e (List.mem_cons_of_mem _ he)
    simp only [map_add]
    split_ifs with h1 h2
    · intro e he
      rcases List.mem_cons.1 he with rfl | he
      · simpa using hx
      · exact hm e he
    · intro e he
      rcases List.mem_cons.1 he with rfl | he
      · exact add_nonneg hv hx
      · exact hr e he
    · intro e he
      rcases List.mem_cons.1 he with rfl | he
      · exact hv
      · exact ih hr e he

theorem add_votes_nonneg (l m : List (Int × K)) (hm : ∀ e ∈ m, 0 ≤ e.2)
    (hl : ∀ e ∈ l, 0 ≤ e.2) : ∀ e ∈ add_votes m l, 0 ≤ e.2 := by
  induction l generalizing m with
  | nil => exact hm
  | cons e0 rest ih =>
    exact ih _ (map_add_nonneg m e0.1 e0.2 hm (hl e0 (List.mem_cons_self _ _)))
      (fun e he => hl e (List.mem_cons_of_mem _ he))

/-- In an accumulator with distinct keys, a sum whose terms vanish off the key `a` is the term of
the entry of `a`. -/
theorem sum_single_key (votes : List (Int × K)) (hs : (votes.map Prod.fst).Nodup)
    (a : Int) (v : K) (ha : (a, v) ∈ votes) (g : Int × K → K)
    (h0 : ∀ e ∈ votes, e.1 ≠ a → g e = 0) : (votes.map g).sum = g (a, v) := by
  induction votes with
  | nil => cases ha
  | cons e rest ih =>
    simp only [List.map_cons, List.nodup_cons] at hs
    simp only [List.map_cons, List.sum_cons]
    rcases List.mem_cons.1 ha with h | h
    · have hz : (rest.map g).sum = 0 := by
        apply List.sum_eq_zero
        intro x hx
        obtain ⟨e1, he1, rfl⟩ := List.mem_map.1 hx
        apply h0 e1 (List.mem_cons_of_mem _ he1)
        intro h1
        have hea : e.1 = a := by rw [← h]
        have hm : e1.1 ∈ rest.map Prod.fst := List.mem_map_of_mem Prod.fst he1
        rw [h1, ← hea] at hm
        exact hs.1 hm
      rw [hz, ← h, add_zero]
    · have hne : e.1 ≠ a := by
        intro h1
        apply hs.1
        rw [h1]
        exact List.mem_map_of_mem Prod.fst h
      rw [h0 e (List.mem_cons_self _ _) hne, zero_add]
      exact ih hs.2 h (fun e1 he1 => h0 e1 (List.mem_cons_of_mem _ he1))

/-! ### The vote accumulation loop -/

theorem taxids_of_step (pstore : PepStore) (c : peptide_cache) (s : String) :
    taxids_of pstore (c.get_peptide_taxids pstore s).2 = taxids_of pstore c := by
  funext s1
  unfold taxids_of peptide_cache.get_peptide_taxids
  by_cases hs : s.length > 0
  · cases hc : c.p s with
    | some l => simp [hs, hc]
    | none =>
      cases hst : pstore s with
      | bind_error => simp [hs, hc, hst]
      | rows l =>
        simp only [hs, hc, hst, if_true]
        by_cases h1 : s1 = s
        · subst h1; simp [hs, hc, hst, map_set]
        · simp only [map_set, h1, if_false]
          by_cases h0 : 0 < s1.length
          · cases c.p s1 with
            | some l1 => simp [h0]
            | none => cases pstore s1 <;> simp [h0]
          · simp [h0]
  · simp [hs]

theorem count_taxids_eq (tax_c : taxonomy_cache K) (sw : K) (l : List taxid_t)
    (m : List (taxid_t × K)) :
    count_taxids tax_c sw l m = add_votes m (l.map (fun x => (x, sw * tax_c.get_weight x))) := by
  simp [count_taxids, add_votes, List.foldl_map]

theorem count_hit_eq (exp : K → K) (pstore : PepStore) (tax_c : taxonomy_cache K)
    (mn bmax : K) (st : peptide_cache × List (taxid_t × K)) (h : blast_hit K) :
    (count_hit exp pstore tax_c mn bmax st h).2
        = add_votes st.2 (hit_votes exp pstore tax_c mn bmax st.1 h) ∧
      taxids_of pstore (count_hit exp pstore tax_c mn bmax st h).1 = taxids_of pstore st.1 := by
  unfold count_hit hit_votes
  cases hw : hit_weight exp h.bit_score bmax with
  | none => simp [add_votes]
  | some sw =>
    by_cases hm : sw ≥ mn
    · simp only [hm, if_true, count_taxids_eq, taxids_of_step]
      exact ⟨rfl, trivial⟩
    · simp [hm, add_votes]

theorem count_fold_eq (exp : K → K) (pstore : PepStore) (tax_c : taxonomy_cache K)
    (mn bmax : K) (hits : List (blast_hit K)) (st : peptide_cache × List (taxid_t × K)) :
    (hits.foldl (count_hit exp pstore tax_c mn bmax) st).2
        = add_votes st.2 (hits.flatMap (hit_votes exp pstore tax_c mn bmax st.1)) ∧
      taxids_of pstore (hits.foldl (count_hit exp pstore tax_c mn bmax) st).1
        = taxids_of pstore st.1 := by
  induction hits generalizing st with
  | nil => simp [add_votes]
  | cons h rest ih =>
    obtain ⟨h1, h2⟩ := count_hit_eq exp pstore tax_c mn bmax st h
    obtain ⟨i1, i2⟩ := ih (count_hit exp pstore tax_c mn bmax st h)
    simp only [List.foldl_cons, List.flatMap_cons, add_votes_append]
    refine ⟨?_, by rw [i2, h2]⟩
    rw [i1, h1]
    have : hit_votes exp pstore tax_c mn bmax (count_hit exp pstore tax_c mn bmax st h).1
        = hit_votes exp pstore tax_c mn bmax st.1 := by
      funext h0
      simp only [hit_votes, h2]
    rw [this]

theorem count_hits_snd (exp : K → K) (pstore : PepStore) (tax_c : taxonomy_cache K) (mn : K)
    (hits : List (blast_hit K)) (pep_c : peptide_cache) :
    (count_hits exp pstore tax_c mn hits pep_c).2
      = add_votes [] (votes_of exp pstore tax_c mn hits pep_c) :=
  (count_fold_eq exp pstore tax_c mn (bh_max_bitscore hits) hits (pep_c, [])).1

theorem hit_votes_of_not_survives (exp : K → K) (pstore : PepStore) (tax_c : taxonomy_cache K)
    (mn : K) (hits : List (blast_hit K)) (pep_c : peptide_cache) (h : blast_hit K)
    (hs : ¬ survives exp mn hits h) :
    hit_votes exp pstore tax_c mn (bh_max_bitscore hits) pep_c h = [] := by
  unfold hit_votes
  cases hw : hit_weight exp h.bit_score (bh_max_bitscore hits) with
  | none => rfl
  | some sw =>
    by_cases hm : sw ≥ mn
    · exact absurd ⟨sw, hw, hm⟩ hs
    · simp [hm]

theorem hit_votes_keys (exp : K → K) (pstore : PepStore) (tax_c : taxonomy_cache K)
    (mn : K) (hits : List (blast_hit K)) (pep_c : peptide_cache) (h : blast_hit K)
    (hs : survives exp mn hits h) :
    (hit_votes exp pstore tax_c mn (bh_max_bitscore hits) pep_c h).map Prod.fst
      = taxids_of pstore pep_c h.subject_id := by
  obtain ⟨sw, hw, hm⟩ := hs
  unfold hit_votes
  simp [hw, hm, Function.comp_def]

/-- Membership in the votes cast: a vote for `x` comes from a surviving hit that maps to `x`. -/
theorem mem_votes_of (exp : K → K) (pstore : PepStore) (tax_c : taxonomy_cache K) (mn : K)
    (hits : List (blast_hit K)) (pep_c : peptide_cache) (x : Int) :
    x ∈ (votes_of exp pstore tax_c mn hits pep_c).map Prod.fst ↔
      ∃ b ∈ hits, survives exp mn hits b ∧ x ∈ taxids_of pstore pep_c b.subject_id := by
  unfold votes_of
  simp only [List.map_flatMap, List.mem_flatMap]
  constructor
  · rintro ⟨b, hb, hx⟩
    by_cases hs : survives exp mn hits b
    · exact ⟨b, hb, hs, by rwa [hit_votes_keys exp pstore tax_c mn hits pep_c b hs] at hx⟩
    · rw [hit_votes_of_not_survives exp pstore tax_c mn hits pep_c b hs] at hx
      cases hx
  · rintro ⟨b, hb, hs, hx⟩
    exact ⟨b, hb, by rwa [hit_votes_keys exp pstore tax_c mn hits pep_c b hs]⟩

/-- The keys of `taxid_count`: the taxon ids that some surviving hit maps to. -/
theorem mem_count_hits_keys (exp : K → K) (pstore : PepStore) (tax_c : taxonomy_cache K) (mn : K)
    (hits : List (blast_hit K)) (pep_c : peptide_cache) (x : Int) :
    x ∈ (count_hits exp pstore tax_c mn hits pep_c).2.map Prod.fst ↔
      ∃ b ∈ hits, survives exp mn hits b ∧ x ∈ taxids_of pstore pep_c b.subject_id := by
  rw [count_hits_snd, add_votes_keys, mem_votes_of]
  simp

theorem count_hits_sorted (exp : K → K) (pstore : PepStore) (tax_c : taxonomy_cache K) (mn : K)
    (hits : List (blast_hit K)) (pep_c : peptide_cache) :
    ((count_hits exp pstore tax_c mn hits pep_c).2.map Prod.fst).Sorted (· < ·) := by
  rw [count_hits_snd]
  exact add_votes_sorted _ [] (by simp)

theorem bh_max_bitscore_perm {l1 l2 : List (blast_hit K)} (h : l1.Perm l2) :
    bh_max_bitscore l1 = bh_max_bitscore l2 := by
  unfold bh_max_bitscore
  have hf : (fun (m : K) (b : blast_hit K) => if b.bit_score > m then b.bit_score else m)
      = fun m b => max m b.bit_score := by
    funext m b
    by_cases hb : b.bit_score > m
    · simp [hb, max_eq_right (le_of_lt hb)]
    · simp [hb, max_eq_left (not_lt.mp hb)]
  rw [hf]
  exact h.foldl_eq' (fun x _ y _ z => by simp only [max_assoc, max_comm x.bit_score]) 0

theorem votes_of_perm (exp : K → K) (pstore : PepStore) (tax_c : taxonomy_cache K) (mn : K)
    {l1 l2 : List (blast_hit K)} (h : l1.Perm l2) (pep_c : peptide_cache) :
    (votes_of exp pstore tax_c mn l1 pep_c).Perm (votes_of exp pstore tax_c mn l2 pep_c) := by
  unfold votes_of
  rw [bh_max_bitscore_perm h]
  exact h.flatMap_right _

theorem count_hits_perm (exp : K → K) (pstore : PepStore) (tax_c : taxonomy_cache K) (mn : K)
    {l1 l2 : List (blast_hit K)} (h : l1.Perm l2) (pep_c : peptide_cache) :
    (count_hits exp pstore tax_c mn l1 pep_c).2 = (count_hits exp pstore tax_c mn l2 pep_c).2 := by
  rw [count_hits_snd, count_hits_snd]
  exact add_votes_perm (votes_of_perm exp pstore tax_c mn h pep_c) []

/-! ### Lineage walks and the lineage memo -/

theorem lineage_loop_fst (store : TaxStore K) (fuel : Nat) (curr : taxid_t) (tl : List taxid_t)
    (c : taxonomy_cache K) :
    (lineage_loop store fuel curr tl c).map Prod.fst
      = (parents store fuel curr).map (Option.map (fun l => tl ++ l)) := by
  induction fuel generalizing curr tl c with
  | zero => simp [lineage_loop, parents]
  | succ n ih =>
    simp only [lineage_loop, parents]
    cases hs : store curr with
    | bind_error => simp
    | no_row => simp
    | row r =>
      by_cases hp : r.parent_tax_id > 0
      · simp only [hp, if_true]
        rw [ih]
        cases parents store n r.parent_tax_id with
        | none => simp
        | some o => cases o <;> simp
      · simp [hp]

theorem lineage_loop_t (store : TaxStore K) (fuel : Nat) (curr : taxid_t) (tl : List taxid_t)
    (c : taxonomy_cache K) (r : Option (List taxid_t)) (c1 : taxonomy_cache K)
    (h : lineage_loop store fuel curr tl c = some (r, c1)) : c1.t = c.t := by
  induction fuel generalizing curr tl c with
  | zero => simp [lineage_loop] at h
  | succ n ih =>
    simp only [lineage_loop] at h
    cases hs : store curr with
    | bind_error => simp [hs] at h; rw [← h.2]
    | no_row => simp [hs] at h; rw [← h.2]
    | row row =>
      simp only [hs] at h
      split_ifs at h <;> first
        | (have h1 := ih _ _ _ h; simpa using h1)
        | (simp only [Option.some.injEq, Prod.mk.injEq] at h; rw [← h.2])

theorem lineage_of_eq (store : TaxStore K) (fuel : Nat) (c : taxonomy_cache K) (t : taxid_t) :
    lineage_of store fuel c t =
      if t > 0 then
        match c.t t with
        | some l => some l
        | none => (parents store fuel t).map (fun o => (o.map (fun l => t :: l)).getD [])
      else some [] := by
  unfold lineage_of taxonomy_cache.get_lineage
  by_cases ht : t > 0
  · simp only [ht, if_true]
    cases hc : c.t t with
    | some l => simp
    | none =>
      have h1 := lineage_loop_fst store fuel t [t] c
      cases hl : lineage_loop store fuel t [t] c with
      | none =>
        rw [hl] at h1
        cases hp : parents store fuel t with
        | none => simp
        | some o => rw [hp] at h1; simp at h1
      | some rc =>
        obtain ⟨r, c1⟩ := rc
        rw [hl] at h1
        cases hp : parents store fuel t with
        | none => rw [hp] at h1; simp at h1
        | some o =>
          rw [hp] at h1
          simp only [Option.map_some', Option.some.injEq] at h1
          subst h1
          cases o <;> simp
  · simp [ht]

theorem get_lineage_t (store : TaxStore K) (fuel : Nat) (c : taxonomy_cache K) (t : taxid_t)
    (l : List taxid_t) (c1 : taxonomy_cache K) (h : c.get_lineage store fuel t = some (l, c1)) :
    c1.t = c.t ∨ (0 < t ∧ c1.t = map_set c.t t l) := by
  unfold taxonomy_cache.get_lineage at h
  by_cases ht : t > 0
  · simp only [ht, if_true] at h
    cases hc : c.t t with
    | some l0 => simp [hc] at h; left; rw [← h.2]
    | none =>
      simp only [hc] at h
      cases hl : lineage_loop store fuel t [t] c with
      | none => simp [hl] at h
      | some rc =>
        obtain ⟨r, c2⟩ := rc
        have ht2 := lineage_loop_t store fuel t [t] c r c2 hl
        cases r with
        | none => simp [hl] at h; left; rw [← h.2, ht2]
        | some tl =>
          simp [hl] at h
          right
          refine ⟨ht, ?_⟩
          rw [← h.2, ← h.1]
          simp [ht2]
  · simp [ht] at h; left; rw [← h.2]

theorem lineage_of_step (store : TaxStore K) (fuel : Nat) (c : taxonomy_cache K) (t : taxid_t)
    (l : List taxid_t) (c1 : taxonomy_cache K) (h : c.get_lineage store fuel t = some (l, c1)) :
    lineage_of store fuel c1 = lineage_of store fuel c := by
  funext k
  have hl : lineage_of store fuel c t = some l := by simp [lineage_of, h]
  rcases get_lineage_t store fuel c t l c1 h with h1 | ⟨ht, h1⟩
  · rw [lineage_of_eq, lineage_of_eq, h1]
  · by_cases hk : k = t
    · subst hk
      rw [hl, lineage_of_eq, h1]
      simp [ht, map_set]
    · rw [lineage_of_eq, lineage_of_eq, h1]
      simp [map_set, hk]

theorem lin_of_some (store : TaxStore K) (fuel : Nat) (c : taxonomy_cache K) (t : taxid_t)
    (l : List taxid_t) (c1 : taxonomy_cache K) (h : c.get_lineage store fuel t = some (l, c1)) :
    lin store fuel c t = l := by
  simp [lin, lineage_of, h]

theorem get_lineage_none_iff (store : TaxStore K) (fuel : Nat) (c : taxonomy_cache K)
    (t : taxid_t) : c.get_lineage store fuel t = none ↔ lineage_of store fuel c t = none := by
  simp [lineage_of]

theorem parents_no_bind_error (store : TaxStore K) (hb : ∀ k, store k ≠ TaxStep.bind_error)
    (fuel : Nat) (k : taxid_t) : parents store fuel k ≠ some none := by
  induction fuel generalizing k with
  | zero => simp [parents]
  | succ n ih =>
    rw [parents]
    cases hs : store k with
    | bind_error => exact absurd hs (hb k)
    | no_row => simp
    | row r =>
      by_cases hp : r.parent_tax_id > 0
      · simp only [hp, if_true]
        cases hq : parents store n r.parent_tax_id with
        | none => simp
        | some o =>
          cases o with
          | none => exact absurd hq (ih r.parent_tax_id)
          | some l => simp
      · simp [hp]

/-- A positive taxon id has a non-empty lineage when its walk ends and meets no bind error. -/
theorem has_lineage_of_pos (store : TaxStore K) (fuel : Nat) (c : taxonomy_cache K)
    (t : taxid_t) (hc : lineages_from store c) (hb : ∀ k, store k ≠ TaxStep.bind_error)
    (ht : 0 < t) (h : parents store fuel t ≠ none) : has_lineage store fuel c t := by
  unfold has_lineage
  rw [lineage_of_eq]
  simp only [gt_iff_lt, ht, if_true]
  cases hct : c.t t with
  | some l =>
    obtain ⟨f, ps, _, h2⟩ := hc t l hct
    exact ⟨l, rfl, by rw [h2]; simp⟩
  | none =>
    cases hq : parents store fuel t with
    | none => exact absurd hq h
    | some o =>
      cases o with
      | none => exact absurd hq (parents_no_bind_error store hb fuel t)
      | some ps => exact ⟨t :: ps, by simp, by simp⟩

theorem parents_succ (store : TaxStore K) (fuel : Nat) (k : taxid_t)
    (r : Option (List taxid_t)) (h : parents store fuel k = some r) :
    parents store (fuel + 1) k = some r := by
  induction fuel generalizing k r with
  | zero => simp [parents] at h
  | succ n ih =>
    rw [parents] at h ⊢
    cases hs : store k with
    | bind_error => simpa [hs] using h
    | no_row => simpa [hs] using h
    | row row =>
      simp only [hs] at h ⊢
      by_cases hp : row.parent_tax_id > 0
      · simp only [hp, if_true] at h ⊢
        cases hq : parents store n row.parent_tax_id with
        | none => simp [hq] at h
        | some o =>
          rw [ih _ _ hq]
          simpa [hq] using h
      · simpa [hp] using h

theorem parents_mono (store : TaxStore K) (f1 f2 : Nat) (hle : f1 ≤ f2) (k : taxid_t)
    (r : Option (List taxid_t)) (h : parents store f1 k = some r) :
    parents store f2 k = some r := by
  induction hle with
  | refl => exact h
  | step _ ih => exact parents_succ store _ k r ih

theorem parents_det (store : TaxStore K) (f1 f2 : Nat) (k : taxid_t)
    (r1 r2 : Option (List taxid_t)) (h1 : parents store f1 k = some r1)
    (h2 : parents store f2 k = some r2) : r1 = r2 := by
  rcases le_total f1 f2 with h | h
  · have := parents_mono store f1 f2 h k r1 h1
    rw [h2] at this
    exact (Option.some.inj this).symm
  · have := parents_mono store f2 f1 h k r2 h2
    rw [h1] at this
    exact Option.some.inj this

theorem parents_cons (store : TaxStore K) (fuel : Nat) (k p : taxid_t) (ps : List taxid_t)
    (h : parents store fuel k = some (some (p :: ps))) :
    ∃ f, parents store f p = some (some ps) := by
  cases fuel with
  | zero => simp [parents] at h
  | succ n =>
    rw [parents] at h
    cases hs : store k with
    | bind_error => simp [hs] at h
    | no_row => simp [hs] at h
    | row row =>
      simp only [hs] at h
      by_cases hp : row.parent_tax_id > 0
      · simp only [hp, if_true] at h
        cases hq : parents store n row.parent_tax_id with
        | none => simp [hq] at h
        | some o =>
          cases o with
          | none => simp [hq] at h
          | some l =>
            simp only [hq, Option.map_some', Option.some.injEq, List.cons.injEq] at h
            obtain ⟨h1, h2⟩ := h
            subst h1 h2
            exact ⟨n, hq⟩
      · simp [hp] at h

theorem walk_split (store : TaxStore K) (pre : List taxid_t) (fuel : Nat) (k n : taxid_t)
    (ps s : List taxid_t) (h : parents store fuel k = some (some ps))
    (hl : k :: ps = pre ++ n :: s) : ∃ f, parents store f n = some (some s) := by
  induction pre generalizing fuel k ps with
  | nil =>
    simp only [List.nil_append, List.cons.injEq] at hl
    obtain ⟨h1, h2⟩ := hl
    subst h1 h2
    exact ⟨fuel, h⟩
  | cons x rest ih =>
    simp only [List.cons_append, List.cons.injEq] at hl
    obtain ⟨_, h2⟩ := hl
    cases ps with
    | nil => cases rest <;> simp at h2
    | cons p ps0 =>
      obtain ⟨f, hf⟩ := parents_cons store fuel k p ps0 h
      exact ih f p ps0 hf h2

theorem walk_nodup (store : TaxStore K) (ps : List taxid_t) (fuel : Nat) (k : taxid_t)
    (h : parents store fuel k = some (some ps)) : (k :: ps).Nodup := by
  induction ps generalizing fuel k with
  | nil => simp
  | cons p ps0 ih =>
    obtain ⟨f, hf⟩ := parents_cons store fuel k p ps0 h
    refine List.nodup_cons.2 ⟨?_, ih f p hf⟩
    intro hk
    obtain ⟨s, t, hst⟩ := List.append_of_mem hk
    obtain ⟨f2, hf2⟩ := walk_split store (k :: s) fuel k k (p :: ps0) t h (by rw [hst]; rfl)
    have := parents_det store fuel f2 k _ _ h hf2
    simp only [Option.some.injEq] at this
    rw [this] at hst
    have hlen := congrArg List.length hst
    simp at hlen
    omega

theorem is_walk_nodup (store : TaxStore K) (l : List taxid_t) (h : is_walk store l) :
    l.Nodup := by
  rcases h with rfl | ⟨f, k, ps, rfl, hp⟩
  · simp
  · exact walk_nodup store ps f k hp

/-- In walks of one store a node has one depth: a node at depth `d` of one walk lies, in every
walk that contains it, at depth `d`, so that walk reaches depth `d`. -/
theorem walk_depth (store : TaxStore K) (l1 l2 : List taxid_t) (h1 : is_walk store l1)
    (h2 : is_walk store l2) (d : Nat) (n : taxid_t) (hd : (d, n) ∈ l1.reverse.enum)
    (hn : n ∈ l2) : d < l2.length := by
  rcases h1 with rfl | ⟨f1, k1, ps1, rfl, hp1⟩
  · simp [List.enum] at hd
  rcases h2 with rfl | ⟨f2, k2, ps2, rfl, hp2⟩
  · cases hn
  have hlt : d < (k1 :: ps1).reverse.length := List.fst_lt_of_mem_enum hd
  have hget : (k1 :: ps1).reverse[d]? = some n := List.mk_mem_enum_iff_getElem?.1 hd
  have hsplit : (k1 :: ps1).reverse
      = (k1 :: ps1).reverse.take d ++ n :: (k1 :: ps1).reverse.drop (d + 1) := by
    have hg : (k1 :: ps1).reverse[d] = n := by
      rw [List.getElem?_eq_getElem hlt] at hget
      exact Option.some.inj hget
    rw [← hg, ← List.drop_eq_getElem_cons hlt, List.take_append_drop]
  have hrev : k1 :: ps1
      = ((k1 :: ps1).reverse.drop (d + 1)).reverse ++ n :: ((k1 :: ps1).reverse.take d).reverse := by
    have := congrArg List.reverse hsplit
    simpa using this
  obtain ⟨g1, hg1⟩ := walk_split store _ f1 k1 n ps1 _ hp1 hrev
  obtain ⟨s, t, hst⟩ := List.append_of_mem hn
  obtain ⟨g2, hg2⟩ := walk_split store s f2 k2 n ps2 t hp2 hst
  have heq := parents_det store g1 g2 n _ _ hg1 hg2
  simp only [Option.some.injEq] at heq
  have hlt2 : d < ps1.length + 1 := by simpa using hlt
  have hlen : t.length = d := by
    rw [← heq]
    simp only [List.length_reverse, List.length_take, List.length_cons]
    omega
  rw [hst]
  simp only [List.length_append, List.length_cons]
  omega

theorem lin_is_walk (store : TaxStore K) (fuel : Nat) (c : taxonomy_cache K)
    (hc : lineages_from store c) (t : taxid_t) : is_walk store (lin store fuel c t) := by
  unfold lin
  rw [lineage_of_eq]
  by_cases ht : t > 0
  · simp only [ht, if_true]
    cases hct : c.t t with
    | some l =>
      obtain ⟨f, ps, h1, h2⟩ := hc t l hct
      right
      exact ⟨f, t, ps, by simpa using h2, h1⟩
    | none =>
      simp only
      cases hp : parents store fuel t with
      | none => left; rfl
      | some o =>
        cases o with
        | none => left; rfl
        | some ps => right; exact ⟨fuel, t, ps, rfl, hp⟩
  · left; simp [ht]

/-- A lineage returned by `get_lineage` has no repeated node when the memoized ones have none: a
walk that ends never visits a node twice. -/
theorem lin_nodup (store : TaxStore K) (fuel : Nat) (c : taxonomy_cache K)
    (hmemo : ∀ k l, c.t k = some l → l.Nodup) (t : taxid_t) : (lin store fuel c t).Nodup := by
  unfold lin
  rw [lineage_of_eq]
  by_cases ht : t > 0
  · simp only [ht, if_true]
    cases hct : c.t t with
    | some l => simpa using hmemo t l hct
    | none =>
      simp only
      cases hp : parents store fuel t with
      | none => simp
      | some o =>
        cases o with
        | none => simp
        | some ps => simpa using walk_nodup store ps fuel t hp
  · simp [ht]

theorem acyclic_walk_ends (store : TaxStore K) (h : store_acyclic store) (k : taxid_t) :
    ∃ fuel, parents store fuel k ≠ none := by
  induction k using h.induction with
  | _ k ih =>
    cases hs : store k with
    | bind_error => exact ⟨1, by simp [parents, hs]⟩
    | no_row => exact ⟨1, by simp [parents, hs]⟩
    | row r =>
      by_cases hp : r.parent_tax_id > 0
      · obtain ⟨f, hf⟩ := ih r.parent_tax_id ⟨r, hs, rfl, hp⟩
        refine ⟨f + 1, ?_⟩
        rw [parents]
        simp only [hs, hp, if_true]
        cases hq : parents store f r.parent_tax_id with
        | none => exact absurd hq hf
        | some o => simp
      · exact ⟨1, by simp [parents, hs, hp]⟩

theorem acyclic_walks_end (store : TaxStore K) (h : store_acyclic store) (l : List taxid_t) :
    ∃ fuel, ∀ k ∈ l, parents store fuel k ≠ none := by
  induction l with
  | nil => exact ⟨0, by simp⟩
  | cons k rest ih =>
    obtain ⟨f1, h1⟩ := ih
    obtain ⟨f2, h2⟩ := acyclic_walk_ends store h k
    refine ⟨max f1 f2, ?_⟩
    intro x hx
    rcases List.mem_cons.1 hx with rfl | hx
    · cases hq : parents store f2 x with
      | none => exact absurd hq h2
      | some o => rw [parents_mono store f2 _ (le_max_right _ _) x o hq]; simp
    · cases hq : parents store f1 x with
      | none => exact absurd hq (h1 x hx)
      | some o => rw [parents_mono store f1 _ (le_max_left _ _) x o hq]; simp

theorem acyclic_of_rank (store : TaxStore K) (rank : taxid_t → Nat)
    (h : ∀ k r, store k = TaxStep.row r → 0 < r.parent_tax_id → rank r.parent_tax_id < rank k) :
    store_acyclic store := by
  apply Subrelation.wf _ (InvImage.wf rank Nat.lt_wfRel.wf)
  intro p k hpk
  obtain ⟨r, hs, hp, hpos⟩ := hpk
  subst hp
  exact h k r hs hpos

/-- What `get_lineage` memoizes: nothing, or the completed walk `taxid :: ps` under `taxid`. -/
theorem get_lineage_memo (store : TaxStore K) (fuel : Nat) (c : taxonomy_cache K) (t : taxid_t)
    (l : List taxid_t) (c1 : taxonomy_cache K) (h : c.get_lineage store fuel t = some (l, c1)) :
    c1.t = c.t ∨
      ∃ ps, parents store fuel t = some (some ps) ∧ l = t :: ps ∧ c1.t = map_set c.t t l := by
  have hl : lineage_of store fuel c t = some l := by simp [lineage_of, h]
  rcases get_lineage_t store fuel c t l c1 h with h1 | ⟨ht, h1⟩
  · left; exact h1
  · by_cases hct : c.t t = none
    · rw [lineage_of_eq] at hl
      simp only [gt_iff_lt, ht, if_true, hct] at hl
      cases hp : parents store fuel t with
      | none => simp [hp] at hl
      | some o =>
        cases o with
        | none =>
          left
          unfold taxonomy_cache.get_lineage at h
          simp only [gt_iff_lt, ht, if_true, hct] at h
          have h2 := lineage_loop_fst store fuel t [t] c
          rw [hp] at h2
          cases hloop : lineage_loop store fuel t [t] c with
          | none => simp [hloop] at h
          | some rc =>
            obtain ⟨r, c2⟩ := rc
            rw [hloop] at h2
            simp only [Option.map_some', Option.map_none', Option.some.injEq] at h2
            subst h2
            simp only [hloop, Option.some.injEq, Prod.mk.injEq] at h
            rw [← h.2]
            exact lineage_loop_t store fuel t [t] c none c2 hloop
        | some ps =>
          right
          simp only [hp, Option.map_some', Option.getD_some, Option.some.injEq] at hl
          exact ⟨ps, rfl, hl.symm, h1⟩
    · left
      obtain ⟨l0, hl0⟩ := Option.ne_none_iff_exists'.1 hct
      unfold taxonomy_cache.get_lineage at h
      simp only [gt_iff_lt, ht, if_true, hl0, Option.some.injEq, Prod.mk.injEq] at h
      rw [← h.2]

/-- The invariant `lineages_from` is kept by `get_lineage`. -/
theorem get_lineage_lineages_from (store : TaxStore K) (fuel : Nat) (c : taxonomy_cache K)
    (t : taxid_t) (l : List taxid_t) (c1 : taxonomy_cache K)
    (h : c.get_lineage store fuel t = some (l, c1)) (hc : lineages_from store c) :
    lineages_from store c1 := by
  rcases get_lineage_memo store fuel c t l c1 h with h1 | ⟨ps, hp, hl, h1⟩
  · intro k l0 hk
    rw [h1] at hk
    exact hc k l0 hk
  · intro k l0 hk
    rw [h1] at hk
    unfold map_set at hk
    by_cases hkt : k = t
    · subst hkt
      simp only [if_true, Option.some.injEq] at hk
      exact ⟨fuel, ps, hp, by rw [← hk, hl]⟩
    · simp only [hkt, if_false] at hk
      exact hc k l0 hk

theorem memo_step_weights_from (store : TaxStore K) (c : taxonomy_cache K) (curr : taxid_t)
    (row : TaxRow K) (hs : store curr = TaxStep.row row) (hc : weights_from store c)
    (c1 : taxonomy_cache K)
    (h1 : c1 = if c.t_str curr = none then ⟨c.t, map_set c.t_str curr row.name, c.t_weight⟩
      else c)
    (w : K) (hw : w = if row.weight > 1 then 1 else row.weight) (c2 : taxonomy_cache K)
    (h2 : c2 = if c1.t_weight curr = none then ⟨c1.t, c1.t_str, map_set c1.t_weight curr w⟩
      else c1) :
    weights_from store c2 := by
  have hc1 : weights_from store c1 := by
    rw [h1]
    by_cases h : c.t_str curr = none
    · simp only [h, if_true]; exact hc
    · simp only [h, if_false]; exact hc
  rw [h2]
  by_cases h : c1.t_weight curr = none
  · simp only [h, if_true]
    intro k w0 hk
    simp only [map_set] at hk
    by_cases hkc : k = curr
    · subst hkc
      simp only [if_true, Option.some.injEq] at hk
      exact ⟨row, hs, by rw [← hk, hw]⟩
    · simp only [hkc, if_false] at hk
      exact hc1 k w0 hk
  · simp only [h, if_false]; exact hc1

theorem lineage_loop_weights_from (store : TaxStore K) (fuel : Nat) (curr : taxid_t)
    (tl : List taxid_t) (c : taxonomy_cache K) (r : Option (List taxid_t))
    (c1 : taxonomy_cache K) (h : lineage_loop store fuel curr tl c = some (r, c1))
    (hc : weights_from store c) : weights_from store c1 := by
  induction fuel generalizing curr tl c with
  | zero => simp [lineage_loop] at h
  | succ n ih =>
    simp only [lineage_loop] at h
    cases hs : store curr with
    | bind_error => simp [hs] at h; rw [← h.2]; exact hc
    | no_row => simp [hs] at h; rw [← h.2]; exact hc
    | row row =>
      simp only [hs] at h
      have hc2 := memo_step_weights_from store c curr row hs hc _ rfl _ rfl _ rfl
      by_cases hp : row.parent_tax_id > 0
      · simp only [hp, if_true] at h
        exact ih _ _ _ h hc2
      · simp only [hp, if_false, Option.some.injEq, Prod.mk.injEq] at h
        rw [← h.2]
        exact hc2

/-- The invariant `weights_from` is kept by `get_lineage`. -/
theorem get_lineage_weights_from (store : TaxStore K) (fuel : Nat) (c : taxonomy_cache K)
    (t : taxid_t) (l : List taxid_t) (c1 : taxonomy_cache K)
    (h : c.get_lineage store fuel t = some (l, c1)) (hc : weights_from store c) :
    weights_from store c1 := by
  unfold taxonomy_cache.get_lineage at h
  by_cases ht : t > 0
  · simp only [ht, if_true] at h
    cases hct : c.t t with
    | some l0 => simp [hct] at h; rw [← h.2]; exact hc
    | none =>
      simp only [hct] at h
      cases hl : lineage_loop store fuel t [t] c with
      | none => simp [hl] at h
      | some rc =>
        obtain ⟨r, c2⟩ := rc
        have h2 := lineage_loop_weights_from store fuel t [t] c r c2 hl hc
        cases r with
        | none => simp [hl] at h; rw [← h.2]; exact h2
        | some tl =>
          simp [hl] at h
          rw [← h.2]
          exact h2
  · simp [ht] at h; rw [← h.2]; exact hc

theorem lineages_from_empty (store : TaxStore K) :
    lineages_from store (taxonomy_cache.empty K) := by
  intro k l h
  simp [taxonomy_cache.empty] at h

theorem weights_from_empty (store : TaxStore K) :
    weights_from store (taxonomy_cache.empty K) := by
  intro k w h
  simp [taxonomy_cache.empty] at h

theorem get_weight_bounds (store : TaxStore K) (c : taxonomy_cache K)
    (hw : ∀ k r, store k = TaxStep.row r → 0 ≤ r.weight ∧ r.weight ≤ 1)
    (hc : weights_from store c) (x : taxid_t) : 0 ≤ c.get_weight x ∧ c.get_weight x ≤ 1 := by
  unfold taxonomy_cache.get_weight
  cases h : c.t_weight x with
  | none => simp
  | some w =>
    obtain ⟨r, hr, rfl⟩ := hc x w h
    have := hw x r hr
    simp only
    split_ifs <;> constructor <;> linarith [this.1, this.2]

/-! ### The two passes over `taxid_count` -/

theorem has_lineage_lin (store : TaxStore K) (fuel : Nat) (c : taxonomy_cache K) (t : taxid_t)
    (h : has_lineage store fuel c t) :
    lineage_of store fuel c t = some (lin store fuel c t) ∧ lin store fuel c t ≠ [] := by
  obtain ⟨l, h1, h2⟩ := h
  simp [lin, h1, h2]

theorem tally_all_eq (store : TaxStore K) (fuel : Nat) (c0 : taxonomy_cache K)
    (entries : List (taxid_t × K)) (c : taxonomy_cache K) (s : (Nat → K) × (taxid_t → K))
    (hc : lineage_of store fuel c = lineage_of store fuel c0)
    (hd : ∀ e ∈ entries, has_lineage store fuel c0 e.1) :
    ∃ c1, tally_all store fuel entries c s
        = some (c1, entries.foldl (fun s e => tally e.2 (lin store fuel c0 e.1).reverse 0 s) s) ∧
      lineage_of store fuel c1 = lineage_of store fuel c0 := by
  induction entries generalizing c s with
  | nil => exact ⟨c, rfl, hc⟩
  | cons e rest ih =>
    obtain ⟨hsome, hne0⟩ := has_lineage_lin store fuel c0 e.1 (hd e (List.mem_cons_self _ _))
    have hne : lineage_of store fuel c e.1 ≠ none := by
      rw [hc, hsome]; simp
    cases hg : c.get_lineage store fuel e.1 with
    | none => exact absurd ((get_lineage_none_iff store fuel c e.1).1 hg) hne
    | some r =>
      obtain ⟨l, c2⟩ := r
      have hstep := lineage_of_step store fuel c e.1 l c2 hg
      have hl : lin store fuel c0 e.1 = l := by
        rw [← lin_of_some store fuel c e.1 l c2 hg]
        simp only [lin, hc]
      have hl0 : l ≠ [] := by rw [← hl]; exact hne0
      obtain ⟨c1, h1, h2⟩ := ih c2 (tally e.2 l.reverse 0 s) (hstep.trans hc)
        (fun e1 he1 => hd e1 (List.mem_cons_of_mem _ he1))
      refine ⟨c1, ?_, h2⟩
      simp only [tally_all, hg, hl0, if_false, List.foldl_cons, hl]
      exact h1

theorem select_all_eq (store : TaxStore K) (fuel : Nat) (c0 : taxonomy_cache K)
    (lc : Nat → K) (tc : taxid_t → K)
    (entries : List (taxid_t × K)) (c : taxonomy_cache K) (r0 : LPI K)
    (hc : lineage_of store fuel c = lineage_of store fuel c0)
    (hd : ∀ e ∈ entries, has_lineage store fuel c0 e.1) :
    ∃ c1, select_all store fuel lc tc entries c r0
        = some (c1, select_of (lin store fuel c0) lc tc entries r0) ∧
      lineage_of store fuel c1 = lineage_of store fuel c0 := by
  induction entries generalizing c r0 with
  | nil => exact ⟨c, rfl, hc⟩
  | cons e rest ih =>
    obtain ⟨hsome, hne0⟩ := has_lineage_lin store fuel c0 e.1 (hd e (List.mem_cons_self _ _))
    have hne : lineage_of store fuel c e.1 ≠ none := by
      rw [hc, hsome]; simp
    cases hg : c.get_lineage store fuel e.1 with
    | none => exact absurd ((get_lineage_none_iff store fuel c e.1).1 hg) hne
    | some r =>
      obtain ⟨l, c2⟩ := r
      have hstep := lineage_of_step store fuel c e.1 l c2 hg
      have hl : lin store fuel c0 e.1 = l := by
        rw [← lin_of_some store fuel c e.1 l c2 hg]
        simp only [lin, hc]
      have hl0 : l ≠ [] := by rw [← hl]; exact hne0
      obtain ⟨c1, h1, h2⟩ := ih c2
        (if lpi_of lc tc l > r0.score then ⟨lpi_of lc tc l, e.1⟩ else r0) (hstep.trans hc)
        (fun e1 he1 => hd e1 (List.mem_cons_of_mem _ he1))
      refine ⟨c1, ?_, h2⟩
      simp only [select_all, hg, hl0, if_false, select_of, List.foldl_cons, hl]
      exact h1

theorem tally_all_defined (store : TaxStore K) (fuel : Nat) (entries : List (taxid_t × K))
    (c : taxonomy_cache K) (s : (Nat → K) × (taxid_t → K))
    (h : tally_all store fuel entries c s ≠ none) :
    ∀ e ∈ entries, has_lineage store fuel c e.1 := by
  induction entries generalizing c s with
  | nil => simp
  | cons e rest ih =>
    rw [tally_all] at h
    cases hg : c.get_lineage store fuel e.1 with
    | none => simp [hg] at h
    | some r =>
      obtain ⟨l, c1⟩ := r
      simp only [hg] at h
      by_cases hl0 : l = []
      · simp [hl0] at h
      · simp only [hl0, if_false] at h
        have h1 := ih c1 _ h
        simp only [has_lineage] at h1 ⊢
        rw [lineage_of_step store fuel c e.1 l c1 hg] at h1
        intro e1 he1
        rcases List.mem_cons.1 he1 with rfl | he1
        · exact ⟨l, by simp [lineage_of, hg], hl0⟩
        · exact h1 e1 he1

theorem tally_fst (v : K) (l : List taxid_t) (lev : Nat) (s : (Nat → K) × (taxid_t → K))
    (d : Nat) :
    (tally v l lev s).1 d = s.1 d + (if lev ≤ d ∧ d < lev + l.length then v else 0) := by
  induction l generalizing lev s with
  | nil => simp [tally]
  | cons x rest ih =>
    simp only [tally, ih, map_acc, List.length_cons]
    by_cases h1 : d = lev
    · subst h1
      simp
    · by_cases h2 : lev + 1 ≤ d
      · have h3 : lev ≤ d := by omega
        by_cases h4 : d < lev + 1 + rest.length
        · have h5 : d < lev + (rest.length + 1) := by omega
          simp [h1, h2, h3, h4, h5]
        · have h5 : ¬ d < lev + (rest.length + 1) := by omega
          simp [h1, h2, h3, h4, h5]
      · have h3 : ¬ lev ≤ d := by omega
        simp [h1, h2, h3]

theorem tally_snd (v : K) (l : List taxid_t) (lev : Nat) (s : (Nat → K) × (taxid_t → K))
    (n : taxid_t) :
    (tally v l lev s).2 n = s.2 n + (l.count n : K) * v := by
  induction l generalizing lev s with
  | nil => simp [tally]
  | cons x rest ih =>
    simp only [tally, ih, map_acc, List.count_cons]
    by_cases h1 : n = x
    · subst h1
      simp
      ring
    · have h2 : ¬ (x == n) = true := by simpa using fun h => h1 h.symm
      simp [h1, h2]

theorem counts_fold_fst (lineage : taxid_t → List taxid_t) (entries : List (taxid_t × K))
    (s : (Nat → K) × (taxid_t → K)) (d : Nat) :
    (entries.foldl (fun s e => tally e.2 (lineage e.1).reverse 0 s) s).1 d
      = s.1 d + (entries.map (fun e => if d < (lineage e.1).length then e.2 else 0)).sum := by
  induction entries generalizing s with
  | nil => simp
  | cons e rest ih =>
    simp only [List.foldl_cons, ih, tally_fst, List.map_cons, List.sum_cons, List.length_reverse]
    simp [add_assoc]

theorem counts_fold_snd (lineage : taxid_t → List taxid_t) (entries : List (taxid_t × K))
    (s : (Nat → K) × (taxid_t → K)) (n : taxid_t) :
    (entries.foldl (fun s e => tally e.2 (lineage e.1).reverse 0 s) s).2 n
      = s.2 n + (entries.map (fun e => ((lineage e.1).count n : K) * e.2)).sum := by
  induction entries generalizing s with
  | nil => simp
  | cons e rest ih =>
    simp only [List.foldl_cons, ih, tally_snd, List.map_cons, List.sum_cons, List.count_reverse]
    simp [add_assoc]

theorem counts_of_fst (lineage : taxid_t → List taxid_t) (entries : List (taxid_t × K))
    (d : Nat) :
    (counts_of lineage entries).1 d
      = (entries.map (fun e => if d < (lineage e.1).length then e.2 else 0)).sum := by
  simp [counts_of, counts_fold_fst]

theorem counts_of_snd (lineage : taxid_t → List taxid_t) (entries : List (taxid_t × K))
    (n : taxid_t) :
    (counts_of lineage entries).2 n
      = (entries.map (fun e => ((lineage e.1).count n : K) * e.2)).sum := by
  simp [counts_of, counts_fold_snd]

theorem counts_of_fst_perm (lineage : taxid_t → List taxid_t) {v1 v2 : List (taxid_t × K)}
    (h : v1.Perm v2) (d : Nat) : (counts_of lineage v1).1 d = (counts_of lineage v2).1 d := by
  rw [counts_of_fst, counts_of_fst]
  exact (h.map _).sum_eq

theorem counts_of_snd_perm (lineage : taxid_t → List taxid_t) {v1 v2 : List (taxid_t × K)}
    (h : v1.Perm v2) (n : taxid_t) : (counts_of lineage v1).2 n = (counts_of lineage v2).2 n := by
  rw [counts_of_snd, counts_of_snd]
  exact (h.map _).sum_eq

theorem lpi_sums_eq (lc : Nat → K) (tc : taxid_t → K) (l : List taxid_t) (lev : Nat)
    (s : K × K) :
    lpi_sums lc tc l lev s
      = (s.1 + ((l.enumFrom lev).map (fun p => tc p.2 / (lc p.1 * ((p.1 : K) + 1)))).sum,
         s.2 + ((l.enumFrom lev).map (fun p => 1 / ((p.1 : K) + 1))).sum) := by
  induction l generalizing lev s with
  | nil => simp [lpi_sums]
  | cons x rest ih =>
    simp only [lpi_sums, ih, List.enumFrom_cons, List.map_cons, List.sum_cons, one_mul]
    simp [add_assoc]

theorem lpi_of_eq (lc : Nat → K) (tc : taxid_t → K) (l : List taxid_t) :
    lpi_of lc tc l
      = ((l.reverse.enum).map (fun p => tc p.2 / (lc p.1 * ((p.1 : K) + 1)))).sum /
        ((l.reverse.enum).map (fun p => 1 / ((p.1 : K) + 1))).sum := by
  simp [lpi_of, lpi_sums_eq, List.enum]

theorem select_of_eq_fold (lineage : taxid_t → List taxid_t) (lc : Nat → K) (tc : taxid_t → K)
    (entries : List (taxid_t × K)) (r0 : LPI K) :
    select_of lineage lc tc entries r0
      = entries.foldl (select_step (fun x => lpi_of lc tc (lineage x))) r0 := rfl

theorem select_fold_ge (f : taxid_t → K) (entries : List (taxid_t × K)) (r0 : LPI K) :
    r0.score ≤ (entries.foldl (select_step f) r0).score ∧
      ∀ e ∈ entries, f e.1 ≤ (entries.foldl (select_step f) r0).score := by
  induction entries generalizing r0 with
  | nil => simp
  | cons e rest ih =>
    obtain ⟨h1, h2⟩ := ih (select_step f r0 e)
    simp only [List.foldl_cons, List.mem_cons, forall_eq_or_imp]
    have h3 : r0.score ≤ (select_step f r0 e).score ∧ f e.1 ≤ (select_step f r0 e).score := by
      unfold select_step
      by_cases h : f e.1 > r0.score
      · simp [h, le_of_lt h]
      · simp [h, not_lt.mp h]
    exact ⟨h3.1.trans h1, h3.2.trans h1, h2⟩

theorem select_fold_first (f : taxid_t → K) (entries : List (taxid_t × K)) (r0 : LPI K) :
    entries.foldl (select_step f) r0 = r0 ∨
      ∃ pre e post, entries = pre ++ e :: post ∧
        entries.foldl (select_step f) r0 = ⟨f e.1, e.1⟩ ∧ r0.score < f e.1 ∧
        (∀ p ∈ pre, f p.1 < f e.1) ∧ ∀ q ∈ post, f q.1 ≤ f e.1 := by
  induction entries generalizing r0 with
  | nil => left; rfl
  | cons e rest ih =>
    simp only [List.foldl_cons]
    by_cases h : f e.1 > r0.score
    · have hs : select_step f r0 e = ⟨f e.1, e.1⟩ := by simp [select_step, h]
      rcases ih (select_step f r0 e) with h1 | ⟨pre, e1, post, h1, h2, h3, h4, h5⟩
      · right
        refine ⟨[], e, rest, rfl, by rw [h1, hs], h, by simp, fun q hq => ?_⟩
        have := (select_fold_ge f rest (select_step f r0 e)).2 q hq
        rwa [h1, hs] at this
      · right
        rw [hs] at h3
        refine ⟨e :: pre, e1, post, by simp [h1], h2, lt_trans h h3, ?_, h5⟩
        intro p hp
        rcases List.mem_cons.1 hp with rfl | hp
        · exact h3
        · exact h4 p hp
    · have hs : select_step f r0 e = r0 := by simp [select_step, h]
      rw [hs]
      rcases ih r0 with h1 | ⟨pre, e1, post, h1, h2, h3, h4, h5⟩
      · left; exact h1
      · right
        refine ⟨e :: pre, e1, post, by simp [h1], h2, h3, ?_, h5⟩
        intro p hp
        rcases List.mem_cons.1 hp with rfl | hp
        · exact lt_of_le_of_lt (not_lt.mp h) h3
        · exact h4 p hp

/-- The selection loop keeps the first candidate of maximal value; on a list in ascending key
order this is the candidate of smallest id among those of maximal value. -/
theorem best_of_cases (lineage : taxid_t → List taxid_t) (votes : List (Int × K))
    (hs : (votes.map Prod.fst).Sorted (· < ·)) :
    (∀ e ∈ votes, candidate_lpi lineage votes e.1 ≤ (best_of lineage votes).score) ∧
      (best_of lineage votes = ⟨0, -1⟩ ∨
        ((best_of lineage votes).tax_id ∈ votes.map Prod.fst ∧
          candidate_lpi lineage votes (best_of lineage votes).tax_id
            = (best_of lineage votes).score ∧
          0 < (best_of lineage votes).score ∧
          ∀ e ∈ votes, candidate_lpi lineage votes e.1 = (best_of lineage votes).score →
            (best_of lineage votes).tax_id ≤ e.1)) := by
  have hb : best_of lineage votes
      = votes.foldl (select_step (candidate_lpi lineage votes)) ⟨0, -1⟩ := rfl
  rw [hb]
  refine ⟨(select_fold_ge _ votes ⟨0, -1⟩).2, ?_⟩
  rcases select_fold_first (candidate_lpi lineage votes) votes ⟨0, -1⟩ with
    h0 | ⟨pre, e, post, h1, h2, h3, h4, h5⟩
  · left; exact h0
  · right
    rw [h2]
    refine ⟨by rw [h1]; simp, rfl, h3, ?_⟩
    intro e1 he1 heq
    rw [h1] at he1 hs
    simp only [List.map_append, List.map_cons, List.Sorted, List.pairwise_append,
      List.pairwise_cons] at hs
    rcases List.mem_append.1 he1 with hp | hp
    · exact absurd heq (ne_of_lt (h4 e1 hp))
    · rcases List.mem_cons.1 hp with rfl | hp
      · exact le_refl _
      · exact le_of_lt (hs.2.1.1 e1.1 (List.mem_map_of_mem _ hp))

/-! ### `get_best_LPI` branch by branch -/

theorem get_best_LPI_zero (exp : K → K) (pstore : PepStore) (tstore : TaxStore K)
    (fuel : Nat) (br : blast_record K) (pep_c : peptide_cache) (tax_c : taxonomy_cache K)
    (mn : K) (h : (count_hits exp pstore tax_c mn br.blast_hits pep_c).2 = []) :
    result_of (br.get_best_LPI exp pstore tstore fuel pep_c tax_c mn) = some (0, -1) := by
  simp [blast_record.get_best_LPI, h, result_of]

theorem get_best_LPI_one (exp : K → K) (pstore : PepStore) (tstore : TaxStore K)
    (fuel : Nat) (br : blast_record K) (pep_c : peptide_cache) (tax_c : taxonomy_cache K)
    (mn : K) (e : taxid_t × K)
    (h : (count_hits exp pstore tax_c mn br.blast_hits pep_c).2 = [e]) :
    result_of (br.get_best_LPI exp pstore tstore fuel pep_c tax_c mn) = some (1, e.1) := by
  simp [blast_record.get_best_LPI, h, result_of]

/-- The branches `taxid_count.size() == 0` and `taxid_count.size() == 1` of `get_best_LPI` return
without any lineage walk, with score `0.0` or `1.0`. -/
theorem get_best_LPI_small (exp : K → K) (pstore : PepStore) (tstore : TaxStore K)
    (fuel : Nat) (br : blast_record K) (pep_c : peptide_cache) (tax_c : taxonomy_cache K)
    (mn : K)
    (h2 : ¬ 2 ≤ (count_hits exp pstore tax_c mn br.blast_hits pep_c).2.length) :
    ∃ score t, result_of (br.get_best_LPI exp pstore tstore fuel pep_c tax_c mn)
      = some (score, t) ∧ (score = 0 ∨ score = 1) := by
  unfold blast_record.get_best_LPI
  generalize (count_hits exp pstore tax_c mn br.blast_hits pep_c) = st at h2
  obtain ⟨pc, entries⟩ := st
  match entries, h2 with
  | [], _ => exact ⟨0, -1, rfl, Or.inl rfl⟩
  | [e], _ => exact ⟨1, e.1, rfl, Or.inr rfl⟩
  | e0 :: e1 :: rest, h2 => simp at h2

/-- The branch `taxid_count.size() > 1` of `get_best_LPI`, when every candidate has a non-empty
lineage whose walk ends within `fuel` iterations, computes `best_of` on the lineages of the initial
cache state. -/
theorem get_best_LPI_multi (exp : K → K) (pstore : PepStore) (tstore : TaxStore K)
    (fuel : Nat) (br : blast_record K) (pep_c : peptide_cache) (tax_c : taxonomy_cache K)
    (mn : K)
    (h2 : 2 ≤ (count_hits exp pstore tax_c mn br.blast_hits pep_c).2.length)
    (hd : ∀ e ∈ (count_hits exp pstore tax_c mn br.blast_hits pep_c).2,
      has_lineage tstore fuel tax_c e.1) :
    ∃ pc tc, br.get_best_LPI exp pstore tstore fuel pep_c tax_c mn
      = some (best_of (lin tstore fuel tax_c)
          (count_hits exp pstore tax_c mn br.blast_hits pep_c).2, pc, tc) := by
  unfold blast_record.get_best_LPI
  generalize (count_hits exp pstore tax_c mn br.blast_hits pep_c) = st at h2 hd
  obtain ⟨pc, entries⟩ := st
  match entries, h2, hd with
  | e0 :: e1 :: rest, _, hd =>
    obtain ⟨c1, h1, hl1⟩ := tally_all_eq tstore fuel tax_c (e0 :: e1 :: rest) tax_c
      (fun _ => 0, fun _ => 0) rfl hd
    obtain ⟨c2, h3, _⟩ := select_all_eq tstore fuel tax_c
      (counts_of (lin tstore fuel tax_c) (e0 :: e1 :: rest)).1
      (counts_of (lin tstore fuel tax_c) (e0 :: e1 :: rest)).2 (e0 :: e1 :: rest) c1 ⟨0, -1⟩
      hl1 hd
    refine ⟨pc, c2, ?_⟩
    simp only [counts_of] at h3
    simp only [h1, h3, best_of, counts_of]

/-- When `get_best_LPI` returns from the branch `taxid_count.size() > 1`, every lineage walk it
started has ended with a non-empty lineage. -/
theorem get_best_LPI_defined (exp : K → K) (pstore : PepStore) (tstore : TaxStore K)
    (fuel : Nat) (br : blast_record K) (pep_c : peptide_cache) (tax_c : taxonomy_cache K)
    (mn : K)
    (h2 : 2 ≤ (count_hits exp pstore tax_c mn br.blast_hits pep_c).2.length)
    (h : br.get_best_LPI exp pstore tstore fuel pep_c tax_c mn ≠ none) :
    ∀ e ∈ (count_hits exp pstore tax_c mn br.blast_hits pep_c).2,
      has_lineage tstore fuel tax_c e.1 := by
  unfold blast_record.get_best_LPI at h
  generalize (count_hits exp pstore tax_c mn br.blast_hits pep_c) = st at h2 h
  obtain ⟨pc, entries⟩ := st
  match entries, h2, h with
  | e0 :: e1 :: rest, _, h =>
    apply tally_all_defined tstore fuel (e0 :: e1 :: rest) tax_c (fun _ => 0, fun _ => 0)
    intro h0
    simp [h0] at h

/-- The result of `get_best_LPI` is a function of the vote accumulator, the taxonomy store and the
taxonomy cache. -/
theorem get_best_LPI_of_count (exp : K → K) (pstore : PepStore) (tstore : TaxStore K)
    (fuel : Nat) (br1 br2 : blast_record K) (pep_c : peptide_cache) (tax_c : taxonomy_cache K)
    (mn1 mn2 : K)
    (h : (count_hits exp pstore tax_c mn1 br1.blast_hits pep_c).2
      = (count_hits exp pstore tax_c mn2 br2.blast_hits pep_c).2) :
    result_of (br1.get_best_LPI exp pstore tstore fuel pep_c tax_c mn1)
      = result_of (br2.get_best_LPI exp pstore tstore fuel pep_c tax_c mn2) := by
  unfold blast_record.get_best_LPI result_of
  simp only [h]
  rcases (count_hits exp pstore tax_c mn2 br2.blast_hits pep_c).2 with _ | ⟨e0, _ | ⟨e1, rest⟩⟩
  · rfl
  · rfl
  · simp only
    cases tally_all tstore fuel (e0 :: e1 :: rest) tax_c (fun _ => 0, fun _ => 0) with
    | none => rfl
    | some r =>
      simp only
      cases select_all tstore fuel r.2.1 r.2.2 (e0 :: e1 :: rest) r.1 ⟨0, -1⟩ with
      | none => rfl
      | some r2 => rfl

/-! ### Values of the LPI -/

theorem levelTotal_eq (lineage : taxid_t → List taxid_t) (votes : List (taxid_t × K)) (d : Nat) :
    (counts_of lineage votes).1 d = levelTotal lineage votes d := by
  rw [counts_of_fst, levelTotal]
  induction votes with
  | nil => simp
  | cons e rest ih =>
    by_cases h : d < (lineage e.1).length <;> simp [List.filter_cons, h, ih]

theorem nodeTotal_eq (lineage : taxid_t → List taxid_t) (votes : List (taxid_t × K))
    (hnd : ∀ e ∈ votes, (lineage e.1).Nodup) (n : taxid_t) :
    (counts_of lineage votes).2 n = nodeTotal lineage votes n := by
  rw [counts_of_snd, nodeTotal]
  induction votes with
  | nil => simp
  | cons e rest ih =>
    have ih1 := ih (fun e1 h1 => hnd e1 (List.mem_cons_of_mem _ h1))
    have hn := hnd e (List.mem_cons_self _ _)
    by_cases h : n ∈ lineage e.1
    · simp [List.filter_cons, h, ih1, List.count_eq_one_of_mem hn h]
    · simp [List.filter_cons, h, ih1, List.count_eq_zero_of_not_mem h]

theorem lpi_of_eq_spec (lineage : taxid_t → List taxid_t) (votes : List (taxid_t × K))
    (hnd : ∀ e ∈ votes, (lineage e.1).Nodup) (t : taxid_t) :
    lpi_of (counts_of lineage votes).1 (counts_of lineage votes).2 (lineage t)
      = LPI_spec lineage votes t := by
  rw [lpi_of_eq, LPI_spec]
  have h1 : (counts_of lineage votes).1 = levelTotal lineage votes :=
    funext (levelTotal_eq lineage votes)
  have h2 : (counts_of lineage votes).2 = nodeTotal lineage votes :=
    funext (nodeTotal_eq lineage votes hnd)
  rw [h1, h2]

theorem nodeTotal_pos (lineage : taxid_t → List taxid_t) (votes : List (taxid_t × K))
    (hpos : ∀ e ∈ votes, 0 < e.2) (e : taxid_t × K) (he : e ∈ votes) (n : taxid_t)
    (hn : n ∈ lineage e.1) : 0 < nodeTotal lineage votes n := by
  unfold nodeTotal
  apply List.sum_pos
  · intro x hx
    obtain ⟨e1, h1, rfl⟩ := List.mem_map.1 hx
    exact hpos e1 (List.mem_of_mem_filter h1)
  · intro h0
    have : e.2 ∈ (votes.filter (fun e => n ∈ lineage e.1)).map Prod.snd :=
      List.mem_map_of_mem _ (List.mem_filter.2 ⟨he, by simpa using hn⟩)
    rw [h0] at this
    cases this

theorem levelTotal_pos (lineage : taxid_t → List taxid_t) (votes : List (taxid_t × K))
    (hpos : ∀ e ∈ votes, 0 < e.2) (e : taxid_t × K) (he : e ∈ votes) (d : Nat)
    (hd : d < (lineage e.1).length) : 0 < levelTotal lineage votes d := by
  unfold levelTotal
  apply List.sum_pos
  · intro x hx
    obtain ⟨e1, h1, rfl⟩ := List.mem_map.1 hx
    exact hpos e1 (List.mem_of_mem_filter h1)
  · intro h0
    have : e.2 ∈ (votes.filter (fun e => d < (lineage e.1).length)).map Prod.snd :=
      List.mem_map_of_mem _ (List.mem_filter.2 ⟨he, by simpa using hd⟩)
    rw [h0] at this
    cases this

theorem weight_sum_pos (l : List taxid_t) (hl : l ≠ []) :
    0 < ((l.reverse.enum).map (fun p => 1 / ((p.1 : K) + 1))).sum := by
  apply List.sum_pos
  · intro x hx
    obtain ⟨p, _, rfl⟩ := List.mem_map.1 hx
    positivity
  · simpa [List.enum] using hl

theorem LPI_spec_pos (lineage : taxid_t → List taxid_t) (votes : List (taxid_t × K))
    (hpos : ∀ e ∈ votes, 0 < e.2) (e : taxid_t × K) (he : e ∈ votes)
    (hl : lineage e.1 ≠ []) : 0 < LPI_spec lineage votes e.1 := by
  unfold LPI_spec
  apply div_pos _ (weight_sum_pos _ hl)
  apply List.sum_pos
  · intro x hx
    obtain ⟨p, hp, rfl⟩ := List.mem_map.1 hx
    have h1 : p.1 < (lineage e.1).length := by
      simpa using List.fst_lt_of_mem_enum hp
    have h2 : p.2 ∈ lineage e.1 := by
      simpa using List.snd_mem_of_mem_enum hp
    have h3 := nodeTotal_pos lineage votes hpos e he p.2 h2
    have h4 := levelTotal_pos lineage votes hpos e he p.1 h1
    positivity
  · simpa [List.enum] using hl

/-- With positive votes, a candidate with a non-empty lineage has a positive LPI: its own vote
is part of each node total and level total on its lineage. -/
theorem candidate_lpi_pos (lineage : taxid_t → List taxid_t) (votes : List (taxid_t × K))
    (hpos : ∀ e ∈ votes, 0 < e.2) (e : taxid_t × K) (he : e ∈ votes)
    (hl : lineage e.1 ≠ []) : 0 < candidate_lpi lineage votes e.1 := by
  rw [candidate_lpi, lpi_of_eq]
  apply div_pos _ (weight_sum_pos _ hl)
  apply List.sum_pos
  · intro x hx
    obtain ⟨p, hp, rfl⟩ := List.mem_map.1 hx
    have h1 : p.1 < (lineage e.1).length := by
      simpa using List.fst_lt_of_mem_enum hp
    have h2 : p.2 ∈ lineage e.1 := by
      simpa using List.snd_mem_of_mem_enum hp
    have h3 : 0 < (counts_of lineage votes).2 p.2 := by
      rw [counts_of_snd]
      have hterm : (0 : K) < ((lineage e.1).count p.2 : K) * e.2 :=
        mul_pos (by exact_mod_cast List.count_pos_iff.2 h2) (hpos e he)
      refine lt_of_lt_of_le hterm (List.single_le_sum ?_ _ (List.mem_map_of_mem _ he))
      intro y hy
      obtain ⟨e1, he1, rfl⟩ := List.mem_map.1 hy
      exact mul_nonneg (Nat.cast_nonneg _) (le_of_lt (hpos e1 he1))
    have h4 : 0 < (counts_of lineage votes).1 p.1 := by
      rw [levelTotal_eq]
      exact levelTotal_pos lineage votes hpos e he p.1 h1
    positivity
  · simpa [List.enum] using hl

theorem lev_count_nonneg (lineage : taxid_t → List taxid_t) (votes : List (taxid_t × K))
    (hnn : ∀ e ∈ votes, 0 ≤ e.2) (d : Nat) : 0 ≤ (counts_of lineage votes).1 d := by
  rw [counts_of_fst]
  apply List.sum_nonneg
  intro x hx
  obtain ⟨e, he, rfl⟩ := List.mem_map.1 hx
  by_cases h : d < (lineage e.1).length
  · simpa [h] using hnn e he
  · simp [h]

theorem term_count_le_lev_count (store : TaxStore K) (lineage : taxid_t → List taxid_t)
    (votes : List (taxid_t × K)) (hnn : ∀ e ∈ votes, 0 ≤ e.2)
    (hw : ∀ x, is_walk store (lineage x)) (t : taxid_t) (d : Nat) (n : taxid_t)
    (hd : (d, n) ∈ (lineage t).reverse.enum) :
    (counts_of lineage votes).2 n ≤ (counts_of lineage votes).1 d := by
  rw [counts_of_fst, counts_of_snd]
  apply List.sum_le_sum
  intro e he
  by_cases hn : n ∈ lineage e.1
  · have h1 := walk_depth store (lineage t) (lineage e.1) (hw t) (hw e.1) d n hd hn
    have h2 := List.count_eq_one_of_mem (is_walk_nodup store _ (hw e.1)) hn
    simp [h1, h2]
  · have h2 := List.count_eq_zero_of_not_mem hn
    by_cases h1 : d < (lineage e.1).length
    · simpa [h1, h2] using hnn e he
    · simp [h1, h2]

theorem candidate_lpi_le_one (store : TaxStore K) (lineage : taxid_t → List taxid_t)
    (votes : List (taxid_t × K)) (hnn : ∀ e ∈ votes, 0 ≤ e.2)
    (hw : ∀ x, is_walk store (lineage x)) (t : taxid_t) :
    candidate_lpi lineage votes t ≤ 1 := by
  rw [candidate_lpi, lpi_of_eq]
  apply div_le_one_of_le₀
  · apply List.sum_le_sum
    intro p hp
    have h1 := term_count_le_lev_count store lineage votes hnn hw t p.1 p.2 hp
    have h2 := lev_count_nonneg lineage votes hnn p.1
    have h3 : (0 : K) < (p.1 : K) + 1 := by positivity
    rcases eq_or_lt_of_le h2 with h0 | h0
    · rw [← h0]
      simp only [zero_mul, div_zero]
      positivity
    · rw [div_le_div_iff₀ (by positivity) h3]
      nlinarith
  · apply List.sum_nonneg
    intro x hx
    obtain ⟨p, _, rfl⟩ := List.mem_map.1 hx
    positivity

theorem votes_real_nonneg (pstore : PepStore) (tstore : TaxStore ℝ) (tax_c : taxonomy_cache ℝ)
    (mn : ℝ) (hits : List (blast_hit ℝ)) (pep_c : peptide_cache)
    (hw : ∀ k r, tstore k = TaxStep.row r → 0 ≤ r.weight ∧ r.weight ≤ 1)
    (hc : weights_from tstore tax_c) :
    ∀ e ∈ (count_hits Real.exp pstore tax_c mn hits pep_c).2, 0 ≤ e.2 := by
  rw [count_hits_snd]
  apply add_votes_nonneg _ _ (by simp)
  intro e he
  unfold votes_of at he
  obtain ⟨b, _, hb⟩ := List.mem_flatMap.1 he
  unfold hit_votes at hb
  cases hwt : hit_weight Real.exp b.bit_score (bh_max_bitscore hits) with
  | none => simp [hwt] at hb
  | some sw =>
    simp only [hwt] at hb
    split_ifs at hb
    · obtain ⟨x, _, rfl⟩ := List.mem_map.1 hb
      exact mul_nonneg (hit_weight_real_nonneg _ _ sw hwt) (get_weight_bounds tstore tax_c hw hc x).1
    · cases hb

/-- Two sibling candidates with positive votes: the candidate's own node carries only its own
vote while its level carries both, so its LPI is below 1. -/
theorem sibling_lpi_lt_one (store : TaxStore K) (lineage : taxid_t → List taxid_t)
    (votes : List (taxid_t × K)) (a b p : taxid_t) (tail : List taxid_t) (va vb : K)
    (hw : ∀ x, is_walk store (lineage x))
    (hla : lineage a = a :: p :: tail) (hlb : lineage b = b :: p :: tail) (hab : a ≠ b)
    (hperm : votes.Perm [(a, va), (b, vb)]) (hva : 0 < va) (hvb : 0 < vb) :
    candidate_lpi lineage votes a < 1 := by
  have hnn : ∀ e ∈ votes, 0 ≤ e.2 := by
    intro e he
    have := hperm.mem_iff.1 he
    simp only [List.mem_cons, List.mem_singleton, List.not_mem_nil, or_false] at this
    rcases this with rfl | rfl
    · exact le_of_lt hva
    · exact le_of_lt hvb
  have hnda : (a :: p :: tail).Nodup := by
    rw [← hla]; exact is_walk_nodup store _ (hw a)
  have ha1 : a ∉ p :: tail := (List.nodup_cons.1 hnda).1
  have htc : (counts_of lineage votes).2 a = va := by
    rw [counts_of_snd_perm lineage hperm, counts_of_snd]
    have c1 : List.count a (a :: p :: tail) = 1 := List.count_eq_one_of_mem hnda (by simp)
    have c2 : List.count a (b :: p :: tail) = 0 :=
      List.count_eq_zero_of_not_mem (by
        intro h
        rcases List.mem_cons.1 h with h | h
        · exact hab h
        · exact ha1 h)
    simp [hla, hlb, c1, c2]
  have hlc : (counts_of lineage votes).1 (p :: tail).length = va + vb := by
    rw [counts_of_fst_perm lineage hperm, counts_of_fst]
    simp [hla, hlb]
  rw [candidate_lpi, lpi_of_eq, hla]
  have hrev : (a :: p :: tail).reverse = (p :: tail).reverse ++ [a] := by simp
  rw [hrev, List.enum_append, List.map_append, List.map_append, List.sum_append,
    List.sum_append]
  simp only [List.length_reverse, List.enumFrom_singleton, List.map_cons, List.map_nil,
    List.sum_cons, List.sum_nil, add_zero, htc, hlc]
  have hD : (0 : K) < ((p :: tail).length : K) + 1 := by positivity
  have hS : (List.map (fun q : Nat × taxid_t => (counts_of lineage votes).2 q.2 /
        ((counts_of lineage votes).1 q.1 * ((q.1 : K) + 1))) (p :: tail).reverse.enum).sum
      ≤ (List.map (fun q : Nat × taxid_t => 1 / ((q.1 : K) + 1)) (p :: tail).reverse.enum).sum := by
    apply List.sum_le_sum
    intro q hq
    have hq1 : (q.1, q.2) ∈ (lineage a).reverse.enum := by
      rw [hla, hrev, List.enum_append]
      exact List.mem_append_left _ hq
    have h1 := term_count_le_lev_count store lineage votes hnn hw a q.1 q.2 hq1
    have h2 := lev_count_nonneg lineage votes hnn q.1
    have h3 : (0 : K) < (q.1 : K) + 1 := by positivity
    rcases eq_or_lt_of_le h2 with h0 | h0
    · rw [← h0]
      simp only [zero_mul, div_zero]
      positivity
    · rw [div_le_div_iff₀ (by positivity) h3]
      nlinarith
  have hS2 : 0 ≤ (List.map (fun q : Nat × taxid_t => 1 / ((q.1 : K) + 1))
      (p :: tail).reverse.enum).sum := by
    apply List.sum_nonneg
    intro x hx
    obtain ⟨q, _, rfl⟩ := List.mem_map.1 hx
    positivity
  have hlast : va / ((va + vb) * (((p :: tail).length : K) + 1))
      < 1 / (((p :: tail).length : K) + 1) := by
    rw [div_lt_div_iff₀ (by positivity) hD]
    nlinarith
  have hden : 0 < 1 / (((p :: tail).length : K) + 1) := by positivity
  rw [div_lt_one (by linarith)]
  linarith

theorem siblings_votes (pstore : PepStore) (tax_c : taxonomy_cache ℝ) (pep_c : peptide_cache)
    (mn x : ℝ) (s1 s2 : String) (a b : taxid_t) (hx : 0 < x)
    (hs1 : taxids_of pstore pep_c s1 = [a]) (hs2 : taxids_of pstore pep_c s2 = [b])
    (hmn : mn ≤ score_weight Real.exp 1) :
    votes_of Real.exp pstore tax_c mn [⟨s1, x⟩, ⟨s2, x⟩] pep_c
      = [(a, score_weight Real.exp 1 * tax_c.get_weight a),
         (b, score_weight Real.exp 1 * tax_c.get_weight b)] := by
  have hmax : bh_max_bitscore [(⟨s1, x⟩ : blast_hit ℝ), ⟨s2, x⟩] = x := by
    simp [bh_max_bitscore, hx]
  have hx0 : x ≠ 0 := ne_of_gt hx
  rw [votes_of, hmax]
  simp [hit_votes, hit_weight, hx0, hmn, hs1, hs2]

/-- The second pass on two sibling candidates with positive votes: a score strictly between 0 and
1 and one of the two candidates. -/
theorem siblings_best_of (store : TaxStore K) (lineage : taxid_t → List taxid_t)
    (votes : List (taxid_t × K)) (a b p : taxid_t) (tail : List taxid_t) (va vb : K)
    (hw : ∀ x, is_walk store (lineage x))
    (hla : lineage a = a :: p :: tail) (hlb : lineage b = b :: p :: tail) (hab : a ≠ b)
    (hperm : votes.Perm [(a, va), (b, vb)]) (hva : 0 < va) (hvb : 0 < vb)
    (hsorted : (votes.map Prod.fst).Sorted (· < ·)) :
    0 < (best_of lineage votes).score ∧ (best_of lineage votes).score < 1 ∧
      ((best_of lineage votes).tax_id = a ∨ (best_of lineage votes).tax_id = b) := by
  have hmem : ∀ e ∈ votes, e = (a, va) ∨ e = (b, vb) := by
    intro e he
    simpa using hperm.mem_iff.1 he
  have h1a := sibling_lpi_lt_one store lineage votes a b p tail va vb hw hla hlb hab hperm
    hva hvb
  have h1b := sibling_lpi_lt_one store lineage votes b a p tail vb va hw hlb hla (Ne.symm hab)
    (hperm.trans (List.Perm.swap _ _ _)) hvb hva
  have hpos : ∀ e ∈ votes, 0 < e.2 := by
    intro e he
    rcases hmem e he with rfl | rfl
    · exact hva
    · exact hvb
  have hnd : ∀ e ∈ votes, (lineage e.1).Nodup :=
    fun e _ => is_walk_nodup store _ (hw e.1)
  have hain : (a, va) ∈ votes := hperm.mem_iff.2 (by simp)
  have hposa : 0 < candidate_lpi lineage votes a := by
    rw [candidate_lpi, lpi_of_eq_spec lineage votes hnd]
    have hne : lineage (a, va).1 ≠ [] := by simp [hla]
    exact LPI_spec_pos lineage votes hpos (a, va) hain hne
  obtain ⟨h3, h4⟩ := best_of_cases lineage votes hsorted
  rcases h4 with h4 | ⟨h5, h6, h7, _⟩
  · exfalso
    have := h3 _ hain
    rw [h4] at this
    exact absurd (lt_of_lt_of_le hposa this) (lt_irrefl _)
  · obtain ⟨e, he, hte⟩ := List.mem_map.1 h5
    refine ⟨h7, ?_, ?_⟩
    · rw [← h6, ← hte]
      rcases hmem e he with rfl | rfl
      · exact h1a
      · exact h1b
    · rw [← hte]
      rcases hmem e he with rfl | rfl
      · left; rfl
      · right; rfl

theorem one_vote_lev_count (lineage : taxid_t → List taxid_t) (votes : List (Int × K))
    (hs : (votes.map Prod.fst).Nodup) (a : Int) (v : K) (ha : (a, v) ∈ votes)
    (h0 : ∀ e ∈ votes, e.1 ≠ a → e.2 = 0) (d : Nat) :
    (counts_of lineage votes).1 d = if d < (lineage a).length then v else 0 := by
  rw [counts_of_fst]
  rw [sum_single_key votes hs a v ha _ (fun e he hne => by simp [h0 e he hne])]

theorem one_vote_term_count (lineage : taxid_t → List taxid_t) (votes : List (Int × K))
    (hs : (votes.map Prod.fst).Nodup) (a : Int) (v : K) (ha : (a, v) ∈ votes)
    (h0 : ∀ e ∈ votes, e.1 ≠ a → e.2 = 0) (n : taxid_t) :
    (counts_of lineage votes).2 n = ((lineage a).count n : K) * v := by
  rw [counts_of_snd]
  rw [sum_single_key votes hs a v ha _ (fun e he hne => by simp [h0 e he hne])]

theorem one_vote_lpi_self (lineage : taxid_t → List taxid_t) (votes : List (Int × K))
    (hs : (votes.map Prod.fst).Nodup) (a : Int) (v : K) (ha : (a, v) ∈ votes) (hv : v ≠ 0)
    (h0 : ∀ e ∈ votes, e.1 ≠ a → e.2 = 0) (hne : lineage a ≠ []) (hnd : (lineage a).Nodup) :
    candidate_lpi lineage votes a = 1 := by
  rw [candidate_lpi, lpi_of_eq]
  have hmap : (lineage a).reverse.enum.map (fun p => (counts_of lineage votes).2 p.2 /
        ((counts_of lineage votes).1 p.1 * ((p.1 : K) + 1)))
      = (lineage a).reverse.enum.map (fun p => 1 / ((p.1 : K) + 1)) := by
    apply List.map_congr_left
    intro p hp
    have h1 : p.1 < (lineage a).length := by simpa using List.fst_lt_of_mem_enum hp
    have h2 : p.2 ∈ lineage a := by simpa using List.snd_mem_of_mem_enum hp
    rw [one_vote_lev_count lineage votes hs a v ha h0, one_vote_term_count lineage votes hs a v
      ha h0, List.count_eq_one_of_mem hnd h2]
    have h3 : ((p.1 : K) + 1) ≠ 0 := by positivity
    simp only [h1, if_true, Nat.cast_one, one_mul]
    field_simp
  rw [hmap]
  exact div_self (ne_of_gt (weight_sum_pos _ hne))

theorem one_vote_lpi_le (lineage : taxid_t → List taxid_t) (votes : List (Int × K))
    (hs : (votes.map Prod.fst).Nodup) (a : Int) (v : K) (ha : (a, v) ∈ votes) (hv : v ≠ 0)
    (h0 : ∀ e ∈ votes, e.1 ≠ a → e.2 = 0) (hnd : (lineage a).Nodup) (t : taxid_t) :
    candidate_lpi lineage votes t ≤ 1 := by
  rw [candidate_lpi, lpi_of_eq]
  apply div_le_one_of_le₀
  · apply List.sum_le_sum
    intro p _
    rw [one_vote_lev_count lineage votes hs a v ha h0, one_vote_term_count lineage votes hs a v
      ha h0]
    have h3 : (0 : K) < (p.1 : K) + 1 := by positivity
    by_cases h1 : p.1 < (lineage a).length
    · by_cases h2 : p.2 ∈ lineage a
      · rw [List.count_eq_one_of_mem hnd h2]
        simp only [h1, if_true, Nat.cast_one, one_mul]
        apply le_of_eq
        field_simp
      · rw [List.count_eq_zero_of_not_mem h2]
        simp only [Nat.cast_zero, zero_mul, zero_div]
        positivity
    · simp only [h1, if_false, zero_mul, div_zero]
      positivity
  · apply List.sum_nonneg
    intro x hx
    obtain ⟨p, _, rfl⟩ := List.mem_map.1 hx
    positivity

/-! ### The scenarios evaluated -/

theorem scenarioA_max : bh_max_bitscore scenarioA_record.blast_hits = 100 := by
  norm_num [bh_max_bitscore, scenarioA_record]

theorem scenarioA_survives (b : blast_hit ℝ) (hb : b ∈ scenarioA_record.blast_hits) :
    survives Real.exp (1 / 10) scenarioA_record.blast_hits b := by
  refine ⟨score_weight Real.exp 1, ?_, ?_⟩
  · rw [scenarioA_max]
    simp only [scenarioA_record, List.mem_cons, List.mem_singleton, List.not_mem_nil,
      or_false] at hb
    rcases hb with rfl | rfl <;> norm_num [hit_weight]
  · have := score_weight_real_one_ge
    linarith

theorem scenarioA_taxids (b : blast_hit ℝ) (hb : b ∈ scenarioA_record.blast_hits) :
    taxids_of scenarioA_pstore peptide_cache.empty b.subject_id = [42] := by
  simp only [scenarioA_record, List.mem_cons, List.mem_singleton, List.not_mem_nil,
    or_false] at hb
  rcases hb with rfl | rfl <;> rfl

theorem scenarioC_votes (pstore : PepStore) (tax_c : taxonomy_cache ℝ) (pep_c : peptide_cache)
    (a b : String) (mn : ℝ) (h1 : 1 / 100 ≤ mn) (h2 : mn ≤ 1 / 2) :
    votes_of Real.exp pstore tax_c mn [⟨a, 100⟩, ⟨b, 30⟩] pep_c
      = (taxids_of pstore pep_c a).map
          (fun x => (x, score_weight Real.exp 1 * tax_c.get_weight x)) := by
  have hmax : bh_max_bitscore [(⟨a, 100⟩ : blast_hit ℝ), ⟨b, 30⟩] = 100 := by
    norm_num [bh_max_bitscore]
  have hlow := score_weight_real_low
  have hone := score_weight_real_one_ge
  have h3 : mn ≤ score_weight Real.exp 1 := by linarith
  have h4 : ¬ mn ≤ score_weight Real.exp (3 / 10) := by
    intro h; linarith
  have e1 : (30 : ℝ) / 100 = 3 / 10 := by norm_num
  rw [votes_of, hmax]
  simp [hit_votes, hit_weight, h3, h4, e1]

theorem scenarioD_max : bh_max_bitscore scenarioD_record.blast_hits = 100 := by
  norm_num [bh_max_bitscore, scenarioD_record]

theorem scenarioD_votes :
    votes_of Real.exp scenarioD_pstore (taxonomy_cache.empty ℝ) (1 / 10)
      scenarioD_record.blast_hits peptide_cache.empty
      = [(6, score_weight Real.exp 1), (5, score_weight Real.exp 1)] := by
  have h1 := score_weight_real_one_ge
  have h2 : (1 : ℝ) / 10 ≤ score_weight Real.exp 1 := by linarith
  have t1 : taxids_of scenarioD_pstore peptide_cache.empty "s1" = [5] := rfl
  have t2 : taxids_of scenarioD_pstore peptide_cache.empty "s2" = [6] := rfl
  rw [votes_of, scenarioD_max]
  norm_num [scenarioD_record, hit_votes, hit_weight, h2, t1, t2, taxonomy_cache.get_weight,
    taxonomy_cache.empty]

theorem scenarioD_count :
    (count_hits Real.exp scenarioD_pstore (taxonomy_cache.empty ℝ) (1 / 10)
      scenarioD_record.blast_hits peptide_cache.empty).2
      = [(5, score_weight Real.exp 1), (6, score_weight Real.exp 1)] := by
  rw [count_hits_snd, scenarioD_votes]
  norm_num [add_votes, map_add]

theorem scenarioD_lin5 : lin scenarioD_tstore 3 (taxonomy_cache.empty ℝ) 5 = [5, 1] := by
  simp [lin, lineage_of_eq, taxonomy_cache.empty, parents, scenarioD_tstore]

theorem scenarioD_lin6 : lin scenarioD_tstore 3 (taxonomy_cache.empty ℝ) 6 = [6, 1] := by
  simp [lin, lineage_of_eq, taxonomy_cache.empty, parents, scenarioD_tstore]

theorem scenarioD_best :
    best_of (lin scenarioD_tstore 3 (taxonomy_cache.empty ℝ))
      [(5, score_weight Real.exp 1), (6, score_weight Real.exp 1)] = ⟨5 / 6, 5⟩ := by
  have hw := score_weight_real_pos 1
  generalize score_weight Real.exp 1 = w at hw
  have hw0 : w ≠ 0 := ne_of_gt hw
  have hV : (w + w) / (w + w) + w / ((w + w) * 2) = 5 / 4 := by
    field_simp; ring
  simp only [best_of, select_of, counts_of, List.foldl_cons, List.foldl_nil, scenarioD_lin5,
    scenarioD_lin6, lpi_of, lpi_sums, tally, map_acc, List.reverse_cons, List.reverse_nil,
    List.nil_append, List.cons_append]
  norm_num [hV]

theorem scenarioD_defined :
    ∀ e ∈ (count_hits Real.exp scenarioD_pstore (taxonomy_cache.empty ℝ) (1 / 10)
      scenarioD_record.blast_hits peptide_cache.empty).2,
      has_lineage scenarioD_tstore 3 (taxonomy_cache.empty ℝ) e.1 := by
  rw [scenarioD_count]
  intro e he
  simp only [List.mem_cons, List.mem_singleton, List.not_mem_nil, or_false] at he
  rcases he with rfl | rfl
  · exact ⟨[5, 1], by simp [lineage_of_eq, taxonomy_cache.empty, parents, scenarioD_tstore],
      by simp⟩
  · exact ⟨[6, 1], by simp [lineage_of_eq, taxonomy_cache.empty, parents, scenarioD_tstore],
      by simp⟩

theorem scenarioD_result :
    result_of (scenarioD_record.get_best_LPI Real.exp scenarioD_pstore scenarioD_tstore 3
      peptide_cache.empty (taxonomy_cache.empty ℝ) (1 / 10)) = some (5 / 6, 5) := by
  obtain ⟨pc, tc, h⟩ := get_best_LPI_multi Real.exp scenarioD_pstore scenarioD_tstore 3
    scenarioD_record peptide_cache.empty (taxonomy_cache.empty ℝ) (1 / 10)
    (by rw [scenarioD_count]; simp) scenarioD_defined
  rw [h, scenarioD_count, scenarioD_best]
  rfl

theorem scenarioD_lpi (t : taxid_t) (ht : t = 5 ∨ t = 6) :
    candidate_lpi (lin scenarioD_tstore 3 (taxonomy_cache.empty ℝ))
      [(5, score_weight Real.exp 1), (6, score_weight Real.exp 1)] t = 5 / 6 := by
  have hw := score_weight_real_pos 1
  generalize score_weight Real.exp 1 = w at hw
  have hw0 : w ≠ 0 := ne_of_gt hw
  have hV : (w + w) / (w + w) + w / ((w + w) * 2) = 5 / 4 := by
    field_simp; ring
  rcases ht with rfl | rfl
  · simp only [candidate_lpi, counts_of, List.foldl_cons, List.foldl_nil, scenarioD_lin5,
      scenarioD_lin6, lpi_of, lpi_sums, tally, map_acc, List.reverse_cons, List.reverse_nil,
      List.nil_append, List.cons_append]
    norm_num [hV]
  · simp only [candidate_lpi, counts_of, List.foldl_cons, List.foldl_nil, scenarioD_lin5,
      scenarioD_lin6, lpi_of, lpi_sums, tally, map_acc, List.reverse_cons, List.reverse_nil,
      List.nil_append, List.cons_append]
    norm_num [hV]

theorem scenarioD_acyclic : store_acyclic scenarioD_tstore := by
  apply acyclic_of_rank scenarioD_tstore (fun k => if k = 1 then 0 else 1)
  intro k r hs hpos
  unfold scenarioD_tstore at hs
  split_ifs at hs with h5 h6 h1
  · simp only [TaxStep.row.injEq] at hs
    subst hs h5
    simp
  · simp only [TaxStep.row.injEq] at hs
    subst hs h6
    simp
  · simp only [TaxStep.row.injEq] at hs
    subst hs
    simp at hpos

theorem scenarioD_weights (k : taxid_t) (r : TaxRow ℝ) (hs : scenarioD_tstore k = TaxStep.row r) :
    0 ≤ r.weight ∧ r.weight ≤ 1 := by
  unfold scenarioD_tstore at hs
  split_ifs at hs <;> simp only [TaxStep.row.injEq] at hs <;> subst hs <;> norm_num

theorem zero_root_cache_reached :
    (taxonomy_cache.empty ℝ).get_lineage zero_root_tstore 3 5
      = some ([5, 1], zero_root_cache) := by
  norm_num [taxonomy_cache.get_lineage, taxonomy_cache.empty, lineage_loop, zero_root_tstore,
    zero_root_cache, map_set]

theorem zero_root_max : bh_max_bitscore zero_root_record.blast_hits = 100 := by
  norm_num [bh_max_bitscore, zero_root_record]

theorem zero_root_count :
    (count_hits Real.exp zero_root_pstore zero_root_cache (1 / 10)
      zero_root_record.blast_hits peptide_cache.empty).2
      = [(1, 0), (5, score_weight Real.exp 1)] := by
  have h1 := score_weight_real_one_ge
  have h2 : (1 : ℝ) / 10 ≤ score_weight Real.exp 1 := by linarith
  have t1 : taxids_of zero_root_pstore peptide_cache.empty "s1" = [5] := rfl
  have t3 : taxids_of zero_root_pstore peptide_cache.empty "s3" = [1] := rfl
  rw [count_hits_snd, votes_of, zero_root_max]
  norm_num [zero_root_record, hit_votes, hit_weight, h2, t1, t3, taxonomy_cache.get_weight,
    zero_root_cache, map_set, add_votes, map_add]

theorem zero_root_lin5 : lin zero_root_tstore 3 zero_root_cache 5 = [5, 1] := by
  simp [lin, lineage_of_eq, zero_root_cache, map_set]

theorem zero_root_lin1 : lin zero_root_tstore 3 zero_root_cache 1 = [1] := by
  simp [lin, lineage_of_eq, zero_root_cache, map_set, parents, zero_root_tstore]

theorem zero_root_defined :
    ∀ e ∈ (count_hits Real.exp zero_root_pstore zero_root_cache (1 / 10)
      zero_root_record.blast_hits peptide_cache.empty).2,
      has_lineage zero_root_tstore 3 zero_root_cache e.1 := by
  rw [zero_root_count]
  intro e he
  simp only [List.mem_cons, List.mem_singleton, List.not_mem_nil, or_false] at he
  rcases he with rfl | rfl
  · exact ⟨[1], by simp [lineage_of_eq, zero_root_cache, map_set, parents, zero_root_tstore],
      by simp⟩
  · exact ⟨[5, 1], by simp [lineage_of_eq, zero_root_cache, map_set], by simp⟩

theorem zero_root_best :
    best_of (lin zero_root_tstore 3 zero_root_cache) [(1, 0), (5, score_weight Real.exp 1)]
      = ⟨1, 1⟩ := by
  have hw := score_weight_real_pos 1
  generalize score_weight Real.exp 1 = w at hw
  have hw0 : w ≠ 0 := ne_of_gt hw
  have hV : w / (w * 2) = 1 / 2 := by
    field_simp
  simp only [best_of, select_of, counts_of, List.foldl_cons, List.foldl_nil, zero_root_lin5,
    zero_root_lin1, lpi_of, lpi_sums, tally, map_acc, List.reverse_cons, List.reverse_nil,
    List.nil_append, List.cons_append]
  norm_num [hV, hw0]

/-! ### The lineage as a chain of the parent relation -/

/-- A completed walk from a positive node is a chain of the parent relation: its nodes are
positive, each is the parent of the one before, and the last has no positive parent. -/
theorem parents_chain (store : TaxStore K) (fuel : Nat) (k : taxid_t) (ps : List taxid_t)
    (hk : 0 < k) (h : parents store fuel k = some (some ps)) :
    List.Chain' (fun a b => parent_rel store b a) (k :: ps) ∧ (∀ x ∈ k :: ps, 0 < x) ∧
      ∃ n, (k :: ps).getLast? = some n ∧
        (store n = TaxStep.no_row ∨ ∃ r, store n = TaxStep.row r ∧ r.parent_tax_id ≤ 0) := by
  induction fuel generalizing k ps with
  | zero => simp [parents] at h
  | succ m ih =>
    rw [parents] at h
    cases hs : store k with
    | bind_error => simp [hs] at h
    | no_row =>
      simp only [hs, Option.some.injEq] at h
      subst h
      exact ⟨by simp, by simpa using hk, k, by simp, Or.inl hs⟩
    | row r =>
      simp only [hs] at h
      by_cases hp : r.parent_tax_id > 0
      · simp only [hp, if_true] at h
        cases hq : parents store m r.parent_tax_id with
        | none => simp [hq] at h
        | some o =>
          cases o with
          | none => simp [hq] at h
          | some l =>
            simp only [hq, Option.map_some', Option.some.injEq] at h
            subst h
            obtain ⟨h1, h2, n, h3, h4⟩ := ih r.parent_tax_id l hp hq
            refine ⟨List.Chain'.cons ⟨r, hs, rfl, hp⟩ h1, ?_, n, ?_, h4⟩
            · intro x hx
              rcases List.mem_cons.1 hx with rfl | hx
              · exact hk
              · exact h2 x hx
            · rw [List.getLast?_cons_cons]; exact h3
      · simp only [hp, if_false, Option.some.injEq] at h
        subst h
        exact ⟨by simp, by simpa using hk, k, by simp, Or.inr ⟨r, hs, not_lt.1 hp⟩⟩

/-- In an acyclic store without bind errors the walk from any node is completed within some
number of iterations. -/
theorem acyclic_walk_completes (store : TaxStore K) (h : store_acyclic store)
    (hb : ∀ k, store k ≠ TaxStep.bind_error) (k : taxid_t) :
    ∃ fuel ps, parents store fuel k = some (some ps) := by
  obtain ⟨f, hf⟩ := acyclic_walk_ends store h k
  cases hq : parents store f k with
  | none => exact absurd hq hf
  | some o =>
    cases o with
    | none => exact absurd hq (parents_no_bind_error store hb f k)
    | some ps => exact ⟨f, ps, hq⟩

/-- A call of `get_lineage` for a positive taxon id without memoized lineage whose walk is
completed returns the walk and memoizes it. -/
theorem get_lineage_walk (store : TaxStore K) (fuel : Nat) (c : taxonomy_cache K) (t : taxid_t)
    (ps : List taxid_t) (ht : 0 < t) (hc : c.t t = none)
    (hp : parents store fuel t = some (some ps)) :
    ∃ c1, c.get_lineage store fuel t = some (t :: ps, c1) ∧ c1.t = map_set c.t t (t :: ps) := by
  have h1 := lineage_loop_fst store fuel t [t] c
  rw [hp] at h1
  unfold taxonomy_cache.get_lineage
  simp only [gt_iff_lt, ht, if_true, hc]
  cases hl : lineage_loop store fuel t [t] c with
  | none => simp [hl] at h1
  | some rc =>
    obtain ⟨r, c2⟩ := rc
    rw [hl] at h1
    simp only [Option.map_some', Option.some.injEq] at h1
    subst h1
    have ht2 := lineage_loop_t store fuel t [t] c _ c2 hl
    exact ⟨_, rfl, by simp [ht2]⟩

/-- A call of `get_lineage` for a memoized taxon id returns the memoized lineage and leaves the
cache as it is, whatever the store. -/
theorem get_lineage_hit (store : TaxStore K) (fuel : Nat) (c : taxonomy_cache K) (t : taxid_t)
    (l : List taxid_t) (ht : 0 < t) (hc : c.t t = some l) :
    c.get_lineage store fuel t = some (l, c) := by
  unfold taxonomy_cache.get_lineage
  simp [ht, hc]

theorem line_tstore_acyclic : store_acyclic line_tstore := by
  apply acyclic_of_rank line_tstore (fun k => k.toNat)
  intro k r hs hp
  unfold line_tstore at hs
  split_ifs at hs with h1 h2 h3
  · simp only [TaxStep.row.injEq] at hs; subst hs h1; decide
  · simp only [TaxStep.row.injEq] at hs; subst hs h2; decide
  · simp only [TaxStep.row.injEq] at hs; subst hs; simp at hp

theorem line_tstore_no_bind_error (k : taxid_t) : line_tstore k ≠ TaxStep.bind_error := by
  unfold line_tstore
  split_ifs <;> simp

/-! ### Sequences of calls on the lineage cache -/

/-- A memoized lineage stays memoized, unchanged, through a call of `get_lineage`. -/
theorem get_lineage_keeps (store : TaxStore K) (fuel : Nat) (c : taxonomy_cache K) (t : taxid_t)
    (l0 : List taxid_t) (c1 : taxonomy_cache K) (h : c.get_lineage store fuel t = some (l0, c1))
    (k : taxid_t) (l : List taxid_t) (hk : c.t k = some l) : c1.t k = some l := by
  rcases get_lineage_t store fuel c t l0 c1 h with h1 | ⟨ht, h1⟩
  · rw [h1]; exact hk
  · by_cases hkt : k = t
    · subst hkt
      rw [get_lineage_hit store fuel c k l ht hk] at h
      simp only [Option.some.injEq, Prod.mk.injEq] at h
      rw [← h.2]; exact hk
    · rw [h1]
      simp only [map_set, hkt, if_false]
      exact hk

/-- The state that `print_lineage` leaves is the state that its call of `get_lineage` leaves. -/
theorem print_lineage_snd (store : TaxStore K) (fuel : Nat) (c : taxonomy_cache K)
    (t : taxid_t) :
    (c.print_lineage store fuel t).map Prod.snd = (c.get_lineage store fuel t).map Prod.snd := by
  unfold taxonomy_cache.print_lineage
  cases h : c.get_lineage store fuel t with
  | none => rfl
  | some r =>
    obtain ⟨l, c1⟩ := r
    simp only
    split_ifs <;> rfl

/-- Each call leaves the cache as it is or as a call of `get_lineage` leaves it. -/
theorem run_call_cases (c c1 : taxonomy_cache K) (a : cache_call K)
    (h : run_call c a = some c1) :
    c1 = c ∨ ∃ store fuel t l, c.get_lineage store fuel t = some (l, c1) ∧
      call_visits c a = if t > 0 ∧ c.t t = none then walk_nodes store fuel t else [] := by
  cases a with
  | get_lineage store fuel t =>
    right
    simp only [run_call, Option.map_eq_some', Prod.exists, exists_eq_right] at h
    obtain ⟨l, hl⟩ := h
    exact ⟨store, fuel, t, l, hl, rfl⟩
  | print_lineage store fuel t =>
    right
    simp only [run_call, print_lineage_snd, Option.map_eq_some', Prod.exists,
      exists_eq_right] at h
    obtain ⟨l, hl⟩ := h
    exact ⟨store, fuel, t, l, hl, rfl⟩
  | get_weight t =>
    left
    simp only [run_call, Option.some.injEq] at h
    exact h.symm

/-- A memoized lineage stays memoized, unchanged, through any sequence of calls. -/
theorem run_calls_keeps (calls : List (cache_call K)) (c c2 : taxonomy_cache K)
    (h : run_calls calls c = some c2) (k : taxid_t) (l : List taxid_t) (hk : c.t k = some l) :
    c2.t k = some l := by
  induction calls generalizing c with
  | nil =>
    simp only [run_calls, Option.some.injEq] at h
    rw [← h]; exact hk
  | cons a rest ih =>
    rw [run_calls] at h
    cases ha : run_call c a with
    | none => simp [ha] at h
    | some c1 =>
      simp only [ha] at h
      rcases run_call_cases c c1 a ha with h1 | ⟨store, fuel, t, l0, h1, _⟩
      · subst h1; exact ih c1 h hk
      · exact ih c1 h (get_lineage_keeps store fuel c t l0 c1 h1 k l hk)

/-- A call of `get_lineage` that returns without a failed lookup leaves its result memoized, or
its argument is not positive and its result is empty. -/
theorem get_lineage_memoized (store : TaxStore K) (fuel : Nat) (c : taxonomy_cache K)
    (t : taxid_t) (l : List taxid_t) (c1 : taxonomy_cache K)
    (h : c.get_lineage store fuel t = some (l, c1)) (hok : ¬ lookup_fails store fuel c t) :
    (t ≤ 0 ∧ l = []) ∨ (0 < t ∧ c1.t t = some l) := by
  by_cases ht : t > 0
  · right
    refine ⟨ht, ?_⟩
    cases hct : c.t t with
    | some l0 =>
      rw [get_lineage_hit store fuel c t l0 ht hct] at h
      simp only [Option.some.injEq, Prod.mk.injEq] at h
      rw [← h.2, ← h.1]; exact hct
    | none =>
      unfold taxonomy_cache.get_lineage at h
      simp only [ht, if_true, hct] at h
      cases hl : lineage_loop store fuel t [t] c with
      | none => simp [hl] at h
      | some rc =>
        obtain ⟨r, c2⟩ := rc
        cases r with
        | none => exact absurd ⟨ht, hct, by rw [hl]; rfl⟩ hok
        | some tl =>
          simp only [hl, Option.some.injEq, Prod.mk.injEq] at h
          rw [← h.2, ← h.1]
          simp [map_set]
  · left
    unfold taxonomy_cache.get_lineage at h
    simp only [ht, if_false, Option.some.injEq, Prod.mk.injEq] at h
    exact ⟨not_lt.1 ht, h.1.symm⟩

/-! ### The weight memo -/

/-- The loop of `get_lineage` changes the weight memo only at nodes that the walk visits, and
only to a clamped weight. -/
theorem lineage_loop_weight (store : TaxStore K) (fuel : Nat) (curr : taxid_t)
    (tl : List taxid_t) (c : taxonomy_cache K) (r : Option (List taxid_t))
    (c1 : taxonomy_cache K) (h : lineage_loop store fuel curr tl c = some (r, c1)) (k : taxid_t) :
    c1.t_weight k = c.t_weight k ∨
      (k ∈ walk_nodes store fuel curr ∧ ∃ w, c1.t_weight k = some w ∧ w ≤ 1) := by
  induction fuel generalizing curr tl c with
  | zero => simp [lineage_loop] at h
  | succ n ih =>
    simp only [lineage_loop] at h
    cases hs : store curr with
    | bind_error => simp [hs] at h; left; rw [← h.2]
    | no_row => simp [hs] at h; left; rw [← h.2]
    | row row =>
      simp only [hs] at h
      have step : ∀ c2 : taxonomy_cache K,
          c2 = (if (if c.t_str curr = none then
                  ({ c with t_str := map_set c.t_str curr row.name } : taxonomy_cache K)
                else c).t_weight curr = none then
              { (if c.t_str curr = none then
                  ({ c with t_str := map_set c.t_str curr row.name } : taxonomy_cache K)
                else c) with
                t_weight := map_set (if c.t_str curr = none then
                    ({ c with t_str := map_set c.t_str curr row.name } : taxonomy_cache K)
                  else c).t_weight curr (if row.weight > 1 then 1 else row.weight) }
            else (if c.t_str curr = none then
                  ({ c with t_str := map_set c.t_str curr row.name } : taxonomy_cache K)
                else c)) →
          c2.t_weight k = c.t_weight k ∨ (k = curr ∧ ∃ w, c2.t_weight k = some w ∧ w ≤ 1) := by
        intro c2 hc2
        have e1 : (if c.t_str curr = none then
            ({ c with t_str := map_set c.t_str curr row.name } : taxonomy_cache K)
            else c).t_weight = c.t_weight := by
          split_ifs <;> rfl
        rw [e1] at hc2
        by_cases hw : c.t_weight curr = none
        · simp only [hw, if_true] at hc2
          by_cases hk : k = curr
          · right
            refine ⟨hk, if row.weight > 1 then 1 else row.weight, ?_, ?_⟩
            · rw [hc2]; simp [map_set, hk]
            · split_ifs with h1
              · exact le_refl _
              · exact not_lt.1 h1
          · left
            rw [hc2]; simp [map_set, hk]
        · left
          simp only [hw, if_false] at hc2
          rw [hc2, e1]
      by_cases hp : row.parent_tax_id > 0
      · simp only [hp, if_true] at h
        rcases ih _ _ _ h with h1 | ⟨h1, h2⟩
        · rcases step _ rfl with h3 | ⟨h3, w, h4, h5⟩
          · left; rw [h1, h3]
          · right
            refine ⟨by simp [walk_nodes, h3], w, by rw [h1, h4], h5⟩
        · right
          exact ⟨by simp [walk_nodes, hs, hp, h1], h2⟩
      · simp only [hp, if_false, Option.some.injEq, Prod.mk.injEq] at h
        rcases step c1 h.2.symm with h3 | ⟨h3, h4⟩
        · left; exact h3
        · right; exact ⟨by simp [walk_nodes, h3], h4⟩

/-- A call of `get_lineage` changes the weight memo only at nodes that its walk visits, and only
to a weight that is at most 1. -/
theorem get_lineage_weight (store : TaxStore K) (fuel : Nat) (c : taxonomy_cache K) (t : taxid_t)
    (l : List taxid_t) (c1 : taxonomy_cache K) (h : c.get_lineage store fuel t = some (l, c1))
    (k : taxid_t) :
    c1.t_weight k = c.t_weight k ∨
      (k ∈ (if t > 0 ∧ c.t t = none then walk_nodes store fuel t else []) ∧
        ∃ w, c1.t_weight k = some w ∧ w ≤ 1) := by
  unfold taxonomy_cache.get_lineage at h
  by_cases ht : t > 0
  · simp only [ht, if_true] at h
    cases hct : c.t t with
    | some l0 => simp [hct] at h; left; rw [← h.2]
    | none =>
      simp only [hct] at h
      cases hl : lineage_loop store fuel t [t] c with
      | none => simp [hl] at h
      | some rc =>
        obtain ⟨r, c2⟩ := rc
        have h2 := lineage_loop_weight store fuel t [t] c r c2 hl k
        have e : c1.t_weight = c2.t_weight := by
          cases r with
          | none => simp [hl] at h; rw [← h.2]
          | some tl => simp [hl] at h; rw [← h.2]
        rw [e]
        simpa [ht] using h2
  · simp [ht] at h; left; rw [← h.2]

/-- After a sequence of calls, the weight memo differs from the initial one only at nodes that
the lineage walks of these calls have visited, and only by weights that are at most 1. -/
theorem run_calls_weight (calls : List (cache_call K)) (c c2 : taxonomy_cache K)
    (h : run_calls calls c = some c2) (k : taxid_t) :
    c2.t_weight k = c.t_weight k ∨ (k ∈ visited calls c ∧ ∃ w, c2.t_weight k = some w ∧ w ≤ 1) := by
  induction calls generalizing c with
  | nil =>
    simp only [run_calls, Option.some.injEq] at h
    left; rw [← h]
  | cons a rest ih =>
    rw [run_calls] at h
    cases ha : run_call c a with
    | none => simp [ha] at h
    | some c1 =>
      simp only [ha] at h
      rcases ih c1 h with h1 | ⟨h1, h2⟩
      · rcases run_call_cases c c1 a ha with h3 | ⟨store, fuel, t, l0, h3, h4⟩
        · left; rw [h1, h3]
        · rcases get_lineage_weight store fuel c t l0 c1 h3 k with h5 | ⟨h5, w, h6, h7⟩
          · left; rw [h1, h5]
          · right
            refine ⟨?_, w, by rw [h1, h6], h7⟩
            rw [visited, h4]
            exact List.mem_append_left _ h5
      · right
        refine ⟨?_, h2⟩
        rw [visited, ha]
        exact List.mem_append_right _ h1

/-! ### The name memo and `print_lineage` -/

/-- One iteration of the loop of `get_lineage` on a row: the name memo keeps its entries, gains
at most the name of the row, and holds that name afterwards. -/
theorem memo_step_names (store : TaxStore K) (c : taxonomy_cache K) (curr : taxid_t)
    (row : TaxRow K) (hs : store curr = TaxStep.row row)
    (hc : ∀ k s, c.t_str k = some s → ∃ r, store k = TaxStep.row r ∧ s = r.name)
    (c1 : taxonomy_cache K)
    (h1 : c1 = if c.t_str curr = none then ⟨c.t, map_set c.t_str curr row.name, c.t_weight⟩
      else c)
    (w : K) (c2 : taxonomy_cache K)
    (h2 : c2 = if c1.t_weight curr = none then ⟨c1.t, c1.t_str, map_set c1.t_weight curr w⟩
      else c1) :
    (∀ k s, c2.t_str k = some s → ∃ r, store k = TaxStep.row r ∧ s = r.name) ∧
      (∀ k s, c.t_str k = some s → c2.t_str k = some s) ∧
      c2.t_str curr = some row.name := by
  have e2 : c2.t_str = c1.t_str := by
    rw [h2]; split_ifs <;> rfl
  rw [e2]
  by_cases h : c.t_str curr = none
  · have e1 : c1.t_str = map_set c.t_str curr row.name := by
      rw [h1]; simp only [h, if_true]
    rw [e1]
    refine ⟨?_, ?_, by simp [map_set]⟩
    · intro k s hk
      simp only [map_set] at hk
      by_cases hkc : k = curr
      · subst hkc
        simp only [if_true, Option.some.injEq] at hk
        exact ⟨row, hs, hk.symm⟩
      · simp only [hkc, if_false] at hk
        exact hc k s hk
    · intro k s hk
      have hkc : k ≠ curr := by
        intro hkc; subst hkc; rw [h] at hk; cases hk
      simp only [map_set, hkc, if_false]
      exact hk
  · have e1 : c1.t_str = c.t_str := by
      rw [h1]; simp only [h, if_false]
    rw [e1]
    refine ⟨hc, fun _ _ hk => hk, ?_⟩
    obtain ⟨s, hs1⟩ := Option.ne_none_iff_exists'.1 h
    obtain ⟨r, hr, hsr⟩ := hc curr s hs1
    rw [hs] at hr
    simp only [TaxStep.row.injEq] at hr
    rw [hs1, hsr, hr]

/-- The loop of `get_lineage` keeps the name memo a memo of names of the store, keeps its
entries, and memoizes the name of every node of a completed walk that has a row. -/
theorem lineage_loop_names (store : TaxStore K) (fuel : Nat) (curr : taxid_t)
    (tl : List taxid_t) (c : taxonomy_cache K) (r : Option (List taxid_t))
    (c1 : taxonomy_cache K) (h : lineage_loop store fuel curr tl c = some (r, c1))
    (hc : ∀ k s, c.t_str k = some s → ∃ r, store k = TaxStep.row r ∧ s = r.name) :
    (∀ k s, c1.t_str k = some s → ∃ r, store k = TaxStep.row r ∧ s = r.name) ∧
      (∀ k s, c.t_str k = some s → c1.t_str k = some s) ∧
      ∀ ps, parents store fuel curr = some (some ps) → ∀ n ∈ curr :: ps,
        ∀ row, store n = TaxStep.row row → c1.t_str n = some row.name := by
  induction fuel generalizing curr tl c with
  | zero => simp [lineage_loop] at h
  | succ m ih =>
    simp only [lineage_loop] at h
    rw [parents]
    cases hs : store curr with
    | bind_error =>
      simp [hs] at h
      rw [← h.2]
      exact ⟨hc, fun _ _ hk => hk, by simp⟩
    | no_row =>
      simp [hs] at h
      rw [← h.2]
      refine ⟨hc, fun _ _ hk => hk, ?_⟩
      intro ps hps n hn row hrow
      simp only [Option.some.injEq] at hps
      subst hps
      simp only [List.mem_singleton] at hn
      subst hn
      rw [hs] at hrow
      cases hrow
    | row row =>
      simp only [hs] at h
      obtain ⟨s1, s2, s3⟩ := memo_step_names store c curr row hs hc _ rfl
        (if row.weight > 1 then 1 else row.weight) _ rfl
      by_cases hp : row.parent_tax_id > 0
      · simp only [hp, if_true] at h ⊢
        obtain ⟨i1, i2, i3⟩ := ih _ _ _ h s1
        refine ⟨i1, fun k s hk => i2 k s (s2 k s hk), ?_⟩
        intro ps hps n hn row1 hrow1
        cases hq : parents store m row.parent_tax_id with
        | none => simp [hq] at hps
        | some o =>
          cases o with
          | none => simp [hq] at hps
          | some l =>
            simp only [hq, Option.map_some', Option.some.injEq] at hps
            subst hps
            rcases List.mem_cons.1 hn with hn | hn
            · subst hn
              rw [hs] at hrow1
              simp only [TaxStep.row.injEq] at hrow1
              rw [← hrow1]
              exact i2 _ _ s3
            · exact i3 l hq n hn row1 hrow1
      · simp only [hp, if_false, Option.some.injEq, Prod.mk.injEq] at h ⊢
        rw [← h.2]
        refine ⟨s1, s2, ?_⟩
        intro ps hps n hn row1 hrow1
        subst hps
        simp only [List.mem_singleton] at hn
        subst hn
        rw [hs] at hrow1
        simp only [TaxStep.row.injEq] at hrow1
        rw [← hrow1]
        exact s3

/-- A non-empty result of `get_lineage` is memoized under its argument in the cache that the
call leaves. -/
theorem get_lineage_nonempty_memo (store : TaxStore K) (fuel : Nat) (c : taxonomy_cache K)
    (t : taxid_t) (l : List taxid_t) (c1 : taxonomy_cache K)
    (h : c.get_lineage store fuel t = some (l, c1)) (hl : l ≠ []) : c1.t t = some l := by
  have hok : ¬ lookup_fails store fuel c t := by
    rintro ⟨ht, hct, hf⟩
    unfold taxonomy_cache.get_lineage at h
    simp only [ht, if_true, hct] at h
    cases hloop : lineage_loop store fuel t [t] c with
    | none => simp [hloop] at h
    | some rc =>
      obtain ⟨r, c2⟩ := rc
      rw [hloop] at hf
      simp only [Option.map_some', Option.some.injEq] at hf
      subst hf
      simp only [hloop, Option.some.injEq, Prod.mk.injEq] at h
      exact hl h.1.symm
  rcases get_lineage_memoized store fuel c t l c1 h hok with ⟨_, h1⟩ | ⟨_, h1⟩
  · exact absurd h1 hl
  · exact h1

/-- The invariant `names_from` is kept by `get_lineage`. -/
theorem get_lineage_names_from (store : TaxStore K) (fuel : Nat) (c : taxonomy_cache K)
    (t : taxid_t) (l : List taxid_t) (c1 : taxonomy_cache K)
    (h : c.get_lineage store fuel t = some (l, c1)) (hc : names_from store c) :
    names_from store c1 := by
  have h0 := h
  unfold taxonomy_cache.get_lineage at h
  by_cases ht : t > 0
  · simp only [ht, if_true] at h
    cases hct : c.t t with
    | some l0 => simp [hct] at h; rw [← h.2]; exact hc
    | none =>
      simp only [hct] at h
      cases hl : lineage_loop store fuel t [t] c with
      | none => simp [hl] at h
      | some rc =>
        obtain ⟨r, c2⟩ := rc
        obtain ⟨n1, n2, n3⟩ := lineage_loop_names store fuel t [t] c r c2 hl hc.1
        have e : c1.t_str = c2.t_str := by
          cases r with
          | none => simp [hl] at h; rw [← h.2]
          | some tl => simp [hl] at h; rw [← h.2]
        refine ⟨by rw [e]; exact n1, ?_⟩
        intro k l0 hk n hn row hrow
        rw [e]
        rcases get_lineage_memo store fuel c t l c1 h0 with h1 | ⟨ps, hp, hlp, h1⟩
        · rw [h1] at hk
          exact n2 _ _ (hc.2 k l0 hk n hn row hrow)
        · rw [h1] at hk
          by_cases hkt : k = t
          · subst hkt
            simp only [map_set, if_true, Option.some.injEq] at hk
            rw [← hk, hlp] at hn
            exact n3 ps hp n hn row hrow
          · simp only [map_set, hkt, if_false] at hk
            exact n2 _ _ (hc.2 k l0 hk n hn row hrow)
  · simp [ht] at h; rw [← h.2]; exact hc

theorem names_from_empty (store : TaxStore K) : names_from store (taxonomy_cache.empty K) := by
  constructor
  · intro k s h
    simp [taxonomy_cache.empty] at h
  · intro k l h
    simp [taxonomy_cache.empty] at h

theorem push_semicolon (s : String) : s.push ';' = s ++ ";" := by
  apply String.ext
  simp

/-- The loop of `print_lineage` past its first iteration, on nodes with memoized names, appends
the names with a `;` before each. -/
theorem print_names_go (t_str : taxid_t → Option String) (l : List taxid_t)
    (names : List String) (h : l.map t_str = names.map some) (acc : String) :
    print_names t_str l false acc = some (String.intercalate.go acc ";" names) := by
  induction l generalizing names acc with
  | nil =>
    cases names with
    | nil => simp [print_names, String.intercalate.go]
    | cons a as => simp at h
  | cons x rest ih =>
    cases names with
    | nil => simp at h
    | cons a as =>
      simp only [List.map_cons, List.cons.injEq] at h
      rw [print_names, h.1]
      simp only [Bool.false_eq_true, if_false, push_semicolon]
      rw [ih as h.2]
      rfl

/-- The loop of `print_lineage` on nodes with memoized names joins the names with `;`. -/
theorem print_names_eq (t_str : taxid_t → Option String) (l : List taxid_t)
    (names : List String) (h : l.map t_str = names.map some) :
    print_names t_str l true "" = some (String.intercalate ";" names) := by
  cases l with
  | nil =>
    cases names with
    | nil => simp [print_names, String.intercalate]
    | cons a as => simp at h
  | cons x rest =>
    cases names with
    | nil => simp at h
    | cons a as =>
      simp only [List.map_cons, List.cons.injEq] at h
      rw [print_names, h.1]
      simp only [if_true, String.empty_append]
      rw [print_names_go t_str rest as h.2]
      rfl

/-! ### Scenario A on a store without rows -/

theorem scenarioA_count :
    (count_hits Real.exp scenarioA_pstore (taxonomy_cache.empty ℝ) (1 / 10)
      scenarioA_record.blast_hits peptide_cache.empty).2
      = [(42, 0 + score_weight Real.exp 1 + score_weight Real.exp 1)] := by
  have h1 := score_weight_real_one_ge
  have h2 : (1 : ℝ) / 10 ≤ score_weight Real.exp 1 := by linarith
  have t1 : taxids_of scenarioA_pstore peptide_cache.empty "s1" = [42] := rfl
  have t2 : taxids_of scenarioA_pstore peptide_cache.empty "s2" = [42] := rfl
  rw [count_hits_snd, votes_of, scenarioA_max]
  norm_num [scenarioA_record, hit_votes, hit_weight, h2, t1, t2, taxonomy_cache.get_weight,
    taxonomy_cache.empty, add_votes, map_add]

/-- The branch `taxid_count.size() == 1` returns the one voted taxon and leaves the taxonomy
cache as it finds it. -/
theorem get_best_LPI_one_cache (exp : K → K) (pstore : PepStore) (tstore : TaxStore K)
    (fuel : Nat) (br : blast_record K) (pep_c : peptide_cache) (tax_c : taxonomy_cache K)
    (mn : K) (e : taxid_t × K)
    (h : (count_hits exp pstore tax_c mn br.blast_hits pep_c).2 = [e]) :
    ∃ pc, br.get_best_LPI exp pstore tstore fuel pep_c tax_c mn = some (⟨1, e.1⟩, pc, tax_c) := by
  simp [blast_record.get_best_LPI, h]

/-! ### The peptide memo -/

/-- A memoized taxon list stays memoized, unchanged, through a call of `get_peptide_taxids`. -/
theorem get_peptide_taxids_keeps (store : PepStore) (c : peptide_cache) (s0 s : String)
    (l : List taxid_t) (h : c.p s = some l) : (c.get_peptide_taxids store s0).2.p s = some l := by
  unfold peptide_cache.get_peptide_taxids
  by_cases hs : s0.length > 0
  · simp only [hs, if_true]
    cases hc : c.p s0 with
    | some l0 => exact h
    | none =>
      cases store s0 with
      | bind_error => exact h
      | rows l1 =>
        have hne : s ≠ s0 := by
          intro e; subst e; rw [hc] at h; cases h
        simp only [map_set, hne, if_false]
        exact h
  · simp only [hs, if_false]
    exact h

/-- A memoized taxon list stays memoized, unchanged, through any sequence of calls. -/
theorem pep_calls_keeps (calls : List (PepStore × String)) (c : peptide_cache) (s : String)
    (l : List taxid_t) (h : c.p s = some l) : (pep_calls calls c).p s = some l := by
  induction calls generalizing c with
  | nil => exact h
  | cons a rest ih =>
    rw [pep_calls]
    exact ih _ (get_peptide_taxids_keeps a.1 c a.2 s l h)

/-- A call of `get_peptide_taxids` for a memoized id returns the memoized list and leaves the
cache as it is, whatever the store. -/
theorem get_peptide_taxids_hit (store : PepStore) (c : peptide_cache) (s : String)
    (l : List taxid_t) (hs : s.length > 0) (h : c.p s = some l) :
    c.get_peptide_taxids store s = (l, c) := by
  unfold peptide_cache.get_peptide_taxids
  simp [hs, h]

/-! ### Discarded hits -/

theorem max_fold_ge_init (l : List (blast_hit K)) (m0 : K) :
    m0 ≤ l.foldl (fun m h => if h.bit_score > m then h.bit_score else m) m0 := by
  induction l generalizing m0 with
  | nil => exact le_refl _
  | cons h rest ih =>
    simp only [List.foldl_cons]
    split_ifs with hgt
    · exact le_trans (le_of_lt hgt) (ih _)
    · exact ih _

theorem max_fold_ge_mem (l : List (blast_hit K)) (m0 : K) (h : blast_hit K) (hh : h ∈ l) :
    h.bit_score ≤ l.foldl (fun m h => if h.bit_score > m then h.bit_score else m) m0 := by
  induction l generalizing m0 with
  | nil => cases hh
  | cons x rest ih =>
    simp only [List.foldl_cons]
    rcases List.mem_cons.1 hh with rfl | hr
    · split_ifs with hgt
      · exact max_fold_ge_init rest _
      · exact le_trans (not_lt.1 hgt) (max_fold_ge_init rest _)
    · exact ih _ hr

theorem max_fold_mem (l : List (blast_hit K)) (m0 : K) :
    l.foldl (fun m h => if h.bit_score > m then h.bit_score else m) m0 = m0 ∨
      ∃ h ∈ l, h.bit_score
        = l.foldl (fun m h => if h.bit_score > m then h.bit_score else m) m0 := by
  induction l generalizing m0 with
  | nil => left; rfl
  | cons x rest ih =>
    simp only [List.foldl_cons]
    split_ifs with hgt
    · rcases ih x.bit_score with h1 | ⟨h, hh, h1⟩
      · right; exact ⟨x, List.mem_cons_self _ _, h1.symm⟩
      · right; exact ⟨h, List.mem_cons_of_mem _ hh, h1⟩
    · rcases ih m0 with h1 | ⟨h, hh, h1⟩
      · left; exact h1
      · right; exact ⟨h, List.mem_cons_of_mem _ hh, h1⟩

/-- The hits that do not pass the threshold cast no vote. -/
theorem flatMap_hit_votes_filter (exp : K → K) (pstore : PepStore) (tax_c : taxonomy_cache K)
    (mn bh_max : K) (pep_c : peptide_cache) (hits : List (blast_hit K)) :
    hits.flatMap (hit_votes exp pstore tax_c mn bh_max pep_c)
      = (hits.filter (fun h =>
          match hit_weight exp h.bit_score bh_max with
          | none => false
          | some sw => decide (sw ≥ mn))).flatMap (hit_votes exp pstore tax_c mn bh_max pep_c) := by
  induction hits with
  | nil => rfl
  | cons h rest ih =>
    rw [List.flatMap_cons, List.filter_cons]
    cases hw : hit_weight exp h.bit_score bh_max with
    | none =>
      simp only [Bool.false_eq_true, if_false]
      rw [← ih]
      simp [hit_votes, hw]
    | some sw =>
      by_cases hsw : sw ≥ mn
      · simp only [hsw, decide_True, if_true, List.flatMap_cons]
        rw [ih]
      · simp only [hsw, decide_False, Bool.false_eq_true, if_false]
        rw [← ih]
        simp [hit_votes, hw, hsw]

/-- When some hit passes the threshold, so does a top-scoring hit, and the largest bit score of
the hits that pass is the largest bit score of all hits. -/
theorem bh_max_kept_hits (mn : ℝ) (hits : List (blast_hit ℝ))
    (hpos : ∀ b ∈ hits, 0 < b.bit_score) (hne : kept_hits Real.exp mn hits ≠ []) :
    bh_max_bitscore (kept_hits Real.exp mn hits) = bh_max_bitscore hits := by
  obtain ⟨h0, hk0⟩ := List.exists_mem_of_ne_nil _ hne
  have hk0m : h0 ∈ hits := (List.mem_filter.1 hk0).1
  have hMpos : 0 < bh_max_bitscore hits :=
    lt_of_lt_of_le (hpos h0 hk0m) (max_fold_ge_mem hits 0 h0 hk0m)
  have hM0 : bh_max_bitscore hits ≠ 0 := ne_of_gt hMpos
  apply le_antisymm
  · rcases max_fold_mem (kept_hits Real.exp mn hits) 0 with h1 | ⟨h, hh, h1⟩
    · unfold bh_max_bitscore at hMpos ⊢
      rw [h1]; exact le_of_lt hMpos
    · unfold bh_max_bitscore
      rw [← h1]
      exact max_fold_ge_mem hits 0 h (List.mem_filter.1 hh).1
  · rcases max_fold_mem hits 0 with h1 | ⟨h, hh, h1⟩
    · exact absurd h1 hM0
    · have hkept : h ∈ kept_hits Real.exp mn hits := by
        refine List.mem_filter.2 ⟨hh, ?_⟩
        have e0 := (List.mem_filter.1 hk0).2
        simp only [hit_weight, hM0, if_false] at e0 ⊢
        simp only [decide_eq_true_eq] at e0 ⊢
        refine le_trans e0 (score_weight_real_strictMono.monotone ?_)
        apply div_le_div_of_nonneg_right _ (le_of_lt hMpos)
        rw [h1]
        exact max_fold_ge_mem hits 0 h0 hk0m
      have := max_fold_ge_mem (kept_hits Real.exp mn hits) 0 h hkept
      unfold bh_max_bitscore
      rw [← h1]
      exact this

/-- The votes cast by all hits are the votes cast by the hits that pass the threshold. -/
theorem votes_of_kept_hits (pstore : PepStore) (tax_c : taxonomy_cache ℝ) (mn : ℝ)
    (hits : List (blast_hit ℝ)) (pep_c : peptide_cache)
    (hpos : ∀ b ∈ hits, 0 < b.bit_score) :
    votes_of Real.exp pstore tax_c mn (kept_hits Real.exp mn hits) pep_c
      = votes_of Real.exp pstore tax_c mn hits pep_c := by
  have h1 : hits.flatMap (hit_votes Real.exp pstore tax_c mn (bh_max_bitscore hits) pep_c)
      = (kept_hits Real.exp mn hits).flatMap
          (hit_votes Real.exp pstore tax_c mn (bh_max_bitscore hits) pep_c) :=
    flatMap_hit_votes_filter Real.exp pstore tax_c mn (bh_max_bitscore hits) pep_c hits
  by_cases hne : kept_hits Real.exp mn hits = []
  · unfold votes_of
    rw [h1, hne]
    rfl
  · unfold votes_of
    rw [bh_max_kept_hits mn hits hpos hne, h1]

/-! ### The caches that `get_best_LPI` leaves -/

theorem run_calls_append (l1 l2 : List (cache_call K)) (c : taxonomy_cache K) :
    run_calls (l1 ++ l2) c = (run_calls l1 c).bind (run_calls l2) := by
  induction l1 generalizing c with
  | nil => rfl
  | cons a rest ih =>
    simp only [List.cons_append, run_calls]
    cases run_call c a with
    | none => rfl
    | some c1 => exact ih c1

/-- The first pass of `get_best_LPI` leaves the cache that the calls `get_lineage(it1->first)`
leave. -/
theorem tally_all_calls (store : TaxStore K) (fuel : Nat) (entries : List (taxid_t × K))
    (c : taxonomy_cache K) (s : (Nat → K) × (taxid_t → K)) (c1 : taxonomy_cache K)
    (s1 : (Nat → K) × (taxid_t → K)) (h : tally_all store fuel entries c s = some (c1, s1)) :
    run_calls (entries.map (fun e => cache_call.get_lineage store fuel e.1)) c = some c1 := by
  induction entries generalizing c s with
  | nil =>
    simp only [tally_all, Option.some.injEq, Prod.mk.injEq] at h
    simp [run_calls, h.1]
  | cons e rest ih =>
    simp only [tally_all] at h
    simp only [List.map_cons, run_calls, run_call]
    cases hg : c.get_lineage store fuel e.1 with
    | none => simp [hg] at h
    | some r =>
      obtain ⟨tl, c2⟩ := r
      simp only [hg] at h
      by_cases hnil : tl = []
      · simp [hnil] at h
      · simp only [hnil, if_false] at h
        simp only [Option.map_some']
        exact ih c2 _ h

/-- The second pass of `get_best_LPI` leaves the cache that the calls `get_lineage(it1->first)`
leave. -/
theorem select_all_calls (store : TaxStore K) (fuel : Nat) (lc : Nat → K) (tc : taxid_t → K)
    (entries : List (taxid_t × K)) (c : taxonomy_cache K) (r0 : LPI K) (c1 : taxonomy_cache K)
    (r1 : LPI K) (h : select_all store fuel lc tc entries c r0 = some (c1, r1)) :
    run_calls (entries.map (fun e => cache_call.get_lineage store fuel e.1)) c = some c1 := by
  induction entries generalizing c r0 with
  | nil =>
    simp only [select_all, Option.some.injEq, Prod.mk.injEq] at h
    simp [run_calls, h.1]
  | cons e rest ih =>
    simp only [select_all] at h
    simp only [List.map_cons, run_calls, run_call]
    cases hg : c.get_lineage store fuel e.1 with
    | none => simp [hg] at h
    | some r =>
      obtain ⟨tl, c2⟩ := r
      simp only [hg] at h
      by_cases hnil : tl = []
      · simp [hnil] at h
      · simp only [hnil, if_false] at h
        simp only [Option.map_some']
        exact ih c2 _ h

/-- The caches that a call of `get_best_LPI` leaves: the peptide cache of the vote accumulation
loop, and the taxonomy cache as it was (fewer than two voted taxa) or as the calls of
`get_lineage` of the two passes leave it. -/
theorem get_best_LPI_caches (exp : K → K) (pstore : PepStore) (tstore : TaxStore K)
    (fuel : Nat) (br : blast_record K) (pep_c : peptide_cache) (tax_c : taxonomy_cache K)
    (mn : K) (r : LPI K) (pc : peptide_cache) (tc : taxonomy_cache K)
    (h : br.get_best_LPI exp pstore tstore fuel pep_c tax_c mn = some (r, pc, tc)) :
    pc = (count_hits exp pstore tax_c mn br.blast_hits pep_c).1 ∧
      (((count_hits exp pstore tax_c mn br.blast_hits pep_c).2.length < 2 ∧ tc = tax_c) ∨
        run_calls (((count_hits exp pstore tax_c mn br.blast_hits pep_c).2 ++
            (count_hits exp pstore tax_c mn br.blast_hits pep_c).2).map
          (fun e => cache_call.get_lineage tstore fuel e.1)) tax_c = some tc) := by
  unfold blast_record.get_best_LPI at h
  generalize (count_hits exp pstore tax_c mn br.blast_hits pep_c) = st at h
  obtain ⟨pc0, entries⟩ := st
  match entries, h with
  | [], h =>
    simp only [Option.some.injEq, Prod.mk.injEq] at h
    exact ⟨h.2.1.symm, Or.inl ⟨by simp, h.2.2.symm⟩⟩
  | [e], h =>
    simp only [Option.some.injEq, Prod.mk.injEq] at h
    exact ⟨h.2.1.symm, Or.inl ⟨by simp, h.2.2.symm⟩⟩
  | e0 :: e1 :: rest, h =>
    simp only at h
    cases ht : tally_all tstore fuel (e0 :: e1 :: rest) tax_c (fun _ => 0, fun _ => 0) with
    | none => simp [ht] at h
    | some r1 =>
      obtain ⟨c1, counts⟩ := r1
      simp only [ht] at h
      cases hsel : select_all tstore fuel counts.1 counts.2 (e0 :: e1 :: rest) c1 ⟨0, -1⟩ with
      | none => simp [hsel] at h
      | some r2 =>
        obtain ⟨c2, retval⟩ := r2
        simp only [hsel, Option.some.injEq, Prod.mk.injEq] at h
        refine ⟨h.2.1.symm, Or.inr ?_⟩
        rw [List.map_append, run_calls_append, tally_all_calls tstore fuel _ tax_c _ c1 counts ht]
        simp only [Option.some_bind]
        rw [select_all_calls tstore fuel _ _ _ c1 _ c2 retval hsel, h.2.2]

/-! ### Scenario D on a store with a weight of 0.5, on cold and on warm caches -/

theorem half_lin5 : lin (half_tstore : TaxStore ℝ) 3 (taxonomy_cache.empty ℝ) 5 = [5, 1] := by
  simp [lin, lineage_of_eq, taxonomy_cache.empty, parents, half_tstore]

theorem half_lin6 : lin (half_tstore : TaxStore ℝ) 3 (taxonomy_cache.empty ℝ) 6 = [6, 1] := by
  simp [lin, lineage_of_eq, taxonomy_cache.empty, parents, half_tstore]

theorem half_cache_lin5 : lin (half_tstore : TaxStore ℝ) 3 half_cache 5 = [5, 1] := by
  simp [lin, lineage_of_eq, half_cache, map_set]

theorem half_cache_lin6 : lin (half_tstore : TaxStore ℝ) 3 half_cache 6 = [6, 1] := by
  simp [lin, lineage_of_eq, half_cache, map_set]

theorem half_cache_reached :
    run_calls ([(5, score_weight Real.exp 1), (6, score_weight Real.exp 1),
        (5, score_weight Real.exp 1), (6, score_weight Real.exp 1)].map
        (fun e => cache_call.get_lineage (half_tstore : TaxStore ℝ) 3 e.1))
      (taxonomy_cache.empty ℝ) = some half_cache := by
  have s1 : (taxonomy_cache.empty ℝ).get_lineage half_tstore 3 5
      = some ([5, 1], ⟨map_set (fun _ => none) 5 [5, 1],
          map_set (map_set (fun _ => none) 5 "child5") 1 "root",
          map_set (map_set (fun _ => none) 5 1) 1 1⟩) := by
    norm_num [taxonomy_cache.get_lineage, taxonomy_cache.empty, lineage_loop, half_tstore,
      map_set]
  have s2 : (⟨map_set (fun _ => none) 5 [5, 1],
        map_set (map_set (fun _ => none) 5 "child5") 1 "root",
        map_set (map_set (fun _ => none) 5 1) 1 1⟩ : taxonomy_cache ℝ).get_lineage
        half_tstore 3 6 = some ([6, 1], half_cache) := by
    simp [taxonomy_cache.get_lineage, lineage_loop, half_tstore, map_set, half_cache]
    norm_num
  have s3 : (half_cache : taxonomy_cache ℝ).get_lineage half_tstore 3 5
      = some ([5, 1], half_cache) :=
    get_lineage_hit _ _ _ _ _ (by decide) (by simp [half_cache, map_set])
  have s4 : (half_cache : taxonomy_cache ℝ).get_lineage half_tstore 3 6
      = some ([6, 1], half_cache) :=
    get_lineage_hit _ _ _ _ _ (by decide) (by simp [half_cache, map_set])
  simp only [List.map_cons, List.map_nil, run_calls, run_call, s1, s2, s3, s4, Option.map_some']

theorem half_cold_best :
    best_of (lin (half_tstore : TaxStore ℝ) 3 (taxonomy_cache.empty ℝ))
      [(5, score_weight Real.exp 1), (6, score_weight Real.exp 1)] = ⟨5 / 6, 5⟩ := by
  have hw := score_weight_real_pos 1
  generalize score_weight Real.exp 1 = w at hw
  have hw0 : w ≠ 0 := ne_of_gt hw
  have hV : (w + w) / (w + w) + w / ((w + w) * 2) = 5 / 4 := by
    field_simp; ring
  simp only [best_of, select_of, counts_of, List.foldl_cons, List.foldl_nil, half_lin5,
    half_lin6, lpi_of, lpi_sums, tally, map_acc, List.reverse_cons, List.reverse_nil,
    List.nil_append, List.cons_append]
  norm_num [hV]

theorem half_warm_best :
    best_of (lin (half_tstore : TaxStore ℝ) 3 half_cache)
      [(5, score_weight Real.exp 1), (6, score_weight Real.exp 1 * (1 / 2))] = ⟨8 / 9, 5⟩ := by
  have hw := score_weight_real_pos 1
  generalize score_weight Real.exp 1 = w at hw
  have hw0 : w ≠ 0 := ne_of_gt hw
  have hV5 : (w + w * (1 / 2)) / (w + w * (1 / 2)) + w / ((w + w * (1 / 2)) * 2) = 4 / 3 := by
    field_simp; ring
  have hV6 : (w + w * (1 / 2)) / (w + w * (1 / 2)) + w * (1 / 2) / ((w + w * (1 / 2)) * 2)
      = 7 / 6 := by
    field_simp; ring
  simp only [best_of, select_of, counts_of, List.foldl_cons, List.foldl_nil, half_cache_lin5,
    half_cache_lin6, lpi_of, lpi_sums, tally, map_acc, List.reverse_cons, List.reverse_nil,
    List.nil_append, List.cons_append]
  norm_num [hV5, hV6]

/-! ## The properties C1 to C20 -/

/-! ### C1 -/

/-- C1. Over exact arithmetic, for every query group, threshold and cache state (its memoized
lineages being chains without repeated node) in which at least two distinct taxon ids received a
vote, all votes are positive and every voted taxon has a non-empty lineage: `get_best_LPI` returns
as score the maximum over the voted taxa `t` of `LPI(t)`, the depth-weighted quotient of
`nodeTotal` by `levelTotal` of the spec, and the returned taxon id is a voted taxon whose `LPI`
equals that maximum. -/
theorem get_best_LPI_max_LPI (exp : K → K) (pstore : PepStore) (tstore : TaxStore K)
    (fuel : Nat) (br : blast_record K) (pep_c : peptide_cache) (tax_c : taxonomy_cache K)
    (min_score_weight : K)
    (h2 : 2 ≤ (count_hits exp pstore tax_c min_score_weight br.blast_hits pep_c).2.length)
    (hpos : ∀ e ∈ (count_hits exp pstore tax_c min_score_weight br.blast_hits pep_c).2, 0 < e.2)
    (hlin : ∀ e ∈ (count_hits exp pstore tax_c min_score_weight br.blast_hits pep_c).2,
      has_lineage tstore fuel tax_c e.1)
    (hmemo : ∀ k l, tax_c.t k = some l → l.Nodup) :
    ∃ score t,
      result_of (br.get_best_LPI exp pstore tstore fuel pep_c tax_c min_score_weight)
        = some (score, t) ∧
      t ∈ (count_hits exp pstore tax_c min_score_weight br.blast_hits pep_c).2.map Prod.fst ∧
      LPI_spec (lin tstore fuel tax_c)
        (count_hits exp pstore tax_c min_score_weight br.blast_hits pep_c).2 t = score ∧
      ∀ e ∈ (count_hits exp pstore tax_c min_score_weight br.blast_hits pep_c).2,
        LPI_spec (lin tstore fuel tax_c)
          (count_hits exp pstore tax_c min_score_weight br.blast_hits pep_c).2 e.1 ≤ score := by
  obtain ⟨pc, tc, hres⟩ := get_best_LPI_multi exp pstore tstore fuel br pep_c tax_c
    min_score_weight h2 hlin
  generalize (count_hits exp pstore tax_c min_score_weight br.blast_hits pep_c).2 = votes
    at h2 hpos hlin hres ⊢
  have hne : ∀ e ∈ votes, lin tstore fuel tax_c e.1 ≠ [] :=
    fun e he => (has_lineage_lin tstore fuel tax_c e.1 (hlin e he)).2
  have hnd : ∀ e ∈ votes, (lin tstore fuel tax_c e.1).Nodup :=
    fun e _ => lin_nodup tstore fuel tax_c hmemo e.1
  have hf : (fun x => lpi_of (counts_of (lin tstore fuel tax_c) votes).1
      (counts_of (lin tstore fuel tax_c) votes).2 (lin tstore fuel tax_c x))
      = LPI_spec (lin tstore fuel tax_c) votes :=
    funext (lpi_of_eq_spec (lin tstore fuel tax_c) votes hnd)
  have hb : best_of (lin tstore fuel tax_c) votes
      = votes.foldl (select_step (LPI_spec (lin tstore fuel tax_c) votes)) ⟨0, -1⟩ := by
    rw [best_of, select_of_eq_fold, hf]
  have hge := select_fold_ge (LPI_spec (lin tstore fuel tax_c) votes) votes ⟨0, -1⟩
  rcases select_fold_first (LPI_spec (lin tstore fuel tax_c) votes) votes ⟨0, -1⟩ with
    h0 | ⟨pre, e, post, h3, h4, _, _, _⟩
  · exfalso
    obtain ⟨e, he⟩ := List.exists_mem_of_length_pos (by omega : 0 < votes.length)
    have h5 := hge.2 e he
    rw [h0] at h5
    have h6 := LPI_spec_pos (lin tstore fuel tax_c) votes hpos e he (hne e he)
    exact absurd (lt_of_lt_of_le h6 h5) (lt_irrefl _)
  · refine ⟨LPI_spec (lin tstore fuel tax_c) votes e.1, e.1, ?_, ?_, rfl, ?_⟩
    · rw [hres, hb, h4]; rfl
    · rw [h3]; simp
    · intro e1 he1
      have := hge.2 e1 he1
      rwa [h4] at this

/-- Scenario D satisfies the hypotheses of the LPI formula: two voted taxa with positive votes and
the lineages `[5, 1]` and `[6, 1]`. -/
theorem get_best_LPI_max_LPI_witness :
    ∃ score t,
      result_of (scenarioD_record.get_best_LPI Real.exp scenarioD_pstore scenarioD_tstore 3
        peptide_cache.empty (taxonomy_cache.empty ℝ) (1 / 10)) = some (score, t) ∧
      t ∈ (count_hits Real.exp scenarioD_pstore (taxonomy_cache.empty ℝ) (1 / 10)
        scenarioD_record.blast_hits peptide_cache.empty).2.map Prod.fst ∧
      LPI_spec (lin scenarioD_tstore 3 (taxonomy_cache.empty ℝ))
        (count_hits Real.exp scenarioD_pstore (taxonomy_cache.empty ℝ) (1 / 10)
          scenarioD_record.blast_hits peptide_cache.empty).2 t = score ∧
      ∀ e ∈ (count_hits Real.exp scenarioD_pstore (taxonomy_cache.empty ℝ) (1 / 10)
          scenarioD_record.blast_hits peptide_cache.empty).2,
        LPI_spec (lin scenarioD_tstore 3 (taxonomy_cache.empty ℝ))
          (count_hits Real.exp scenarioD_pstore (taxonomy_cache.empty ℝ) (1 / 10)
            scenarioD_record.blast_hits peptide_cache.empty).2 e.1 ≤ score :=
  get_best_LPI_max_LPI Real.exp scenarioD_pstore scenarioD_tstore 3 scenarioD_record
    peptide_cache.empty (taxonomy_cache.empty ℝ) (1 / 10)
    (by rw [scenarioD_count]; simp)
    (by
      rw [scenarioD_count]
      intro e he
      simp only [List.mem_cons, List.mem_singleton, List.not_mem_nil, or_false] at he
      rcases he with rfl | rfl <;> exact score_weight_real_pos 1)
    scenarioD_defined
    (by intro k l h; simp [taxonomy_cache.empty] at h)

/-! ### C2 -/

/-- C2. If at least one hit survives the threshold and maps to a taxon id, and every taxon id
returned for every surviving hit is the same id `t`, then `get_best_LPI` returns score `1.0` and
taxon id `t`, whatever the number of hits, their scores, the weight of `t`, the stores, the cache
state and the bound on the lineage walks. -/
theorem get_best_LPI_single_taxon (exp : K → K) (pstore : PepStore) (tstore : TaxStore K)
    (fuel : Nat) (br : blast_record K) (pep_c : peptide_cache) (tax_c : taxonomy_cache K)
    (min_score_weight : K) (t : taxid_t)
    (h1 : ∃ b ∈ br.blast_hits, survives exp min_score_weight br.blast_hits b ∧
      taxids_of pstore pep_c b.subject_id ≠ [])
    (h2 : ∀ b ∈ br.blast_hits, survives exp min_score_weight br.blast_hits b →
      ∀ x ∈ taxids_of pstore pep_c b.subject_id, x = t) :
    result_of (br.get_best_LPI exp pstore tstore fuel pep_c tax_c min_score_weight)
      = some (1, t) := by
  have hk : ∀ e ∈ votes_of exp pstore tax_c min_score_weight br.blast_hits pep_c, e.1 = t := by
    intro e he
    obtain ⟨b, hb, hs, hx⟩ := (mem_votes_of exp pstore tax_c min_score_weight br.blast_hits
      pep_c e.1).1 (List.mem_map_of_mem Prod.fst he)
    exact h2 b hb hs e.1 hx
  have hne : votes_of exp pstore tax_c min_score_weight br.blast_hits pep_c ≠ [] := by
    obtain ⟨b, hb, hs, hx⟩ := h1
    obtain ⟨x, hx1⟩ := List.exists_mem_of_ne_nil _ hx
    have := (mem_votes_of exp pstore tax_c min_score_weight br.blast_hits pep_c x).2
      ⟨b, hb, hs, hx1⟩
    intro h0
    rw [h0] at this
    cases this
  have hc := count_hits_snd exp pstore tax_c min_score_weight br.blast_hits pep_c
  cases hvs : votes_of exp pstore tax_c min_score_weight br.blast_hits pep_c with
  | nil => exact absurd hvs hne
  | cons e rest =>
    rw [hvs] at hc hk
    obtain ⟨v1, hv1⟩ := add_votes_single t rest
      (fun e1 h1 => hk e1 (List.mem_cons_of_mem _ h1)) (0 + e.2)
    have he : e.1 = t := hk e (List.mem_cons_self _ _)
    have : (count_hits exp pstore tax_c min_score_weight br.blast_hits pep_c).2 = [(t, v1)] := by
      rw [hc, ← hv1]
      simp [add_votes, map_add, he]
    simp [blast_record.get_best_LPI, this, result_of]

/-- Scenario A: the hits `[(s1,100),(s2,100)]`, both mapping to taxon 42, give `(1.0, 42)`. -/
theorem get_best_LPI_single_taxon_witness :
    result_of (scenarioA_record.get_best_LPI Real.exp scenarioA_pstore empty_tstore 0
      peptide_cache.empty (taxonomy_cache.empty ℝ) (1 / 10)) = some (1, 42) :=
  get_best_LPI_single_taxon Real.exp scenarioA_pstore empty_tstore 0 scenarioA_record
    peptide_cache.empty (taxonomy_cache.empty ℝ) (1 / 10) 42
    ⟨⟨"s1", 100⟩, by simp [scenarioA_record],
      scenarioA_survives _ (by simp [scenarioA_record]),
      by rw [scenarioA_taxids _ (by simp [scenarioA_record])]; simp⟩
    (fun b hb _ x hx => by rw [scenarioA_taxids b hb] at hx; simpa using hx)

/-! ### C3 -/

/-- C3, amended. If exactly one reached taxon id `a` has a nonzero accumulated vote (the others
have a vote of exactly 0) and every reached taxon has a non-empty lineage (the memoized lineages
being chains without repeated node), then `get_best_LPI` returns score exactly `1.0`; the returned
taxon is a reached taxon whose id is at most `a`: it is `a` itself when only `a` was reached, and
otherwise the smallest reached id whose LPI is 1. -/
theorem get_best_LPI_one_nonzero_vote (exp : K → K) (pstore : PepStore) (tstore : TaxStore K)
    (fuel : Nat) (br : blast_record K) (pep_c : peptide_cache) (tax_c : taxonomy_cache K)
    (min_score_weight : K) (a : taxid_t) (v : K)
    (ha : (a, v) ∈ (count_hits exp pstore tax_c min_score_weight br.blast_hits pep_c).2)
    (hv : v ≠ 0)
    (h0 : ∀ e ∈ (count_hits exp pstore tax_c min_score_weight br.blast_hits pep_c).2,
      e.1 ≠ a → e.2 = 0)
    (hd : ∀ e ∈ (count_hits exp pstore tax_c min_score_weight br.blast_hits pep_c).2,
      has_lineage tstore fuel tax_c e.1)
    (hmemo : ∀ k l, tax_c.t k = some l → l.Nodup) :
    ∃ t,
      result_of (br.get_best_LPI exp pstore tstore fuel pep_c tax_c min_score_weight)
        = some (1, t) ∧
      t ≤ a ∧
      t ∈ (count_hits exp pstore tax_c min_score_weight br.blast_hits pep_c).2.map Prod.fst ∧
      ((count_hits exp pstore tax_c min_score_weight br.blast_hits pep_c).2.length = 1 →
        t = a) ∧
      (2 ≤ (count_hits exp pstore tax_c min_score_weight br.blast_hits pep_c).2.length →
        candidate_lpi (lin tstore fuel tax_c)
          (count_hits exp pstore tax_c min_score_weight br.blast_hits pep_c).2 t = 1 ∧
        ∀ e ∈ (count_hits exp pstore tax_c min_score_weight br.blast_hits pep_c).2,
          candidate_lpi (lin tstore fuel tax_c)
            (count_hits exp pstore tax_c min_score_weight br.blast_hits pep_c).2 e.1 = 1 →
          t ≤ e.1) := by
  have hsorted := count_hits_sorted exp pstore tax_c min_score_weight br.blast_hits pep_c
  have hnd := lin_nodup tstore fuel tax_c hmemo a
  have hne := (has_lineage_lin tstore fuel tax_c a (hd (a, v) ha)).2
  by_cases h2 : 2 ≤ (count_hits exp pstore tax_c min_score_weight br.blast_hits pep_c).2.length
  · obtain ⟨pc, tc, hres⟩ := get_best_LPI_multi exp pstore tstore fuel br pep_c tax_c
      min_score_weight h2 hd
    have hkeys : ((count_hits exp pstore tax_c min_score_weight br.blast_hits pep_c).2.map
        Prod.fst).Nodup := hsorted.nodup
    have hself := one_vote_lpi_self (lin tstore fuel tax_c) _ hkeys a v ha hv h0 hne hnd
    have hle := one_vote_lpi_le (lin tstore fuel tax_c) _ hkeys a v ha hv h0 hnd
    obtain ⟨h3, h4⟩ := best_of_cases (lin tstore fuel tax_c) _ hsorted
    have h5 := h3 _ ha
    rw [hself] at h5
    rcases h4 with h4 | ⟨h6, h7, _, h9⟩
    · rw [h4] at h5
      exact absurd h5 (by norm_num)
    · have h10 := hle (best_of (lin tstore fuel tax_c)
        (count_hits exp pstore tax_c min_score_weight br.blast_hits pep_c).2).tax_id
      rw [h7] at h10
      have hscore : (best_of (lin tstore fuel tax_c)
          (count_hits exp pstore tax_c min_score_weight br.blast_hits pep_c).2).score = 1 :=
        le_antisymm h10 h5
      refine ⟨_, ?_, ?_, h6, ?_, ?_⟩
      · rw [hres, ← hscore]; rfl
      · exact h9 _ ha (by rw [hself, hscore])
      · intro h1; omega
      · intro _
        refine ⟨by rw [h7, hscore], ?_⟩
        intro e he heq
        exact h9 e he (by rw [heq, hscore])
  · have hlen : (count_hits exp pstore tax_c min_score_weight br.blast_hits pep_c).2
        = [(a, v)] := by
      rcases hc : (count_hits exp pstore tax_c min_score_weight br.blast_hits pep_c).2 with
        _ | ⟨e0, _ | ⟨e1, rest⟩⟩
      · rw [hc] at ha; cases ha
      · rw [hc] at ha
        simp only [List.mem_singleton] at ha
        rw [ha]
      · rw [hc] at h2
        simp at h2
    refine ⟨a, ?_, le_refl _, by rw [hlen]; simp, fun _ => rfl, ?_⟩
    · exact get_best_LPI_one exp pstore tstore fuel br pep_c tax_c min_score_weight (a, v) hlen
    · intro h; exact absurd h h2

/-- The zero-root scenario satisfies the hypotheses of the amended law with `a = 5`. -/
theorem get_best_LPI_one_nonzero_vote_witness :
    ∃ t,
      result_of (zero_root_record.get_best_LPI Real.exp zero_root_pstore zero_root_tstore 3
        peptide_cache.empty zero_root_cache (1 / 10)) = some (1, t) ∧
      t ≤ 5 ∧
      t ∈ (count_hits Real.exp zero_root_pstore zero_root_cache (1 / 10)
        zero_root_record.blast_hits peptide_cache.empty).2.map Prod.fst ∧
      ((count_hits Real.exp zero_root_pstore zero_root_cache (1 / 10)
        zero_root_record.blast_hits peptide_cache.empty).2.length = 1 → t = 5) ∧
      (2 ≤ (count_hits Real.exp zero_root_pstore zero_root_cache (1 / 10)
          zero_root_record.blast_hits peptide_cache.empty).2.length →
        candidate_lpi (lin zero_root_tstore 3 zero_root_cache)
          (count_hits Real.exp zero_root_pstore zero_root_cache (1 / 10)
            zero_root_record.blast_hits peptide_cache.empty).2 t = 1 ∧
        ∀ e ∈ (count_hits Real.exp zero_root_pstore zero_root_cache (1 / 10)
            zero_root_record.blast_hits peptide_cache.empty).2,
          candidate_lpi (lin zero_root_tstore 3 zero_root_cache)
            (count_hits Real.exp zero_root_pstore zero_root_cache (1 / 10)
              zero_root_record.blast_hits peptide_cache.empty).2 e.1 = 1 →
          t ≤ e.1) :=
  get_best_LPI_one_nonzero_vote Real.exp zero_root_pstore zero_root_tstore 3 zero_root_record
    peptide_cache.empty zero_root_cache (1 / 10) 5 (score_weight Real.exp 1)
    (by rw [zero_root_count]; simp) (ne_of_gt (score_weight_real_pos 1))
    (by
      rw [zero_root_count]
      intro e he hne
      simp only [List.mem_cons, List.mem_singleton, List.not_mem_nil, or_false] at he
      rcases he with rfl | rfl
      · rfl
      · exact absurd rfl hne)
    zero_root_defined
    (by
      intro k l h
      simp only [zero_root_cache, map_set] at h
      split_ifs at h
      simp only [Option.some.injEq] at h
      rw [← h]
      simp)

/-- C3 fails on the code.  With the cache left by `get_lineage(5)`, a hit on taxon 5 and a hit on
its zero-weight root 1 give taxon 5 the only nonzero vote (the root is reached with a vote of
exactly 0), yet `get_best_LPI` returns `(1.0, 1)`: the root also has LPI 1 and is visited
first. -/
theorem single_nonzero_vote_fails :
    (taxonomy_cache.empty ℝ).get_lineage zero_root_tstore 3 5 = some ([5, 1], zero_root_cache) ∧
      (count_hits Real.exp zero_root_pstore zero_root_cache (1 / 10)
        zero_root_record.blast_hits peptide_cache.empty).2
        = [(1, 0), (5, score_weight Real.exp 1)] ∧
      score_weight Real.exp 1 ≠ 0 ∧
      result_of (zero_root_record.get_best_LPI Real.exp zero_root_pstore zero_root_tstore 3
        peptide_cache.empty zero_root_cache (1 / 10)) = some (1, 1) := by
  refine ⟨zero_root_cache_reached, zero_root_count, ne_of_gt (score_weight_real_pos 1), ?_⟩
  obtain ⟨pc, tc, h⟩ := get_best_LPI_multi Real.exp zero_root_pstore zero_root_tstore 3
    zero_root_record peptide_cache.empty zero_root_cache (1 / 10)
    (by rw [zero_root_count]; simp) zero_root_defined
  rw [h, zero_root_count, zero_root_best]
  rfl

/-! ### C4 -/

/-- C4. `get_best_LPI` returns the "no classification" result `(0.0, -1)`, for every bound on the
lineage walks, every store and every cache state, whenever the hit list is empty, or no hit
survives the threshold, or no surviving hit maps to a taxon id. -/
theorem get_best_LPI_no_candidate (exp : K → K) (pstore : PepStore) (tstore : TaxStore K)
    (fuel : Nat) (br : blast_record K) (pep_c : peptide_cache) (tax_c : taxonomy_cache K)
    (min_score_weight : K)
    (h : br.blast_hits = [] ∨
      (∀ b ∈ br.blast_hits, ¬ survives exp min_score_weight br.blast_hits b) ∨
      (∀ b ∈ br.blast_hits, survives exp min_score_weight br.blast_hits b →
        taxids_of pstore pep_c b.subject_id = [])) :
    result_of (br.get_best_LPI exp pstore tstore fuel pep_c tax_c min_score_weight)
      = some (0, -1) := by
  have hv : votes_of exp pstore tax_c min_score_weight br.blast_hits pep_c = [] := by
    unfold votes_of
    rw [List.flatMap_eq_nil_iff]
    intro b hb
    by_cases hs : survives exp min_score_weight br.blast_hits b
    · rcases h with h | h | h
      · rw [h] at hb; cases hb
      · exact absurd hs (h b hb)
      · have := hit_votes_keys exp pstore tax_c min_score_weight br.blast_hits pep_c b hs
        rw [h b hb hs] at this
        simpa using this
    · exact hit_votes_of_not_survives exp pstore tax_c min_score_weight br.blast_hits pep_c b hs
  have hc := count_hits_snd exp pstore tax_c min_score_weight br.blast_hits pep_c
  rw [hv] at hc
  simp only [add_votes, List.foldl_nil] at hc
  simp [blast_record.get_best_LPI, hc, result_of]

/-- A group whose hits survive but map to no taxon id gives `(0.0, -1)`. -/
theorem get_best_LPI_no_candidate_witness :
    result_of (scenarioA_record.get_best_LPI Real.exp empty_pstore empty_tstore 0
      peptide_cache.empty (taxonomy_cache.empty ℝ) (1 / 10)) = some (0, -1) :=
  get_best_LPI_no_candidate Real.exp empty_pstore empty_tstore 0 scenarioA_record
    peptide_cache.empty (taxonomy_cache.empty ℝ) (1 / 10)
    (Or.inr (Or.inr (fun b hb _ => by
      simp only [scenarioA_record, List.mem_cons, List.mem_singleton, List.not_mem_nil,
        or_false] at hb
      rcases hb with rfl | rfl <;> rfl)))

/-! ### C5 -/

/-- C5. Over the reals, for every query group with positive hit scores, every threshold, every
acyclic store whose reliability weights lie in `[0,1]` and every cache state memoized from that
store: every score that `get_best_LPI` returns lies in `[0,1]`; and it does return, for every
large enough bound on the lineage walks, when the store raises no bind error and the taxon ids of
the hits are positive (so that every candidate has a non-empty lineage). -/
theorem get_best_LPI_score_in_unit_interval (pstore : PepStore) (tstore : TaxStore ℝ)
    (br : blast_record ℝ) (pep_c : peptide_cache) (tax_c : taxonomy_cache ℝ)
    (min_score_weight : ℝ)
    (_hscore : ∀ b ∈ br.blast_hits, 0 < b.bit_score)
    (hacyclic : store_acyclic tstore)
    (hweight : ∀ k r, tstore k = TaxStep.row r → 0 ≤ r.weight ∧ r.weight ≤ 1)
    (hlin : lineages_from tstore tax_c) (hwt : weights_from tstore tax_c) :
    (∀ fuel score t,
        result_of (br.get_best_LPI Real.exp pstore tstore fuel pep_c tax_c min_score_weight)
          = some (score, t) → 0 ≤ score ∧ score ≤ 1) ∧
      ((∀ k, tstore k ≠ TaxStep.bind_error) →
        (∀ b ∈ br.blast_hits, ∀ x ∈ taxids_of pstore pep_c b.subject_id, 0 < x) →
        ∃ fuel0, ∀ fuel, fuel0 ≤ fuel →
          br.get_best_LPI Real.exp pstore tstore fuel pep_c tax_c min_score_weight ≠ none) := by
  have hnn := votes_real_nonneg pstore tstore tax_c min_score_weight br.blast_hits pep_c
    hweight hwt
  have hsorted := count_hits_sorted Real.exp pstore tax_c min_score_weight br.blast_hits pep_c
  constructor
  · intro fuel score t hres
    by_cases h2 : 2 ≤ (count_hits Real.exp pstore tax_c min_score_weight br.blast_hits
        pep_c).2.length
    · have hne : br.get_best_LPI Real.exp pstore tstore fuel pep_c tax_c min_score_weight
          ≠ none := by
        intro h0; rw [h0] at hres; simp [result_of] at hres
      have hd := get_best_LPI_defined Real.exp pstore tstore fuel br pep_c tax_c
        min_score_weight h2 hne
      obtain ⟨pc, tc, h⟩ := get_best_LPI_multi Real.exp pstore tstore fuel br pep_c tax_c
        min_score_weight h2 hd
      rw [h] at hres
      simp only [result_of, Option.map_some', Option.some.injEq, Prod.mk.injEq] at hres
      obtain ⟨h3, h4⟩ := best_of_cases (lin tstore fuel tax_c) _ hsorted
      rw [← hres.1]
      rcases h4 with h4 | ⟨_, h5, h6, _⟩
      · rw [h4]; norm_num
      · refine ⟨le_of_lt h6, ?_⟩
        rw [← h5]
        exact candidate_lpi_le_one tstore _ _ hnn (lin_is_walk tstore fuel tax_c hlin) _
    · obtain ⟨s, t1, h, hs⟩ := get_best_LPI_small Real.exp pstore tstore fuel br pep_c tax_c
        min_score_weight h2
      rw [h] at hres
      simp only [Option.some.injEq, Prod.mk.injEq] at hres
      rw [← hres.1]
      rcases hs with rfl | rfl <;> norm_num
  · intro hbind hids
    obtain ⟨fuel0, hf0⟩ := acyclic_walks_end tstore hacyclic
      ((count_hits Real.exp pstore tax_c min_score_weight br.blast_hits pep_c).2.map Prod.fst)
    refine ⟨fuel0, fun fuel hfuel => ?_⟩
    have hf : ∀ k ∈ (count_hits Real.exp pstore tax_c min_score_weight br.blast_hits
        pep_c).2.map Prod.fst, parents tstore fuel k ≠ none := by
      intro k hk
      cases hq : parents tstore fuel0 k with
      | none => exact absurd hq (hf0 k hk)
      | some o => rw [parents_mono tstore fuel0 fuel hfuel k o hq]; simp
    by_cases h2 : 2 ≤ (count_hits Real.exp pstore tax_c min_score_weight br.blast_hits
        pep_c).2.length
    · have hd : ∀ e ∈ (count_hits Real.exp pstore tax_c min_score_weight br.blast_hits
          pep_c).2, has_lineage tstore fuel tax_c e.1 := by
        intro e he
        have hk : e.1 ∈ (count_hits Real.exp pstore tax_c min_score_weight br.blast_hits
            pep_c).2.map Prod.fst := List.mem_map_of_mem _ he
        obtain ⟨b, hb, _, hx⟩ := (mem_count_hits_keys Real.exp pstore tax_c min_score_weight
          br.blast_hits pep_c e.1).1 hk
        exact has_lineage_of_pos tstore fuel tax_c e.1 hlin hbind (hids b hb e.1 hx) (hf e.1 hk)
      obtain ⟨pc, tc, h⟩ := get_best_LPI_multi Real.exp pstore tstore fuel br pep_c tax_c
        min_score_weight h2 hd
      rw [h]; simp
    · obtain ⟨s, t, h, _⟩ := get_best_LPI_small Real.exp pstore tstore fuel br pep_c tax_c
        min_score_weight h2
      intro h0
      rw [h0] at h
      simp [result_of] at h

/-- Scenario D satisfies the hypotheses of the bound: its calls return and the score lies in
`[0,1]`. -/
theorem get_best_LPI_score_in_unit_interval_witness :
    (∀ fuel score t,
        result_of (scenarioD_record.get_best_LPI Real.exp scenarioD_pstore scenarioD_tstore fuel
          peptide_cache.empty (taxonomy_cache.empty ℝ) (1 / 10)) = some (score, t) →
        0 ≤ score ∧ score ≤ 1) ∧
      ∃ fuel0, ∀ fuel, fuel0 ≤ fuel →
        scenarioD_record.get_best_LPI Real.exp scenarioD_pstore scenarioD_tstore fuel
          peptide_cache.empty (taxonomy_cache.empty ℝ) (1 / 10) ≠ none :=
  have h := get_best_LPI_score_in_unit_interval scenarioD_pstore scenarioD_tstore
    scenarioD_record peptide_cache.empty (taxonomy_cache.empty ℝ) (1 / 10)
    (by
      intro b hb
      simp only [scenarioD_record, List.mem_cons, List.mem_singleton, List.not_mem_nil,
        or_false] at hb
      rcases hb with rfl | rfl <;> norm_num)
    scenarioD_acyclic scenarioD_weights (lineages_from_empty _) (weights_from_empty _)
  ⟨h.1, h.2
    (by intro k; unfold scenarioD_tstore; split_ifs <;> simp)
    (by
      intro b hb x hx
      simp only [scenarioD_record, List.mem_cons, List.mem_singleton, List.not_mem_nil,
        or_false] at hb
      rcases hb with rfl | rfl
      · have h6 : taxids_of scenarioD_pstore peptide_cache.empty "s2" = [6] := rfl
        rw [h6] at hx
        simp only [List.mem_singleton] at hx
        rw [hx]; decide
      · have h5 : taxids_of scenarioD_pstore peptide_cache.empty "s1" = [5] := rfl
        rw [h5] at hx
        simp only [List.mem_singleton] at hx
        rw [hx]; decide)⟩

/-! ### C6 -/

/-- C6, amended. In the branch with several voted taxa (each with a positive vote and a non-empty
lineage, its walk ending within the bound), the voted taxa are visited in ascending taxon-id
order, not in insertion order; the returned score is the maximum LPI, and the returned taxon is
the voted taxon of smallest id among those that attain the maximum LPI. -/
theorem get_best_LPI_tie_smallest_id (exp : K → K) (pstore : PepStore) (tstore : TaxStore K)
    (fuel : Nat) (br : blast_record K) (pep_c : peptide_cache) (tax_c : taxonomy_cache K)
    (min_score_weight : K)
    (h2 : 2 ≤ (count_hits exp pstore tax_c min_score_weight br.blast_hits pep_c).2.length)
    (hpos : ∀ e ∈ (count_hits exp pstore tax_c min_score_weight br.blast_hits pep_c).2,
      0 < e.2)
    (hd : ∀ e ∈ (count_hits exp pstore tax_c min_score_weight br.blast_hits pep_c).2,
      has_lineage tstore fuel tax_c e.1) :
    ∃ score t,
      result_of (br.get_best_LPI exp pstore tstore fuel pep_c tax_c min_score_weight)
        = some (score, t) ∧
      ((count_hits exp pstore tax_c min_score_weight br.blast_hits pep_c).2.map
        Prod.fst).Sorted (· < ·) ∧
      (∀ e ∈ (count_hits exp pstore tax_c min_score_weight br.blast_hits pep_c).2,
        candidate_lpi (lin tstore fuel tax_c)
          (count_hits exp pstore tax_c min_score_weight br.blast_hits pep_c).2 e.1 ≤ score) ∧
      t ∈ (count_hits exp pstore tax_c min_score_weight br.blast_hits pep_c).2.map Prod.fst ∧
      candidate_lpi (lin tstore fuel tax_c)
        (count_hits exp pstore tax_c min_score_weight br.blast_hits pep_c).2 t = score ∧
      ∀ e ∈ (count_hits exp pstore tax_c min_score_weight br.blast_hits pep_c).2,
        candidate_lpi (lin tstore fuel tax_c)
          (count_hits exp pstore tax_c min_score_weight br.blast_hits pep_c).2 e.1 = score →
        t ≤ e.1 := by
  obtain ⟨pc, tc, hres⟩ := get_best_LPI_multi exp pstore tstore fuel br pep_c tax_c
    min_score_weight h2 hd
  have hs := count_hits_sorted exp pstore tax_c min_score_weight br.blast_hits pep_c
  obtain ⟨h3, h4⟩ := best_of_cases (lin tstore fuel tax_c) _ hs
  refine ⟨_, _, by rw [hres]; rfl, hs, h3, ?_⟩
  rcases h4 with h4 | ⟨h5, h6, _, h7⟩
  · exfalso
    obtain ⟨e, he⟩ := List.exists_mem_of_length_pos
      (by omega : 0 < (count_hits exp pstore tax_c min_score_weight br.blast_hits
        pep_c).2.length)
    have h8 := h3 e he
    rw [h4] at h8
    have h9 := candidate_lpi_pos (lin tstore fuel tax_c) _ hpos e he
      (has_lineage_lin tstore fuel tax_c e.1 (hd e he)).2
    exact absurd (lt_of_lt_of_le h9 h8) (lt_irrefl _)
  · exact ⟨h5, h6, h7⟩

/-- Scenario D with the hit on taxon 6 first: the tie at `5/6` goes to taxon 5. -/
theorem get_best_LPI_tie_smallest_id_witness :
    ∃ score t,
      result_of (scenarioD_record.get_best_LPI Real.exp scenarioD_pstore scenarioD_tstore 3
        peptide_cache.empty (taxonomy_cache.empty ℝ) (1 / 10)) = some (score, t) ∧
      ((count_hits Real.exp scenarioD_pstore (taxonomy_cache.empty ℝ) (1 / 10)
        scenarioD_record.blast_hits peptide_cache.empty).2.map Prod.fst).Sorted (· < ·) ∧
      (∀ e ∈ (count_hits Real.exp scenarioD_pstore (taxonomy_cache.empty ℝ) (1 / 10)
          scenarioD_record.blast_hits peptide_cache.empty).2,
        candidate_lpi (lin scenarioD_tstore 3 (taxonomy_cache.empty ℝ))
          (count_hits Real.exp scenarioD_pstore (taxonomy_cache.empty ℝ) (1 / 10)
            scenarioD_record.blast_hits peptide_cache.empty).2 e.1 ≤ score) ∧
      t ∈ (count_hits Real.exp scenarioD_pstore (taxonomy_cache.empty ℝ) (1 / 10)
        scenarioD_record.blast_hits peptide_cache.empty).2.map Prod.fst ∧
      candidate_lpi (lin scenarioD_tstore 3 (taxonomy_cache.empty ℝ))
        (count_hits Real.exp scenarioD_pstore (taxonomy_cache.empty ℝ) (1 / 10)
          scenarioD_record.blast_hits peptide_cache.empty).2 t = score ∧
      ∀ e ∈ (count_hits Real.exp scenarioD_pstore (taxonomy_cache.empty ℝ) (1 / 10)
          scenarioD_record.blast_hits peptide_cache.empty).2,
        candidate_lpi (lin scenarioD_tstore 3 (taxonomy_cache.empty ℝ))
          (count_hits Real.exp scenarioD_pstore (taxonomy_cache.empty ℝ) (1 / 10)
            scenarioD_record.blast_hits peptide_cache.empty).2 e.1 = score →
        t ≤ e.1 :=
  get_best_LPI_tie_smallest_id Real.exp scenarioD_pstore scenarioD_tstore 3 scenarioD_record
    peptide_cache.empty (taxonomy_cache.empty ℝ) (1 / 10)
    (by rw [scenarioD_count]; simp)
    (by
      rw [scenarioD_count]
      intro e he
      simp only [List.mem_cons, List.mem_singleton, List.not_mem_nil, or_false] at he
      rcases he with rfl | rfl <;> exact score_weight_real_pos 1)
    scenarioD_defined

/-- C6 fails on the code: taxon 6 receives its first vote before taxon 5, both attain the maximum
LPI `5/6`, and `get_best_LPI` returns taxon 5, the smaller id, not the first inserted one. -/
theorem tie_break_not_insertion_order :
    votes_of Real.exp scenarioD_pstore (taxonomy_cache.empty ℝ) (1 / 10)
        scenarioD_record.blast_hits peptide_cache.empty
        = [(6, score_weight Real.exp 1), (5, score_weight Real.exp 1)] ∧
      candidate_lpi (lin scenarioD_tstore 3 (taxonomy_cache.empty ℝ))
        (count_hits Real.exp scenarioD_pstore (taxonomy_cache.empty ℝ) (1 / 10)
          scenarioD_record.blast_hits peptide_cache.empty).2 6 = 5 / 6 ∧
      candidate_lpi (lin scenarioD_tstore 3 (taxonomy_cache.empty ℝ))
        (count_hits Real.exp scenarioD_pstore (taxonomy_cache.empty ℝ) (1 / 10)
          scenarioD_record.blast_hits peptide_cache.empty).2 5 = 5 / 6 ∧
      result_of (scenarioD_record.get_best_LPI Real.exp scenarioD_pstore scenarioD_tstore 3
        peptide_cache.empty (taxonomy_cache.empty ℝ) (1 / 10)) = some (5 / 6, 5) := by
  rw [scenarioD_count]
  exact ⟨scenarioD_votes, scenarioD_lpi 6 (Or.inr rfl), scenarioD_lpi 5 (Or.inl rfl),
    scenarioD_result⟩

/-! ### C7 -/

/-- C7, amended. When the threshold lets the two hits vote (`min_score_weight` at most
`score_weight(1)`), two distinct taxa `a` and `b` with the same parent (lineages `[a, p, ...]` and
`[b, p, ...]` with one tail, memoized from or walked in the store) and positive effective weights,
voted for by two hits of equal positive score, one mapping only to `a` and the other only to `b`,
make `get_best_LPI` return a score strictly between 0 and 1 and the taxon `a` or `b`. -/
theorem get_best_LPI_siblings (pstore : PepStore) (tstore : TaxStore ℝ) (fuel : Nat)
    (pep_c : peptide_cache) (tax_c : taxonomy_cache ℝ) (min_score_weight x : ℝ)
    (q s1 s2 : String) (a b p : taxid_t) (tail : List taxid_t)
    (hmin : min_score_weight ≤ score_weight Real.exp 1)
    (hab : a ≠ b) (hcache : lineages_from tstore tax_c)
    (hla : lineage_of tstore fuel tax_c a = some (a :: p :: tail))
    (hlb : lineage_of tstore fuel tax_c b = some (b :: p :: tail))
    (hwa : 0 < tax_c.get_weight a) (hwb : 0 < tax_c.get_weight b) (hx : 0 < x)
    (hs1 : taxids_of pstore pep_c s1 = [a]) (hs2 : taxids_of pstore pep_c s2 = [b]) :
    ∃ score t,
      result_of ((⟨q, [⟨s1, x⟩, ⟨s2, x⟩]⟩ : blast_record ℝ).get_best_LPI Real.exp pstore tstore
        fuel pep_c tax_c min_score_weight) = some (score, t) ∧
      0 < score ∧ score < 1 ∧ (t = a ∨ t = b) := by
  have hsw := score_weight_real_pos 1
  have hva : 0 < score_weight Real.exp 1 * tax_c.get_weight a := mul_pos hsw hwa
  have hvb : 0 < score_weight Real.exp 1 * tax_c.get_weight b := mul_pos hsw hwb
  have hcount := count_hits_snd Real.exp pstore tax_c min_score_weight
    [(⟨s1, x⟩ : blast_hit ℝ), ⟨s2, x⟩] pep_c
  rw [siblings_votes pstore tax_c pep_c min_score_weight x s1 s2 a b hx hs1 hs2 hmin] at hcount
  have hperm := add_votes_two a b (score_weight Real.exp 1 * tax_c.get_weight a)
    (score_weight Real.exp 1 * tax_c.get_weight b) hab
  rw [← hcount] at hperm
  have hsorted := count_hits_sorted Real.exp pstore tax_c min_score_weight
    [(⟨s1, x⟩ : blast_hit ℝ), ⟨s2, x⟩] pep_c
  have hd : ∀ e ∈ (count_hits Real.exp pstore tax_c min_score_weight
      [(⟨s1, x⟩ : blast_hit ℝ), ⟨s2, x⟩] pep_c).2,
      has_lineage tstore fuel tax_c e.1 := by
    intro e he
    have := hperm.mem_iff.1 he
    simp only [List.mem_cons, List.mem_singleton, List.not_mem_nil, or_false] at this
    rcases this with rfl | rfl
    · exact ⟨_, hla, by simp⟩
    · exact ⟨_, hlb, by simp⟩
  obtain ⟨pc, tc, hres⟩ := get_best_LPI_multi Real.exp pstore tstore fuel
    ⟨q, [⟨s1, x⟩, ⟨s2, x⟩]⟩ pep_c tax_c min_score_weight
    (by rw [hperm.length_eq]; simp) hd
  have hw := lin_is_walk tstore fuel tax_c hcache
  have hlina : lin tstore fuel tax_c a = a :: p :: tail := by simp [lin, hla]
  have hlinb : lin tstore fuel tax_c b = b :: p :: tail := by simp [lin, hlb]
  obtain ⟨h1, h2, h3⟩ := siblings_best_of tstore (lin tstore fuel tax_c) _ a b p tail _ _ hw
    hlina hlinb hab hperm hva hvb hsorted
  exact ⟨_, _, by rw [hres]; rfl, h1, h2, h3⟩

/-- Scenario D satisfies the hypotheses of the sibling law: taxa 6 and 5 under the root 1. -/
theorem get_best_LPI_siblings_witness :
    ∃ score t,
      result_of (scenarioD_record.get_best_LPI Real.exp scenarioD_pstore scenarioD_tstore 3
        peptide_cache.empty (taxonomy_cache.empty ℝ) (1 / 10)) = some (score, t) ∧
      0 < score ∧ score < 1 ∧ (t = 6 ∨ t = 5) :=
  get_best_LPI_siblings scenarioD_pstore scenarioD_tstore 3 peptide_cache.empty
    (taxonomy_cache.empty ℝ) (1 / 10) 100 "q1" "s2" "s1" 6 5 1 []
    (by have := score_weight_real_one_ge; linarith) (by decide) (lineages_from_empty _)
    (by simp [lineage_of_eq, taxonomy_cache.empty, parents, scenarioD_tstore])
    (by simp [lineage_of_eq, taxonomy_cache.empty, parents, scenarioD_tstore])
    (by simp [taxonomy_cache.get_weight, taxonomy_cache.empty])
    (by simp [taxonomy_cache.get_weight, taxonomy_cache.empty])
    (by norm_num) rfl rfl

/-- C7 fails on the code without a bound on the threshold: in Scenario D (siblings 5 and 6 under
the root 1, equal scores, weights 1.0) the call with `min_score_weight = 1` discards both hits,
since `score_weight(1) < 1`, and returns `(0.0, -1)`. -/
theorem siblings_threshold_one :
    lin scenarioD_tstore 3 (taxonomy_cache.empty ℝ) 5 = [5, 1] ∧
      lin scenarioD_tstore 3 (taxonomy_cache.empty ℝ) 6 = [6, 1] ∧
      taxids_of scenarioD_pstore peptide_cache.empty "s1" = [5] ∧
      taxids_of scenarioD_pstore peptide_cache.empty "s2" = [6] ∧
      result_of (scenarioD_record.get_best_LPI Real.exp scenarioD_pstore scenarioD_tstore 3
        peptide_cache.empty (taxonomy_cache.empty ℝ) 1) = some (0, -1) := by
  refine ⟨scenarioD_lin5, scenarioD_lin6, rfl, rfl, ?_⟩
  apply get_best_LPI_zero
  rw [count_hits_snd]
  have h1 : ¬ (1 : ℝ) ≤ score_weight Real.exp 1 := not_le.mpr (score_weight_real_lt_one 1)
  have hv : votes_of Real.exp scenarioD_pstore (taxonomy_cache.empty ℝ) 1
      scenarioD_record.blast_hits peptide_cache.empty = [] := by
    rw [votes_of, scenarioD_max]
    norm_num [scenarioD_record, hit_votes, hit_weight, h1]
  rw [hv]
  rfl

/-! ### C8 -/

/-- C8. Order independence of the score: for every store, cache state, threshold and bound on the
lineage walks, two hit lists that are permutations of each other make `get_best_LPI` return (or
fail to return, when a lineage walk does not end) the same score. -/
theorem get_best_LPI_score_perm (exp : K → K) (pstore : PepStore) (tstore : TaxStore K)
    (fuel : Nat) (br1 br2 : blast_record K) (pep_c : peptide_cache) (tax_c : taxonomy_cache K)
    (min_score_weight : K) (h : br1.blast_hits.Perm br2.blast_hits) :
    (result_of (br1.get_best_LPI exp pstore tstore fuel pep_c tax_c min_score_weight)).map
        Prod.fst
      = (result_of (br2.get_best_LPI exp pstore tstore fuel pep_c tax_c min_score_weight)).map
        Prod.fst := by
  rw [get_best_LPI_of_count exp pstore tstore fuel br1 br2 pep_c tax_c min_score_weight
    min_score_weight (count_hits_perm exp pstore tax_c min_score_weight h pep_c)]

/-- Scenario D and the same two hits in the other order return the same score, `5/6`. -/
theorem get_best_LPI_score_perm_witness :
    scenarioD_record.blast_hits.Perm scenarioA_record.blast_hits ∧
      (result_of (scenarioD_record.get_best_LPI Real.exp scenarioD_pstore scenarioD_tstore 3
          peptide_cache.empty (taxonomy_cache.empty ℝ) (1 / 10))).map Prod.fst
        = (result_of (scenarioA_record.get_best_LPI Real.exp scenarioD_pstore scenarioD_tstore 3
          peptide_cache.empty (taxonomy_cache.empty ℝ) (1 / 10))).map Prod.fst ∧
      (result_of (scenarioD_record.get_best_LPI Real.exp scenarioD_pstore scenarioD_tstore 3
          peptide_cache.empty (taxonomy_cache.empty ℝ) (1 / 10))).map Prod.fst = some (5 / 6) :=
  ⟨List.Perm.swap _ _ _,
    get_best_LPI_score_perm Real.exp scenarioD_pstore scenarioD_tstore 3 scenarioD_record
      scenarioA_record peptide_cache.empty (taxonomy_cache.empty ℝ) (1 / 10)
      (List.Perm.swap _ _ _),
    by rw [scenarioD_result]; rfl⟩

/-! ### C9 -/

/-- C9, amended. For a query group of two hits with scores 100 and 30 (in either order),
`min_score_weight = 0.5` excludes the score-30 hit from voting (`score_weight(0.3) < 0.5`), and so
does `min_score_weight = 0.01`, because `score_weight(0.3) < 0.01` as well: with either threshold
the vote accumulator holds the votes of the score-100 hit alone, and the two calls return the same
result. -/
theorem scenarioC_same_result (pstore : PepStore) (tstore : TaxStore ℝ) (fuel : Nat)
    (pep_c : peptide_cache) (tax_c : taxonomy_cache ℝ) (br : blast_record ℝ) (a b : String)
    (hbr : br.blast_hits.Perm [⟨a, 100⟩, ⟨b, 30⟩]) :
    score_weight Real.exp (30 / 100) < 1 / 2 ∧
      score_weight Real.exp (30 / 100) < 1 / 100 ∧
      (count_hits Real.exp pstore tax_c (1 / 2) br.blast_hits pep_c).2
        = add_votes [] ((taxids_of pstore pep_c a).map
            (fun x => (x, score_weight Real.exp 1 * tax_c.get_weight x))) ∧
      (count_hits Real.exp pstore tax_c (1 / 100) br.blast_hits pep_c).2
        = add_votes [] ((taxids_of pstore pep_c a).map
            (fun x => (x, score_weight Real.exp 1 * tax_c.get_weight x))) ∧
      result_of (br.get_best_LPI Real.exp pstore tstore fuel pep_c tax_c (1 / 2))
        = result_of (br.get_best_LPI Real.exp pstore tstore fuel pep_c tax_c (1 / 100)) := by
  have hlow := score_weight_real_low
  have e1 : (30 : ℝ) / 100 = 3 / 10 := by norm_num
  have c1 : (count_hits Real.exp pstore tax_c (1 / 2) br.blast_hits pep_c).2
      = add_votes [] ((taxids_of pstore pep_c a).map
          (fun x => (x, score_weight Real.exp 1 * tax_c.get_weight x))) := by
    rw [count_hits_perm Real.exp pstore tax_c (1 / 2) hbr pep_c, count_hits_snd,
      scenarioC_votes pstore tax_c pep_c a b (1 / 2) (by norm_num) (by norm_num)]
  have c2 : (count_hits Real.exp pstore tax_c (1 / 100) br.blast_hits pep_c).2
      = add_votes [] ((taxids_of pstore pep_c a).map
          (fun x => (x, score_weight Real.exp 1 * tax_c.get_weight x))) := by
    rw [count_hits_perm Real.exp pstore tax_c (1 / 100) hbr pep_c, count_hits_snd,
      scenarioC_votes pstore tax_c pep_c a b (1 / 100) (by norm_num) (by norm_num)]
  refine ⟨by rw [e1]; linarith, by rw [e1]; exact hlow, c1, c2, ?_⟩
  apply get_best_LPI_of_count
  rw [c1, c2]

/-- Scenario C on the sibling taxa 5 and 6: the thresholds 0.5 and 0.01 give one result. -/
theorem scenarioC_same_result_witness :
    scenarioC_record.blast_hits.Perm [⟨"s1", 100⟩, ⟨"s2", 30⟩] ∧
      result_of (scenarioC_record.get_best_LPI Real.exp scenarioD_pstore scenarioD_tstore 3
          peptide_cache.empty (taxonomy_cache.empty ℝ) (1 / 2))
        = result_of (scenarioC_record.get_best_LPI Real.exp scenarioD_pstore scenarioD_tstore 3
          peptide_cache.empty (taxonomy_cache.empty ℝ) (1 / 100)) :=
  ⟨List.Perm.refl _,
    (scenarioC_same_result scenarioD_pstore scenarioD_tstore 3 peptide_cache.empty
      (taxonomy_cache.empty ℝ) scenarioC_record "s1" "s2" (List.Perm.refl _)).2.2.2.2⟩

/-- C9 fails on the code: in Scenario C (score 100 on taxon 5, score 30 on taxon 6) the calls with
`min_score_weight = 0.5` and with `min_score_weight = 0.01` both return `(1.0, 5)`. -/
theorem scenarioC_result_not_changed :
    taxids_of scenarioD_pstore peptide_cache.empty "s1" = [5] ∧
      taxids_of scenarioD_pstore peptide_cache.empty "s2" = [6] ∧
      result_of (scenarioC_record.get_best_LPI Real.exp scenarioD_pstore scenarioD_tstore 3
        peptide_cache.empty (taxonomy_cache.empty ℝ) (1 / 2)) = some (1, 5) ∧
      result_of (scenarioC_record.get_best_LPI Real.exp scenarioD_pstore scenarioD_tstore 3
        peptide_cache.empty (taxonomy_cache.empty ℝ) (1 / 100)) = some (1, 5) := by
  have t1 : taxids_of scenarioD_pstore peptide_cache.empty "s1" = [5] := rfl
  have hw : score_weight Real.exp 1 * (taxonomy_cache.empty ℝ).get_weight 5
      = score_weight Real.exp 1 := by
    simp [taxonomy_cache.get_weight, taxonomy_cache.empty]
  have c1 : ∀ mn : ℝ, 1 / 100 ≤ mn → mn ≤ 1 / 2 →
      (count_hits Real.exp scenarioD_pstore (taxonomy_cache.empty ℝ) mn
        scenarioC_record.blast_hits peptide_cache.empty).2 = [(5, 0 + score_weight Real.exp 1)] := by
    intro mn h1 h2
    rw [count_hits_snd]
    simp only [scenarioC_record]
    rw [scenarioC_votes scenarioD_pstore (taxonomy_cache.empty ℝ) peptide_cache.empty "s1" "s2"
      mn h1 h2, t1]
    simp [add_votes, map_add, hw]
  refine ⟨rfl, rfl, ?_, ?_⟩
  · simp only [blast_record.get_best_LPI, result_of, c1 (1 / 2) (by norm_num) (by norm_num)]
    rfl
  · simp only [blast_record.get_best_LPI, result_of,
      c1 (1 / 100) (by norm_num) (by norm_num)]
    rfl

/-! ### C10 -/

/-- C10. Over the reals `score_weight` is strictly increasing on `[0,1]`, and its centre value
is `score_weight(0.7) = 0.5`. -/
theorem score_weight_increasing :
    (∀ x y : ℝ, 0 ≤ x → x < y → y ≤ 1 → score_weight Real.exp x < score_weight Real.exp y) ∧
      score_weight Real.exp (7 / 10) = 1 / 2 :=
  ⟨fun _ _ _ hxy _ => score_weight_real_strictMono hxy, score_weight_real_centre⟩

/-- The centre lies above `x = 0.3`: `score_weight(0.3) < score_weight(0.7)`. -/
theorem score_weight_increasing_witness :
    (0 : ℝ) ≤ 3 / 10 ∧ (3 : ℝ) / 10 < 7 / 10 ∧ (7 : ℝ) / 10 ≤ 1 ∧
      score_weight Real.exp (3 / 10) < score_weight Real.exp (7 / 10) :=
  ⟨by norm_num, by norm_num, by norm_num,
    score_weight_increasing.1 (3 / 10) (7 / 10) (by norm_num) (by norm_num) (by norm_num)⟩

/-! ### C11 -/

/-- C11. For a taxon id `t <= 0`, `get_lineage(t)` returns the empty sequence. For `t > 0`, a store
whose parent relation is well-founded and whose lookups do not fail, and a cache whose memoized
lineages are walks of that store, there is a sequence `l` that `get_lineage(t)` returns for every
bound on the walk from some bound on (the call terminates); `l` starts with `t`, each next element
is the store's parent of the previous one, every element is positive, and the last element is a
node without row or with a parent id `<= 0`. -/
theorem get_lineage_chain (store : TaxStore K) (c : taxonomy_cache K) (t : taxid_t) :
    (t ≤ 0 → ∀ fuel, c.get_lineage store fuel t = some ([], c)) ∧
      (0 < t → store_acyclic store → (∀ k, store k ≠ TaxStep.bind_error) →
        lineages_from store c →
        ∃ l fuel0, (∀ fuel, fuel0 ≤ fuel → ∃ c1, c.get_lineage store fuel t = some (l, c1)) ∧
          l.head? = some t ∧ List.Chain' (fun a b => parent_rel store b a) l ∧
          (∀ x ∈ l, 0 < x) ∧
          ∃ n, l.getLast? = some n ∧
            (store n = TaxStep.no_row ∨
              ∃ r, store n = TaxStep.row r ∧ r.parent_tax_id ≤ 0)) := by
  constructor
  · intro ht fuel
    unfold taxonomy_cache.get_lineage
    simp [not_lt.2 ht]
  · intro ht hacyc hb hc
    cases hct : c.t t with
    | some l =>
      obtain ⟨f, ps, hp, hl⟩ := hc t l hct
      subst hl
      exact ⟨t :: ps, 0, fun fuel _ => ⟨c, get_lineage_hit store fuel c t _ ht hct⟩, rfl,
        parents_chain store f t ps ht hp⟩
    | none =>
      obtain ⟨f, ps, hp⟩ := acyclic_walk_completes store hacyc hb t
      refine ⟨t :: ps, f, fun fuel hf => ?_, rfl, parents_chain store f t ps ht hp⟩
      obtain ⟨c1, h1, _⟩ := get_lineage_walk store fuel c t ps ht hct
        (parents_mono store f fuel hf t _ hp)
      exact ⟨c1, h1⟩

/-- The store with the line `7 -> 3 -> 2` and the empty cache: `get_lineage(-1)` returns the
empty sequence, `get_lineage(7)` returns a chain from 7, and it is `[7, 3, 2]`. -/
theorem get_lineage_chain_witness :
    (taxonomy_cache.empty ℝ).get_lineage line_tstore 3 (-1)
        = some ([], taxonomy_cache.empty ℝ) ∧
      (∃ l fuel0, (∀ fuel, fuel0 ≤ fuel →
          ∃ c1, (taxonomy_cache.empty ℝ).get_lineage line_tstore fuel 7 = some (l, c1)) ∧
        l.head? = some 7 ∧ List.Chain' (fun a b => parent_rel line_tstore b a) l ∧
        (∀ x ∈ l, 0 < x) ∧
        ∃ n, l.getLast? = some n ∧
          (line_tstore n = TaxStep.no_row ∨
            ∃ r, line_tstore n = TaxStep.row r ∧ r.parent_tax_id ≤ 0)) ∧
      lineage_of line_tstore 3 (taxonomy_cache.empty ℝ) 7 = some [7, 3, 2] :=
  ⟨(get_lineage_chain line_tstore (taxonomy_cache.empty ℝ) (-1)).1 (by decide) 3,
    (get_lineage_chain line_tstore (taxonomy_cache.empty ℝ) 7).2 (by decide) line_tstore_acyclic
      line_tstore_no_bind_error (lineages_from_empty _),
    by simp [lineage_of_eq, taxonomy_cache.empty, parents, line_tstore]⟩

/-! ### C12 -/

/-- C12. Idempotence of `get_lineage`: once a call `get_lineage(t)` has returned the sequence `l`
without a failed store lookup, every later call `get_lineage(t)`, after any sequence of calls on
the cache, with any content of the store and any bound on the walk, returns `l` and leaves the
cache state as it finds it. -/
theorem get_lineage_idempotent (store : TaxStore K) (fuel : Nat) (c : taxonomy_cache K)
    (t : taxid_t) (l : List taxid_t) (c1 : taxonomy_cache K)
    (h : c.get_lineage store fuel t = some (l, c1)) (hok : ¬ lookup_fails store fuel c t)
    (calls : List (cache_call K)) (c2 : taxonomy_cache K) (hcalls : run_calls calls c1 = some c2)
    (store1 : TaxStore K) (fuel1 : Nat) :
    c2.get_lineage store1 fuel1 t = some (l, c2) := by
  rcases get_lineage_memoized store fuel c t l c1 h hok with ⟨ht, hl⟩ | ⟨ht, hm⟩
  · subst hl
    unfold taxonomy_cache.get_lineage
    simp [not_lt.2 ht]
  · exact get_lineage_hit store1 fuel1 c2 t l ht (run_calls_keeps calls c1 c2 hcalls t l hm)

/-- On the line `7 -> 3 -> 2`: after `get_lineage(7)` has returned `[7, 3, 2]`, a call on a store
that has lost all its rows, with no iteration allowed, returns `[7, 3, 2]` again. -/
theorem get_lineage_idempotent_witness :
    ∃ c1, (taxonomy_cache.empty ℝ).get_lineage line_tstore 3 7 = some ([7, 3, 2], c1) ∧
      ¬ lookup_fails line_tstore 3 (taxonomy_cache.empty ℝ) 7 ∧
      c1.get_lineage empty_tstore 0 7 = some ([7, 3, 2], c1) := by
  obtain ⟨c1, h1, _⟩ := get_lineage_walk line_tstore 3 (taxonomy_cache.empty ℝ) 7 [3, 2]
    (by decide) rfl (by simp [parents, line_tstore])
  have hok : ¬ lookup_fails line_tstore 3 (taxonomy_cache.empty ℝ) 7 := by
    simp [lookup_fails, lineage_loop_fst, parents, line_tstore]
  exact ⟨c1, h1, hok,
    get_lineage_idempotent line_tstore 3 (taxonomy_cache.empty ℝ) 7 [7, 3, 2] c1 h1 hok [] c1 rfl
      empty_tstore 0⟩

/-! ### C13 -/

/-- C13. Weight clamp as a cache invariant: in every cache state reached from the empty cache by
a sequence of `get_lineage`, `print_lineage` and `get_weight` calls, each on any store,
`get_weight(t) <= 1.0` for every taxon id `t`, and `get_weight(t) = 1.0` for every `t` that no
lineage walk of these calls has visited. -/
theorem get_weight_clamped (calls : List (cache_call K)) (c : taxonomy_cache K)
    (h : run_calls calls (taxonomy_cache.empty K) = some c) :
    (∀ t, c.get_weight t ≤ 1) ∧
      ∀ t, t ∉ visited calls (taxonomy_cache.empty K) → c.get_weight t = 1 := by
  constructor
  · intro t
    unfold taxonomy_cache.get_weight
    rcases run_calls_weight calls _ c h t with h1 | ⟨_, w, h1, h2⟩
    · rw [h1]; simp [taxonomy_cache.empty]
    · rw [h1]; exact h2
  · intro t ht
    unfold taxonomy_cache.get_weight
    rcases run_calls_weight calls _ c h t with h1 | ⟨h1, _⟩
    · rw [h1]; simp [taxonomy_cache.empty]
    · exact absurd h1 ht

/-- On a store that holds the weight 2 for taxon 5: after `get_lineage(5)`, `print_lineage(5)` and
`get_weight(5)` the weights are at most 1, the weight of the visited taxon 5 is the clamped
`1.0`, and the weight of the taxon 6, which no walk has visited, is the default `1.0`. -/
theorem get_weight_clamped_witness :
    ∃ c, run_calls [cache_call.get_lineage heavy_tstore 3 5,
          cache_call.print_lineage heavy_tstore 3 5, cache_call.get_weight 5]
        (taxonomy_cache.empty ℝ) = some c ∧
      visited [cache_call.get_lineage heavy_tstore 3 5,
          cache_call.print_lineage heavy_tstore 3 5, cache_call.get_weight 5]
        (taxonomy_cache.empty ℝ) = [5, 1] ∧
      c.t_weight 5 = some 1 ∧
      (∀ t, c.get_weight t ≤ 1) ∧
      ∀ t, t ∉ visited [cache_call.get_lineage heavy_tstore 3 5,
          cache_call.print_lineage heavy_tstore 3 5, cache_call.get_weight 5]
        (taxonomy_cache.empty ℝ) → c.get_weight t = 1 := by
  have hrun : run_calls [cache_call.get_lineage heavy_tstore 3 5,
        cache_call.print_lineage heavy_tstore 3 5, cache_call.get_weight 5]
      (taxonomy_cache.empty ℝ)
      = some ⟨map_set (fun _ => none) 5 [5, 1],
          map_set (map_set (fun _ => none) 5 "child5") 1 "root",
          map_set (map_set (fun _ => none) 5 1) 1 1⟩ := by
    norm_num [run_calls, run_call, taxonomy_cache.print_lineage, taxonomy_cache.get_lineage,
      taxonomy_cache.empty, lineage_loop, heavy_tstore, map_set]
  have hvis : visited [cache_call.get_lineage heavy_tstore 3 5,
        cache_call.print_lineage heavy_tstore 3 5, cache_call.get_weight 5]
      (taxonomy_cache.empty ℝ) = [5, 1] := by
    norm_num [visited, call_visits, run_call, taxonomy_cache.print_lineage,
      taxonomy_cache.get_lineage, taxonomy_cache.empty, lineage_loop, heavy_tstore, map_set,
      walk_nodes]
    intro h0
    cases h0
  exact ⟨_, hrun, hvis, by simp [map_set], get_weight_clamped _ _ hrun⟩

/-! ### C14 -/

/-- C14. For a taxon id `t <= 0`, `print_lineage(t)` returns the empty string. For a cache whose
memoized names are those of the store, a taxon id `t` whose lineage (the sequence that
`get_lineage(t)` returns) is `l = [n0, ..., nk]`, and every node of `l` having a row in the store,
`print_lineage(t)` returns the names of the store in root-to-leaf order joined by `;`:
`name(nk);...;name(n0)`. -/
theorem print_lineage_joined (store : TaxStore K) (c : taxonomy_cache K) (t : taxid_t) :
    (t ≤ 0 → ∀ fuel, c.print_lineage store fuel t = some (some "", c)) ∧
      (names_from store c → ∀ fuel l c1, c.get_lineage store fuel t = some (l, c1) →
        (∀ n ∈ l, ∃ r, store n = TaxStep.row r) →
        c.print_lineage store fuel t
          = some (some (String.intercalate ";" (l.reverse.map (name_of store))), c1)) := by
  constructor
  · intro ht fuel
    unfold taxonomy_cache.print_lineage taxonomy_cache.get_lineage
    simp [not_lt.2 ht]
  · intro hc fuel l c1 h hn
    have hc1 := get_lineage_names_from store fuel c t l c1 h hc
    unfold taxonomy_cache.print_lineage
    rw [h]
    simp only
    by_cases hl : l = []
    · subst hl
      simp [String.intercalate]
    · have hlen : l.length > 0 := List.length_pos.2 hl
      simp only [hlen, if_true]
      have hm := get_lineage_nonempty_memo store fuel c t l c1 h hl
      rw [print_names_eq c1.t_str l.reverse (l.reverse.map (name_of store))]
      rw [List.map_map]
      apply List.map_congr_left
      intro n hn1
      obtain ⟨r, hr⟩ := hn n (List.mem_reverse.1 hn1)
      rw [hc1.2 t l hm n (List.mem_reverse.1 hn1) r hr]
      simp [name_of, hr]

/-- The line `7 -> 3 -> 2` with the names `A`, `B`, `C`: the lineage of 7 is `[7, 3, 2]` and
`print_lineage(7)` returns `"C;B;A"`; `print_lineage(-1)` returns the empty string. -/
theorem print_lineage_joined_witness :
    ∃ c1, (taxonomy_cache.empty ℝ).get_lineage line_tstore 3 7 = some ([7, 3, 2], c1) ∧
      (∀ n ∈ [7, 3, 2], ∃ r, line_tstore n = TaxStep.row r) ∧
      (taxonomy_cache.empty ℝ).print_lineage line_tstore 3 7 = some (some "C;B;A", c1) ∧
      (taxonomy_cache.empty ℝ).print_lineage line_tstore 3 (-1)
        = some (some "", taxonomy_cache.empty ℝ) := by
  obtain ⟨c1, h1, _⟩ := get_lineage_walk line_tstore 3 (taxonomy_cache.empty ℝ) 7 [3, 2]
    (by decide) rfl (by simp [parents, line_tstore])
  have hn : ∀ n ∈ [(7 : taxid_t), 3, 2], ∃ r, line_tstore n = TaxStep.row r := by
    intro n hn
    simp only [List.mem_cons, List.mem_singleton, List.not_mem_nil, or_false] at hn
    rcases hn with rfl | rfl | rfl <;> simp [line_tstore]
  have h2 := (print_lineage_joined line_tstore (taxonomy_cache.empty ℝ) 7).2
    (names_from_empty _) 3 [7, 3, 2] c1 h1 hn
  refine ⟨c1, h1, hn, ?_,
    (print_lineage_joined line_tstore (taxonomy_cache.empty ℝ) (-1)).1 (by decide) 3⟩
  rw [h2]
  simp [name_of, line_tstore, String.intercalate, String.intercalate.go]

/-! ### C15 -/

/-- C15 fails on the code. Scenario A on a store that has no row for taxon 42: `get_best_LPI`
returns `(1.0, 42)` and leaves the taxonomy cache empty; `get_lineage(42)` returns `[42]` and
memoizes no name, so `print_lineage(42)` does not return a string: `t_str.at(42)` throws
`std::out_of_range`, which `main` does not catch. The same happens for taxon 5 whose row names
the parent 1 when taxon 1 has no row: the lineage is `[5, 1]` and `t_str.at(1)` throws. -/
theorem print_lineage_unnamed_node_throws :
    (∃ pc, scenarioA_record.get_best_LPI Real.exp scenarioA_pstore empty_tstore 1
        peptide_cache.empty (taxonomy_cache.empty ℝ) (1 / 10)
        = some (⟨1, 42⟩, pc, taxonomy_cache.empty ℝ)) ∧
      lineage_of empty_tstore 1 (taxonomy_cache.empty ℝ) 42 = some [42] ∧
      ((taxonomy_cache.empty ℝ).print_lineage empty_tstore 1 42).map Prod.fst = some none ∧
      lineage_of orphan_tstore 2 (taxonomy_cache.empty ℝ) 5 = some [5, 1] ∧
      ((taxonomy_cache.empty ℝ).print_lineage orphan_tstore 2 5).map Prod.fst = some none := by
  refine ⟨get_best_LPI_one_cache Real.exp scenarioA_pstore empty_tstore 1 scenarioA_record
      peptide_cache.empty (taxonomy_cache.empty ℝ) (1 / 10) _ scenarioA_count, ?_, ?_, ?_, ?_⟩
  · simp [lineage_of_eq, taxonomy_cache.empty, parents, empty_tstore]
  · norm_num [taxonomy_cache.print_lineage, taxonomy_cache.get_lineage, taxonomy_cache.empty,
      lineage_loop, empty_tstore, map_set, print_names]
  · simp [lineage_of_eq, taxonomy_cache.empty, parents, orphan_tstore]
  · norm_num [taxonomy_cache.print_lineage, taxonomy_cache.get_lineage, taxonomy_cache.empty,
      lineage_loop, orphan_tstore, map_set, print_names]

/-! ### C16 -/

/-- C16. `get_peptide_taxids`: for the empty id the call returns the empty list and leaves the
cache unchanged. For a non-empty id `s` without memoized list, a call whose lookup succeeds with
the rows `l` returns `l` (the list of the store, in its order and with its duplicates) and
memoizes it under `s`, also when `l` is empty; every later call for `s`, after any sequence of
calls on the cache and whatever the store then contains, returns `l` and leaves the cache as it
finds it. -/
theorem get_peptide_taxids_memo (store : PepStore) (c : peptide_cache) (s : String)
    (l : List taxid_t) :
    c.get_peptide_taxids store "" = ([], c) ∧
      (s.length > 0 → c.p s = none → store s = PepStep.rows l →
        (c.get_peptide_taxids store s).1 = l ∧
        (c.get_peptide_taxids store s).2.p s = some l ∧
        ∀ (calls : List (PepStore × String)) (store1 : PepStore),
          (pep_calls calls (c.get_peptide_taxids store s).2).get_peptide_taxids store1 s
            = (l, pep_calls calls (c.get_peptide_taxids store s).2)) := by
  constructor
  · rfl
  · intro hs hc hst
    have h1 : c.get_peptide_taxids store s = (l, ⟨map_set c.p s l⟩) := by
      unfold peptide_cache.get_peptide_taxids
      simp [hs, hc, hst]
    rw [h1]
    have h2 : (⟨map_set c.p s l⟩ : peptide_cache).p s = some l := by simp [map_set]
    exact ⟨rfl, h2, fun calls store1 =>
      get_peptide_taxids_hit store1 _ s l hs (pep_calls_keeps calls _ s l h2)⟩

/-- A store with the rows `[5, 5, 6]` for `s1`: the first call returns `[5, 5, 6]`, and so does a
call made after a call for `s2`, on a store that then holds no rows; a first call on a store
without rows for `s1` memoizes the empty list. -/
theorem get_peptide_taxids_memo_witness :
    (peptide_cache.empty.get_peptide_taxids (fun _ => PepStep.rows [5, 5, 6]) "s1").1 = [5, 5, 6] ∧
      (peptide_cache.empty.get_peptide_taxids (fun _ => PepStep.rows [5, 5, 6]) "s1").2.p "s1"
        = some [5, 5, 6] ∧
      ((pep_calls [(scenarioD_pstore, "s2")]
          (peptide_cache.empty.get_peptide_taxids (fun _ => PepStep.rows [5, 5, 6])
            "s1").2).get_peptide_taxids empty_pstore "s1").1 = [5, 5, 6] ∧
      (peptide_cache.empty.get_peptide_taxids empty_pstore "s1").2.p "s1" = some [] := by
  have h := (get_peptide_taxids_memo (fun _ => PepStep.rows [5, 5, 6]) peptide_cache.empty "s1"
    [5, 5, 6]).2 (by decide) rfl rfl
  have h0 := (get_peptide_taxids_memo empty_pstore peptide_cache.empty "s1" []).2
    (by decide) rfl rfl
  exact ⟨h.1, h.2.1, by rw [h.2.2 [(scenarioD_pstore, "s2")] empty_pstore], h0.2.1⟩

/-! ### C17 -/

/-- C17. Atomicity of `get_lineage` on a store failure: if a lookup fails (`sqlite3_bind_int`
does not return `SQLITE_OK`) at a step of the walk for a taxon id `t > 0`, the call returns the
empty lineage and leaves the lineage memo as it was; a later call for `t` on a working store (no
failing lookup, well-founded parent relation) terminates, returns the chain of `t` in that store
(from `t`, each next element the parent of the previous one, all positive, the last one without
positive parent) and memoizes it. -/
theorem get_lineage_failure_atomic (store : TaxStore K) (fuel : Nat) (c : taxonomy_cache K)
    (t : taxid_t) (hf : lookup_fails store fuel c t) :
    ∃ c1, c.get_lineage store fuel t = some ([], c1) ∧ c1.t = c.t ∧
      ∀ store1 : TaxStore K, store_acyclic store1 → (∀ k, store1 k ≠ TaxStep.bind_error) →
        ∃ ps fuel0,
          (∀ fuel1, fuel0 ≤ fuel1 →
            ∃ c2, c1.get_lineage store1 fuel1 t = some (t :: ps, c2) ∧
              c2.t t = some (t :: ps)) ∧
          List.Chain' (fun a b => parent_rel store1 b a) (t :: ps) ∧
          (∀ x ∈ t :: ps, 0 < x) ∧
          ∃ n, (t :: ps).getLast? = some n ∧
            (store1 n = TaxStep.no_row ∨
              ∃ r, store1 n = TaxStep.row r ∧ r.parent_tax_id ≤ 0) := by
  obtain ⟨ht, hct, hl⟩ := hf
  cases hloop : lineage_loop store fuel t [t] c with
  | none => simp [hloop] at hl
  | some rc =>
    obtain ⟨r, c1⟩ := rc
    rw [hloop] at hl
    simp only [Option.map_some', Option.some.injEq] at hl
    subst hl
    have h1 : c1.t = c.t := lineage_loop_t store fuel t [t] c none c1 hloop
    refine ⟨c1, ?_, h1, ?_⟩
    · unfold taxonomy_cache.get_lineage
      simp [ht, hct, hloop]
    · intro store1 hacyc hb
      obtain ⟨f, ps, hp⟩ := acyclic_walk_completes store1 hacyc hb t
      refine ⟨ps, f, fun fuel1 hf1 => ?_, parents_chain store1 f t ps ht hp⟩
      obtain ⟨c2, h2, h3⟩ := get_lineage_walk store1 fuel1 c1 t ps ht (by rw [h1]; exact hct)
        (parents_mono store1 f fuel1 hf1 t _ hp)
      exact ⟨c2, h2, by rw [h3]; simp [map_set]⟩

/-- The line `7 -> 3 -> 2` while the lookup of taxon 3 fails: `get_lineage(7)` returns the empty
lineage and memoizes nothing, and the next call, on the working store, returns `[7, 3, 2]`. -/
theorem get_lineage_failure_atomic_witness :
    lookup_fails failing_tstore 3 (taxonomy_cache.empty ℝ) 7 ∧
      ∃ c1, (taxonomy_cache.empty ℝ).get_lineage failing_tstore 3 7 = some ([], c1) ∧
        c1.t = (taxonomy_cache.empty ℝ).t ∧
        lineage_of line_tstore 3 c1 7 = some [7, 3, 2] := by
  have hf : lookup_fails failing_tstore 3 (taxonomy_cache.empty ℝ) 7 := by
    refine ⟨by decide, rfl, ?_⟩
    rw [lineage_loop_fst]
    simp [parents, failing_tstore]
  obtain ⟨c1, h1, h2, _⟩ :=
    get_lineage_failure_atomic failing_tstore 3 (taxonomy_cache.empty ℝ) 7 hf
  refine ⟨hf, c1, h1, h2, ?_⟩
  rw [lineage_of_eq, h2]
  simp [taxonomy_cache.empty, parents, line_tstore]

/-! ### C18 -/

/-- C18. Discarded hits have no influence: for a query group whose hit scores are all positive,
every threshold, store and cache state, `get_best_LPI` returns the same score and taxon id (or no
result in both cases) on the full hit list and on the list of the hits whose
`score_weight(score / max score of the full list)` is at least `min_score_weight`, also when the
deleted hits include the top-scoring hit. -/
theorem get_best_LPI_kept_hits (pstore : PepStore) (tstore : TaxStore ℝ) (fuel : Nat)
    (br : blast_record ℝ) (pep_c : peptide_cache) (tax_c : taxonomy_cache ℝ)
    (min_score_weight : ℝ) (hpos : ∀ b ∈ br.blast_hits, 0 < b.bit_score) :
    result_of (br.get_best_LPI Real.exp pstore tstore fuel pep_c tax_c min_score_weight)
      = result_of ((⟨br.query_id, kept_hits Real.exp min_score_weight br.blast_hits⟩ :
          blast_record ℝ).get_best_LPI Real.exp pstore tstore fuel pep_c tax_c
            min_score_weight) := by
  apply get_best_LPI_of_count
  rw [count_hits_snd, count_hits_snd,
    votes_of_kept_hits pstore tax_c min_score_weight br.blast_hits pep_c hpos]

/-- Scenario C with the threshold 0.1: the hit of score 30 is deleted, and the result is the same
on `[(s1,100),(s2,30)]` and on `[(s1,100)]`; with the threshold 1 the top-scoring hit is deleted,
and every hit with it. -/
theorem get_best_LPI_kept_hits_witness :
    (∀ b ∈ scenarioC_record.blast_hits, 0 < b.bit_score) ∧
      kept_hits Real.exp (1 / 10) scenarioC_record.blast_hits = [⟨"s1", 100⟩] ∧
      kept_hits Real.exp 1 scenarioC_record.blast_hits = [] ∧
      result_of (scenarioC_record.get_best_LPI Real.exp scenarioD_pstore scenarioD_tstore 3
          peptide_cache.empty (taxonomy_cache.empty ℝ) (1 / 10))
        = result_of ((⟨scenarioC_record.query_id,
            kept_hits Real.exp (1 / 10) scenarioC_record.blast_hits⟩ :
              blast_record ℝ).get_best_LPI Real.exp scenarioD_pstore scenarioD_tstore 3
            peptide_cache.empty (taxonomy_cache.empty ℝ) (1 / 10)) := by
  have hpos : ∀ b ∈ scenarioC_record.blast_hits, 0 < b.bit_score := by
    intro b hb
    simp only [scenarioC_record, List.mem_cons, List.mem_singleton, List.not_mem_nil,
      or_false] at hb
    rcases hb with rfl | rfl <;> norm_num
  have hmax : bh_max_bitscore scenarioC_record.blast_hits = 100 := by
    norm_num [bh_max_bitscore, scenarioC_record]
  have h1 : (1 : ℝ) / 10 ≤ score_weight Real.exp 1 := by
    have := score_weight_real_one_ge; linarith
  have h2 : ¬ (1 : ℝ) / 10 ≤ score_weight Real.exp (3 / 10) := by
    have := score_weight_real_low; linarith
  have h3 : ¬ (1 : ℝ) ≤ score_weight Real.exp 1 := not_le.2 (score_weight_real_lt_one 1)
  have h4 : ¬ (1 : ℝ) ≤ score_weight Real.exp (3 / 10) := not_le.2 (score_weight_real_lt_one _)
  refine ⟨hpos, ?_, ?_, get_best_LPI_kept_hits scenarioD_pstore scenarioD_tstore 3
    scenarioC_record peptide_cache.empty (taxonomy_cache.empty ℝ) (1 / 10) hpos⟩
  · rw [kept_hits, hmax]
    norm_num [scenarioC_record, hit_weight, List.filter, h1, h2]
  · rw [kept_hits, hmax]
    norm_num [scenarioC_record, hit_weight, List.filter, h3, h4]

/-! ### C19 -/

/-- C19. The result of `get_best_LPI` depends on how warm the lineage cache is. On a store with
the sibling taxa 5 (weight 1.0) and 6 (weight 0.5) under the root 1, the query group of Scenario D
and the threshold 0.1: the run on empty caches reads the default weight 1.0 for both taxa and
returns `(5/6, 5)`; the run on the caches that this first run leaves reads the memoized weight
0.5 for taxon 6 and returns `(8/9, 5)`, a different score. -/
theorem get_best_LPI_warm_cache :
    (∃ r, (half_tstore : TaxStore ℝ) 6 = TaxStep.row r ∧ r.weight < 1) ∧
      ∃ r1 pc tc r2 pc2 tc2,
        scenarioD_record.get_best_LPI Real.exp scenarioD_pstore half_tstore 3
          peptide_cache.empty (taxonomy_cache.empty ℝ) (1 / 10) = some (r1, pc, tc) ∧
        scenarioD_record.get_best_LPI Real.exp scenarioD_pstore half_tstore 3 pc tc (1 / 10)
          = some (r2, pc2, tc2) ∧
        r1 = ⟨5 / 6, 5⟩ ∧ r2 = ⟨8 / 9, 5⟩ ∧ r1.score ≠ r2.score ∧
        (taxonomy_cache.empty ℝ).get_weight 6 = 1 ∧ tc.get_weight 6 = 1 / 2 := by
  have hone := score_weight_real_one_ge
  have hmn : (1 : ℝ) / 10 ≤ score_weight Real.exp 1 := by linarith
  -- the run on the empty caches
  have hd1 : ∀ e ∈ (count_hits Real.exp scenarioD_pstore (taxonomy_cache.empty ℝ) (1 / 10)
      scenarioD_record.blast_hits peptide_cache.empty).2,
      has_lineage (half_tstore : TaxStore ℝ) 3 (taxonomy_cache.empty ℝ) e.1 := by
    rw [scenarioD_count]
    intro e he
    simp only [List.mem_cons, List.mem_singleton, List.not_mem_nil, or_false] at he
    rcases he with rfl | rfl
    · exact ⟨[5, 1], by simp [lineage_of_eq, taxonomy_cache.empty, parents, half_tstore],
        by simp⟩
    · exact ⟨[6, 1], by simp [lineage_of_eq, taxonomy_cache.empty, parents, half_tstore],
        by simp⟩
  obtain ⟨pc, tc, hrun1⟩ := get_best_LPI_multi Real.exp scenarioD_pstore
    (half_tstore : TaxStore ℝ) 3 scenarioD_record peptide_cache.empty (taxonomy_cache.empty ℝ)
    (1 / 10) (by rw [scenarioD_count]; simp) hd1
  obtain ⟨hpc, htc⟩ := get_best_LPI_caches Real.exp scenarioD_pstore (half_tstore : TaxStore ℝ)
    3 scenarioD_record peptide_cache.empty (taxonomy_cache.empty ℝ) (1 / 10) _ pc tc hrun1
  rw [scenarioD_count] at htc hrun1
  rw [half_cold_best] at hrun1
  have htc1 : tc = half_cache := by
    rcases htc with ⟨h1, _⟩ | h1
    · simp at h1
    · rw [List.cons_append, List.cons_append, List.nil_append, half_cache_reached] at h1
      exact (Option.some.inj h1).symm
  subst htc1
  -- the run on the caches left by the first run
  have htax : taxids_of scenarioD_pstore pc = taxids_of scenarioD_pstore peptide_cache.empty := by
    rw [hpc]
    exact (count_fold_eq Real.exp scenarioD_pstore (taxonomy_cache.empty ℝ) (1 / 10)
      (bh_max_bitscore scenarioD_record.blast_hits) scenarioD_record.blast_hits
      (peptide_cache.empty, [])).2
  have t1 : taxids_of scenarioD_pstore pc "s1" = [5] := by rw [htax]; rfl
  have t2 : taxids_of scenarioD_pstore pc "s2" = [6] := by rw [htax]; rfl
  have hcount2 : (count_hits Real.exp scenarioD_pstore (half_cache : taxonomy_cache ℝ) (1 / 10)
      scenarioD_record.blast_hits pc).2
      = [(5, score_weight Real.exp 1), (6, score_weight Real.exp 1 * (1 / 2))] := by
    rw [count_hits_snd, votes_of, scenarioD_max]
    norm_num [scenarioD_record, hit_votes, hit_weight, hmn, t1, t2, taxonomy_cache.get_weight,
      half_cache, map_set, add_votes, map_add]
  have hd2 : ∀ e ∈ (count_hits Real.exp scenarioD_pstore (half_cache : taxonomy_cache ℝ) (1 / 10)
      scenarioD_record.blast_hits pc).2,
      has_lineage (half_tstore : TaxStore ℝ) 3 half_cache e.1 := by
    rw [hcount2]
    intro e he
    simp only [List.mem_cons, List.mem_singleton, List.not_mem_nil, or_false] at he
    rcases he with rfl | rfl
    · exact ⟨[5, 1], by simp [lineage_of_eq, half_cache, map_set], by simp⟩
    · exact ⟨[6, 1], by simp [lineage_of_eq, half_cache, map_set], by simp⟩
  obtain ⟨pc2, tc2, hrun2⟩ := get_best_LPI_multi Real.exp scenarioD_pstore
    (half_tstore : TaxStore ℝ) 3 scenarioD_record pc half_cache
    (1 / 10) (by rw [hcount2]; simp) hd2
  rw [hcount2, half_warm_best] at hrun2
  refine ⟨⟨⟨"child6", 1, 1 / 2⟩, by simp [half_tstore], by norm_num⟩,
    _, pc, half_cache, _, pc2, tc2, hrun1, hrun2, rfl, rfl, by norm_num, ?_, ?_⟩
  · simp [taxonomy_cache.get_weight, taxonomy_cache.empty]
  · simp [taxonomy_cache.get_weight, half_cache, map_set]

/-! ### C20 -/

/-- C20. In the branch with several voted taxa (each with a positive vote and a non-empty
lineage, its walk ending within the bound) the entries of the vote accumulator are visited in
ascending taxon-id order and the result is replaced only on a strictly greater LPI: the maximum
LPI is positive, the returned score is that maximum, and the returned taxon is the voted taxon of
smallest id among those that attain it. The returned score and taxon id are the same for every
permutation of the hit list (for all votes and lineages). -/
theorem get_best_LPI_smallest_id_perm (exp : K → K) (pstore : PepStore) (tstore : TaxStore K)
    (fuel : Nat) (br : blast_record K) (pep_c : peptide_cache) (tax_c : taxonomy_cache K)
    (min_score_weight : K) :
    ((count_hits exp pstore tax_c min_score_weight br.blast_hits pep_c).2.map
        Prod.fst).Sorted (· < ·) ∧
      (2 ≤ (count_hits exp pstore tax_c min_score_weight br.blast_hits pep_c).2.length →
        (∀ e ∈ (count_hits exp pstore tax_c min_score_weight br.blast_hits pep_c).2, 0 < e.2) →
        (∀ e ∈ (count_hits exp pstore tax_c min_score_weight br.blast_hits pep_c).2,
          has_lineage tstore fuel tax_c e.1) →
        ∃ score t,
          result_of (br.get_best_LPI exp pstore tstore fuel pep_c tax_c min_score_weight)
            = some (score, t) ∧
          0 < score ∧
          (∀ e ∈ (count_hits exp pstore tax_c min_score_weight br.blast_hits pep_c).2,
            candidate_lpi (lin tstore fuel tax_c)
              (count_hits exp pstore tax_c min_score_weight br.blast_hits pep_c).2 e.1
              ≤ score) ∧
          (∃ e ∈ (count_hits exp pstore tax_c min_score_weight br.blast_hits pep_c).2,
            e.1 = t ∧
            candidate_lpi (lin tstore fuel tax_c)
              (count_hits exp pstore tax_c min_score_weight br.blast_hits pep_c).2 e.1
              = score) ∧
          ∀ e ∈ (count_hits exp pstore tax_c min_score_weight br.blast_hits pep_c).2,
            candidate_lpi (lin tstore fuel tax_c)
              (count_hits exp pstore tax_c min_score_weight br.blast_hits pep_c).2 e.1
              = score → t ≤ e.1) ∧
      ∀ br1 : blast_record K, br.blast_hits.Perm br1.blast_hits →
        result_of (br.get_best_LPI exp pstore tstore fuel pep_c tax_c min_score_weight)
          = result_of (br1.get_best_LPI exp pstore tstore fuel pep_c tax_c
              min_score_weight) := by
  have hs := count_hits_sorted exp pstore tax_c min_score_weight br.blast_hits pep_c
  refine ⟨hs, ?_, ?_⟩
  · intro h2 hpos hd
    obtain ⟨pc, tc, hres⟩ := get_best_LPI_multi exp pstore tstore fuel br pep_c tax_c
      min_score_weight h2 hd
    obtain ⟨h3, h4⟩ := best_of_cases (lin tstore fuel tax_c) _ hs
    rcases h4 with h4 | ⟨h5, h6, h7, h8⟩
    · exfalso
      obtain ⟨e, he⟩ := List.exists_mem_of_length_pos
        (by omega : 0 < (count_hits exp pstore tax_c min_score_weight br.blast_hits
          pep_c).2.length)
      have h8 := h3 e he
      rw [h4] at h8
      have h9 := candidate_lpi_pos (lin tstore fuel tax_c) _ hpos e he
        (has_lineage_lin tstore fuel tax_c e.1 (hd e he)).2
      exact absurd (lt_of_lt_of_le h9 h8) (lt_irrefl _)
    · obtain ⟨e, he, hte⟩ := List.mem_map.1 h5
      refine ⟨_, _, by rw [hres]; rfl, h7, h3, ⟨e, he, hte, by rw [hte]; exact h6⟩, h8⟩
  · intro br1 hperm
    exact get_best_LPI_of_count exp pstore tstore fuel br br1 pep_c tax_c min_score_weight
      min_score_weight (count_hits_perm exp pstore tax_c min_score_weight hperm pep_c)

/-- Scenario D, with the hit on taxon 6 first: taxa 5 and 6 both attain the maximum LPI `5/6`, the
call returns `(5/6, 5)`, and so does the call on the two hits in the other order. -/
theorem get_best_LPI_smallest_id_perm_witness :
    (∃ score t,
        result_of (scenarioD_record.get_best_LPI Real.exp scenarioD_pstore scenarioD_tstore 3
          peptide_cache.empty (taxonomy_cache.empty ℝ) (1 / 10)) = some (score, t) ∧
        0 < score ∧
        (∀ e ∈ (count_hits Real.exp scenarioD_pstore (taxonomy_cache.empty ℝ) (1 / 10)
            scenarioD_record.blast_hits peptide_cache.empty).2,
          candidate_lpi (lin scenarioD_tstore 3 (taxonomy_cache.empty ℝ))
            (count_hits Real.exp scenarioD_pstore (taxonomy_cache.empty ℝ) (1 / 10)
              scenarioD_record.blast_hits peptide_cache.empty).2 e.1 ≤ score) ∧
        (∃ e ∈ (count_hits Real.exp scenarioD_pstore (taxonomy_cache.empty ℝ) (1 / 10)
            scenarioD_record.blast_hits peptide_cache.empty).2,
          e.1 = t ∧
          candidate_lpi (lin scenarioD_tstore 3 (taxonomy_cache.empty ℝ))
            (count_hits Real.exp scenarioD_pstore (taxonomy_cache.empty ℝ) (1 / 10)
              scenarioD_record.blast_hits peptide_cache.empty).2 e.1 = score) ∧
        ∀ e ∈ (count_hits Real.exp scenarioD_pstore (taxonomy_cache.empty ℝ) (1 / 10)
            scenarioD_record.blast_hits peptide_cache.empty).2,
          candidate_lpi (lin scenarioD_tstore 3 (taxonomy_cache.empty ℝ))
            (count_hits Real.exp scenarioD_pstore (taxonomy_cache.empty ℝ) (1 / 10)
              scenarioD_record.blast_hits peptide_cache.empty).2 e.1 = score → t ≤ e.1) ∧
      scenarioD_record.blast_hits.Perm scenarioA_record.blast_hits ∧
      result_of (scenarioD_record.get_best_LPI Real.exp scenarioD_pstore scenarioD_tstore 3
          peptide_cache.empty (taxonomy_cache.empty ℝ) (1 / 10))
        = result_of (scenarioA_record.get_best_LPI Real.exp scenarioD_pstore scenarioD_tstore 3
          peptide_cache.empty (taxonomy_cache.empty ℝ) (1 / 10)) ∧
      result_of (scenarioA_record.get_best_LPI Real.exp scenarioD_pstore scenarioD_tstore 3
          peptide_cache.empty (taxonomy_cache.empty ℝ) (1 / 10)) = some (5 / 6, 5) := by
  have h := get_best_LPI_smallest_id_perm Real.exp scenarioD_pstore scenarioD_tstore 3
    scenarioD_record peptide_cache.empty (taxonomy_cache.empty ℝ) (1 / 10)
  have hp : scenarioD_record.blast_hits.Perm scenarioA_record.blast_hits :=
    List.Perm.swap _ _ _
  refine ⟨h.2.1 (by rw [scenarioD_count]; simp) ?_ scenarioD_defined, hp,
    h.2.2 scenarioA_record hp, ?_⟩
  · rw [scenarioD_count]
    intro e he
    simp only [List.mem_cons, List.mem_singleton, List.not_mem_nil, or_false] at he
    rcases he with rfl | rfl <;> exact score_weight_real_pos 1
  · rw [← h.2.2 scenarioA_record hp, scenarioD_result]

end Properties

end LPIclassify
